import Mathlib

/-!
Verification development for the middle/back end of the `vibe-py` small-subset
C compiler.  The repository ships the compiler's C test-input corpus
(`comprehensive_test.c`, `dead_code_test.c`, `function_inlining_test.c`,
`simple_unroll_test.c`, `factorial_test.c`, ...); the compiler passes
themselves (semantic analyzer, constant folding/propagation, dead-code
elimination, inliner, unroller, register allocator) are specified in the
repository's specification and are modelled here from that specification.
The test programs are embedded from the C sources verbatim.

Arithmetic follows the specification: 32-bit two's-complement integers,
wrap-around on overflow, division truncating toward zero.
-/

namespace CComp

/-- Normalize an integer into 32-bit two's-complement range, wrapping. -/
def i32 (v : Int) : Int := (v + 2 ^ 31) % 2 ^ 32 - 2 ^ 31

theorem i32_lt (v : Int) : i32 v < 2 ^ 31 := by
  have h := Int.emod_lt_of_pos (v + 2 ^ 31) (by norm_num : (0:Int) < 2 ^ 32)
  unfold i32
  omega

theorem i32_ge (v : Int) : -2 ^ 31 ≤ i32 v := by
  have h := Int.emod_nonneg (v + 2 ^ 31) (by norm_num : (2:Int) ^ 32 ≠ 0)
  unfold i32
  omega

theorem i32_eq_self {v : Int} (h1 : -2 ^ 31 ≤ v) (h2 : v < 2 ^ 31) : i32 v = v := by
  unfold i32
  have : (v + 2 ^ 31) % 2 ^ 32 = v + 2 ^ 31 := Int.emod_eq_of_lt (by omega) (by omega)
  omega

theorem i32_idem (v : Int) : i32 (i32 v) = i32 v :=
  i32_eq_self (i32_ge v) (i32_lt v)

/-- Predicate: a value is already in 32-bit range. -/
def Norm32 (v : Int) : Prop := i32 v = v

theorem norm32_i32 (v : Int) : Norm32 (i32 v) := i32_idem v

theorem norm32_bounds {v : Int} (h : Norm32 v) : -2 ^ 31 ≤ v ∧ v < 2 ^ 31 := by
  constructor
  · have := i32_ge v; rw [h] at this; exact this
  · have := i32_lt v; rw [h] at this; exact this

/-! ## Abstract syntax

Modelled from the spec: AST node kinds per §3 of the specification
(`Literal, Variable, BinaryOp, UnaryOp, Call, Assign, If, While, For, Block,
Return, VarDecl, FuncDecl`), restricted to the integer fragment exercised by
the optimization corpus.  Expressions carry calls; assignments, declarations,
control flow and returns are statements.  A `for` loop has the canonical shape
`for (int x = e0; cond; x = step) body` used throughout the corpus. -/

inductive BinOp where
  | add | sub | mul | div
  | lt | gt | le | ge | eqOp | neOp
  | land | lor
deriving DecidableEq

inductive UnOp where
  | neg | lnot
deriving DecidableEq

mutual
inductive Expr where
  | lit (v : Int)
  | var (x : String)
  | bin (op : BinOp) (a b : Expr)
  | un (op : UnOp) (a : Expr)
  | call (f : String) (args : Args)
deriving DecidableEq

inductive Args where
  | nil
  | cons (e : Expr) (rest : Args)
deriving DecidableEq
end

mutual
inductive Stmt where
  | decl (x : String) (e : Expr)
  | assign (x : String) (e : Expr)
  | exprS (e : Expr)
  | ifS (c : Expr) (t e : Block)
  | whileS (c : Expr) (b : Block)
  | forS (x : String) (e0 : Expr) (c : Expr) (step : Expr) (b : Block)
  | blockS (b : Block)
  | ret (e : Expr)
deriving DecidableEq

inductive Block where
  | nil
  | cons (s : Stmt) (rest : Block)
deriving DecidableEq
end

structure Fn where
  name : String
  params : List String
  body : Block
deriving DecidableEq

/-- A program is its list of function declarations; entry point is `main`. -/
abbrev Prog : Type := List Fn

/-! ## Execution semantics (fuel-indexed) -/

/-- Variable environment: innermost binding first. -/
abbrev Env : Type := List (String × Int)

def lookupV : Env → String → Option Int
  | [], _ => none
  | (y, v) :: rest, x => if x = y then some v else lookupV rest x

/-- Update the first binding of `x` in place, or prepend if absent. -/
def updateV : Env → String → Int → Env
  | [], x, v => [(x, v)]
  | (y, w) :: rest, x, v =>
    if x = y then (y, v) :: rest else (y, w) :: updateV rest x v

def lookupFn : Prog → String → Option Fn
  | [], _ => none
  | f :: rest, g => if g = f.name then some f else lookupFn rest g

/-- Bind parameter names to argument values. -/
def bindParams : List String → List Int → Env
  | [], _ => []
  | _, [] => []
  | x :: xs, v :: vs => (x, v) :: bindParams xs vs

/-- Truthiness of a C int. -/
def truthy (v : Int) : Bool := v != 0

def denotBin (op : BinOp) (a b : Int) : Int :=
  match op with
  | .add => i32 (a + b)
  | .sub => i32 (a - b)
  | .mul => i32 (a * b)
  | .div => i32 (Int.tdiv a b)
  | .lt => if a < b then 1 else 0
  | .gt => if b < a then 1 else 0
  | .le => if a ≤ b then 1 else 0
  | .ge => if b ≤ a then 1 else 0
  | .eqOp => if a = b then 1 else 0
  | .neOp => if a = b then 0 else 1
  | .land => if a ≠ 0 ∧ b ≠ 0 then 1 else 0
  | .lor => if a ≠ 0 ∨ b ≠ 0 then 1 else 0

def denotUn (op : UnOp) (a : Int) : Int :=
  match op with
  | .neg => i32 (-a)
  | .lnot => if a = 0 then 1 else 0

/-- Result of running a statement/block: fall-through with an updated
environment, or an early `return`. -/
inductive StepRes where
  | norm (env : Env)
  | ret (v : Int)

/-- Return value of a finished function body (fall-through is an error;
the analyzer flags `MissingReturn`). -/
def retVal : StepRes → Option Int
  | .ret v => some v
  | .norm _ => none

mutual
/-- Modelled from the spec: expression evaluation.  Every recursive call
consumes one unit of fuel; `none` means out of fuel (or a missing name).
A variable read is normalized to 32 bits (memory cells are C `int`s). -/
def evalE : Nat → Prog → Env → Expr → Option Int
  | 0, _, _, _ => none
  | _ + 1, _, _, .lit v => some (i32 v)
  | _ + 1, _, env, .var x => (lookupV env x).map i32
  | fuel + 1, p, env, .bin op a b =>
    (evalE fuel p env a).bind fun va =>
      (evalE fuel p env b).bind fun vb => some (denotBin op va vb)
  | fuel + 1, p, env, .un op a =>
    (evalE fuel p env a).bind fun va => some (denotUn op va)
  | fuel + 1, p, env, .call f args =>
    (evalArgs fuel p env args).bind fun vs => callFn fuel p f vs

def evalArgs : Nat → Prog → Env → Args → Option (List Int)
  | 0, _, _, _ => none
  | _ + 1, _, _, .nil => some []
  | fuel + 1, p, env, .cons e rest =>
    (evalE fuel p env e).bind fun v =>
      (evalArgs fuel p env rest).bind fun vs => some (v :: vs)

/-- Call a function: bind parameters, run the body. -/
def callFn : Nat → Prog → String → List Int → Option Int
  | 0, _, _, _ => none
  | fuel + 1, p, f, vs =>
    (lookupFn p f).bind fun fn =>
      (execB fuel p (bindParams fn.params vs) fn.body).bind retVal

def execS : Nat → Prog → Env → Stmt → Option StepRes
  | 0, _, _, _ => none
  | fuel + 1, p, env, .decl x e =>
    (evalE fuel p env e).bind fun v => some (.norm ((x, v) :: env))
  | fuel + 1, p, env, .assign x e =>
    (evalE fuel p env e).bind fun v => some (.norm (updateV env x v))
  | fuel + 1, p, env, .exprS e =>
    (evalE fuel p env e).bind fun _ => some (.norm env)
  | fuel + 1, p, env, .ifS c t e =>
    (evalE fuel p env c).bind fun vc =>
      if truthy vc then execB fuel p env t else execB fuel p env e
  | fuel + 1, p, env, .whileS c b =>
    (evalE fuel p env c).bind fun vc =>
      if truthy vc then
        (execB fuel p env b).bind fun r =>
          match r with
          | .ret v => some (.ret v)
          | .norm env' => execS fuel p env' (.whileS c b)
      else some (.norm env)
  | fuel + 1, p, env, .forS x e0 c step b =>
    (evalE fuel p env e0).bind fun v0 =>
      execFor fuel p ((x, v0) :: env) x c step b
  | fuel + 1, p, env, .blockS b => execB fuel p env b
  | fuel + 1, p, env, .ret e =>
    (evalE fuel p env e).bind fun v => some (.ret v)

/-- Iterate a `for` loop whose variable is already bound.  In this flat
model the loop variable's binding stays in the environment at exit;
accepted programs never read it after the loop (C scoping). -/
def execFor : Nat → Prog → Env → String → Expr → Expr → Block → Option StepRes
  | 0, _, _, _, _, _, _ => none
  | fuel + 1, p, env, x, c, step, b =>
    (evalE fuel p env c).bind fun vc =>
      if truthy vc then
        (execB fuel p env b).bind fun r =>
          match r with
          | .ret v => some (.ret v)
          | .norm env' =>
            (evalE fuel p env' step).bind fun vs =>
              execFor fuel p (updateV env' x vs) x c step b
      else some (.norm env)

def execB : Nat → Prog → Env → Block → Option StepRes
  | 0, _, _, _ => none
  | _ + 1, _, env, .nil => some (.norm env)
  | fuel + 1, p, env, .cons s rest =>
    (execS fuel p env s).bind fun r =>
      match r with
      | .ret v => some (.ret v)
      | .norm env' => execB fuel p env' rest
end

/-! Unfolding equations, stated in `Option.bind` form for use with
`Option.bind_eq_some`. -/

theorem evalE_lit (fuel : Nat) (p : Prog) (env : Env) (v : Int) :
    evalE (fuel + 1) p env (.lit v) = some (i32 v) := rfl

theorem evalE_var (fuel : Nat) (p : Prog) (env : Env) (x : String) :
    evalE (fuel + 1) p env (.var x) = (lookupV env x).map i32 := rfl

theorem evalE_bin (fuel : Nat) (p : Prog) (env : Env) (op : BinOp) (a b : Expr) :
    evalE (fuel + 1) p env (.bin op a b) =
      (evalE fuel p env a).bind fun va =>
        (evalE fuel p env b).bind fun vb => some (denotBin op va vb) := rfl

theorem evalE_un (fuel : Nat) (p : Prog) (env : Env) (op : UnOp) (a : Expr) :
    evalE (fuel + 1) p env (.un op a) =
      (evalE fuel p env a).bind fun va => some (denotUn op va) := rfl

theorem evalE_call (fuel : Nat) (p : Prog) (env : Env) (f : String) (args : Args) :
    evalE (fuel + 1) p env (.call f args) =
      (evalArgs fuel p env args).bind fun vs => callFn fuel p f vs := rfl

theorem evalArgs_nil (fuel : Nat) (p : Prog) (env : Env) :
    evalArgs (fuel + 1) p env .nil = some [] := rfl

theorem evalArgs_cons (fuel : Nat) (p : Prog) (env : Env) (e : Expr) (rest : Args) :
    evalArgs (fuel + 1) p env (.cons e rest) =
      (evalE fuel p env e).bind fun v =>
        (evalArgs fuel p env rest).bind fun vs => some (v :: vs) := rfl

theorem callFn_succ (fuel : Nat) (p : Prog) (f : String) (vs : List Int) :
    callFn (fuel + 1) p f vs =
      (lookupFn p f).bind fun fn =>
        (execB fuel p (bindParams fn.params vs) fn.body).bind retVal := rfl

theorem execS_decl (fuel : Nat) (p : Prog) (env : Env) (x : String) (e : Expr) :
    execS (fuel + 1) p env (.decl x e) =
      (evalE fuel p env e).bind fun v => some (.norm ((x, v) :: env)) := rfl

theorem execS_assign (fuel : Nat) (p : Prog) (env : Env) (x : String) (e : Expr) :
    execS (fuel + 1) p env (.assign x e) =
      (evalE fuel p env e).bind fun v => some (.norm (updateV env x v)) := rfl

theorem execS_exprS (fuel : Nat) (p : Prog) (env : Env) (e : Expr) :
    execS (fuel + 1) p env (.exprS e) =
      (evalE fuel p env e).bind fun _ => some (.norm env) := rfl

theorem execS_ifS (fuel : Nat) (p : Prog) (env : Env) (c : Expr) (t e : Block) :
    execS (fuel + 1) p env (.ifS c t e) =
      (evalE fuel p env c).bind fun vc =>
        if truthy vc then execB fuel p env t else execB fuel p env e := rfl

theorem execS_whileS (fuel : Nat) (p : Prog) (env : Env) (c : Expr) (b : Block) :
    execS (fuel + 1) p env (.whileS c b) =
      (evalE fuel p env c).bind fun vc =>
        if truthy vc then
          (execB fuel p env b).bind fun r =>
            match r with
            | .ret v => some (.ret v)
            | .norm env' => execS fuel p env' (.whileS c b)
        else some (.norm env) := rfl

theorem execS_forS (fuel : Nat) (p : Prog) (env : Env) (x : String)
    (e0 c step : Expr) (b : Block) :
    execS (fuel + 1) p env (.forS x e0 c step b) =
      (evalE fuel p env e0).bind fun v0 =>
        execFor fuel p ((x, v0) :: env) x c step b := rfl

theorem execS_blockS (fuel : Nat) (p : Prog) (env : Env) (b : Block) :
    execS (fuel + 1) p env (.blockS b) = execB fuel p env b := rfl

theorem execS_ret (fuel : Nat) (p : Prog) (env : Env) (e : Expr) :
    execS (fuel + 1) p env (.ret e) =
      (evalE fuel p env e).bind fun v => some (.ret v) := rfl

theorem execFor_succ (fuel : Nat) (p : Prog) (env : Env) (x : String)
    (c step : Expr) (b : Block) :
    execFor (fuel + 1) p env x c step b =
      (evalE fuel p env c).bind fun vc =>
        if truthy vc then
          (execB fuel p env b).bind fun r =>
            match r with
            | .ret v => some (.ret v)
            | .norm env' =>
              (evalE fuel p env' step).bind fun vs =>
                execFor fuel p (updateV env' x vs) x c step b
        else some (.norm env) := rfl

theorem execB_nil (fuel : Nat) (p : Prog) (env : Env) :
    execB (fuel + 1) p env .nil = some (.norm env) := rfl

theorem execB_cons (fuel : Nat) (p : Prog) (env : Env) (s : Stmt) (rest : Block) :
    execB (fuel + 1) p env (.cons s rest) =
      (execS fuel p env s).bind fun r =>
        match r with
        | .ret v => some (.ret v)
        | .norm env' => execB fuel p env' rest := rfl

/-- Observable result of a program: the value returned by `main`. -/
def execProgram (p : Prog) (fuel : Nat) : Option Int := callFn fuel p "main" []

/-! ## Fuel stability: adding fuel never changes a completed result -/

theorem stable_succ (fuel : Nat) :
    (∀ p env e v, evalE fuel p env e = some v → evalE (fuel + 1) p env e = some v) ∧
    (∀ p env as vs, evalArgs fuel p env as = some vs → evalArgs (fuel + 1) p env as = some vs) ∧
    (∀ p f vs v, callFn fuel p f vs = some v → callFn (fuel + 1) p f vs = some v) ∧
    (∀ p env s r, execS fuel p env s = some r → execS (fuel + 1) p env s = some r) ∧
    (∀ p env x c st b r, execFor fuel p env x c st b = some r →
      execFor (fuel + 1) p env x c st b = some r) ∧
    (∀ p env b r, execB fuel p env b = some r → execB (fuel + 1) p env b = some r) := by
  induction fuel with
  | zero =>
    refine ⟨?_, ?_, ?_, ?_, ?_, ?_⟩
    · intro p env e v h; simp [evalE] at h
    · intro p env as vs h; simp [evalArgs] at h
    · intro p f vs v h; simp [callFn] at h
    · intro p env s r h; simp [execS] at h
    · intro p env x c st b r h; simp [execFor] at h
    · intro p env b r h; simp [execB] at h
  | succ fuel ih =>
    obtain ⟨ihE, ihA, ihC, ihS, ihF, ihB⟩ := ih
    refine ⟨?_, ?_, ?_, ?_, ?_, ?_⟩
    · intro p env e v h
      cases e with
      | lit w => exact h
      | var x => exact h
      | bin op a b =>
        rw [evalE_bin] at h ⊢
        simp only [Option.bind_eq_some] at h ⊢
        obtain ⟨va, ha, vb, hb, hv⟩ := h
        exact ⟨va, ihE _ _ _ _ ha, vb, ihE _ _ _ _ hb, hv⟩
      | un op a =>
        rw [evalE_un] at h ⊢
        simp only [Option.bind_eq_some] at h ⊢
        obtain ⟨va, ha, hv⟩ := h
        exact ⟨va, ihE _ _ _ _ ha, hv⟩
      | call f args =>
        rw [evalE_call] at h ⊢
        simp only [Option.bind_eq_some] at h ⊢
        obtain ⟨vs, hargs, hcall⟩ := h
        exact ⟨vs, ihA _ _ _ _ hargs, ihC _ _ _ _ hcall⟩
    · intro p env as vs h
      cases as with
      | nil => exact h
      | cons e rest =>
        rw [evalArgs_cons] at h ⊢
        simp only [Option.bind_eq_some] at h ⊢
        obtain ⟨v, he, vs0, hrest, hv⟩ := h
        exact ⟨v, ihE _ _ _ _ he, vs0, ihA _ _ _ _ hrest, hv⟩
    · intro p f vs v h
      rw [callFn_succ] at h ⊢
      simp only [Option.bind_eq_some] at h ⊢
      obtain ⟨fn, hfn, r, hr, hm⟩ := h
      exact ⟨fn, hfn, r, ihB _ _ _ _ hr, hm⟩
    · intro p env s r h
      cases s with
      | decl x e =>
        rw [execS_decl] at h ⊢
        simp only [Option.bind_eq_some] at h ⊢
        obtain ⟨v, hv, hr⟩ := h
        exact ⟨v, ihE _ _ _ _ hv, hr⟩
      | assign x e =>
        rw [execS_assign] at h ⊢
        simp only [Option.bind_eq_some] at h ⊢
        obtain ⟨v, hv, hr⟩ := h
        exact ⟨v, ihE _ _ _ _ hv, hr⟩
      | exprS e =>
        rw [execS_exprS] at h ⊢
        simp only [Option.bind_eq_some] at h ⊢
        obtain ⟨v, hv, hr⟩ := h
        exact ⟨v, ihE _ _ _ _ hv, hr⟩
      | ifS c t e =>
        rw [execS_ifS] at h ⊢
        simp only [Option.bind_eq_some] at h ⊢
        obtain ⟨vc, hc, hbr⟩ := h
        refine ⟨vc, ihE _ _ _ _ hc, ?_⟩
        cases htr : truthy vc <;> simp only [htr, if_true, if_false, Bool.false_eq_true] at hbr ⊢
        · exact ihB _ _ _ _ hbr
        · exact ihB _ _ _ _ hbr
      | whileS c b =>
        rw [execS_whileS] at h ⊢
        simp only [Option.bind_eq_some] at h ⊢
        obtain ⟨vc, hc, hbr⟩ := h
        refine ⟨vc, ihE _ _ _ _ hc, ?_⟩
        cases htr : truthy vc <;> simp only [htr, if_true, if_false, Bool.false_eq_true] at hbr ⊢
        · exact hbr
        · simp only [Option.bind_eq_some] at hbr ⊢
          obtain ⟨r0, hb, hm⟩ := hbr
          refine ⟨r0, ihB _ _ _ _ hb, ?_⟩
          cases r0 with
          | ret v => exact hm
          | norm env' => exact ihS _ _ _ _ hm
      | forS x e0 c step b =>
        rw [execS_forS] at h ⊢
        simp only [Option.bind_eq_some] at h ⊢
        obtain ⟨v0, h0, hfor⟩ := h
        exact ⟨v0, ihE _ _ _ _ h0, ihF _ _ _ _ _ _ _ hfor⟩
      | blockS b =>
        rw [execS_blockS] at h ⊢
        exact ihB _ _ _ _ h
      | ret e =>
        rw [execS_ret] at h ⊢
        simp only [Option.bind_eq_some] at h ⊢
        obtain ⟨v, hv, hr⟩ := h
        exact ⟨v, ihE _ _ _ _ hv, hr⟩
    · intro p env x c st b r h
      rw [execFor_succ] at h ⊢
      simp only [Option.bind_eq_some] at h ⊢
      obtain ⟨vc, hc, hbr⟩ := h
      refine ⟨vc, ihE _ _ _ _ hc, ?_⟩
      cases htr : truthy vc <;> simp only [htr, if_true, if_false, Bool.false_eq_true] at hbr ⊢
      · exact hbr
      · simp only [Option.bind_eq_some] at hbr ⊢
        obtain ⟨r0, hb, hm⟩ := hbr
        refine ⟨r0, ihB _ _ _ _ hb, ?_⟩
        cases r0 with
        | ret v => exact hm
        | norm env' =>
          simp only [Option.bind_eq_some] at hm ⊢
          obtain ⟨vs, hvs, hnext⟩ := hm
          exact ⟨vs, ihE _ _ _ _ hvs, ihF _ _ _ _ _ _ _ hnext⟩
    · intro p env b r h
      cases b with
      | nil => exact h
      | cons s rest =>
        rw [execB_cons] at h ⊢
        simp only [Option.bind_eq_some] at h ⊢
        obtain ⟨r0, hs, hm⟩ := h
        refine ⟨r0, ihS _ _ _ _ hs, ?_⟩
        cases r0 with
        | ret v => exact hm
        | norm env' => exact ihB _ _ _ _ hm

/-! Monotone versions: any larger fuel also succeeds with the same value. -/

theorem evalE_mono {f g : Nat} (hfg : f ≤ g) {p : Prog} {env : Env} {e : Expr} {v : Int}
    (h : evalE f p env e = some v) : evalE g p env e = some v := by
  induction hfg with
  | refl => exact h
  | step _ ih => exact (stable_succ _).1 _ _ _ _ ih

theorem evalArgs_mono {f g : Nat} (hfg : f ≤ g) {p : Prog} {env : Env} {as : Args}
    {vs : List Int} (h : evalArgs f p env as = some vs) : evalArgs g p env as = some vs := by
  induction hfg with
  | refl => exact h
  | step _ ih => exact (stable_succ _).2.1 _ _ _ _ ih

theorem callFn_mono {f g : Nat} (hfg : f ≤ g) {p : Prog} {fname : String} {vs : List Int}
    {v : Int} (h : callFn f p fname vs = some v) : callFn g p fname vs = some v := by
  induction hfg with
  | refl => exact h
  | step _ ih => exact (stable_succ _).2.2.1 _ _ _ _ ih

theorem execS_mono {f g : Nat} (hfg : f ≤ g) {p : Prog} {env : Env} {s : Stmt}
    {r : StepRes} (h : execS f p env s = some r) : execS g p env s = some r := by
  induction hfg with
  | refl => exact h
  | step _ ih => exact (stable_succ _).2.2.2.1 _ _ _ _ ih

theorem execFor_mono {f g : Nat} (hfg : f ≤ g) {p : Prog} {env : Env} {x : String}
    {c st : Expr} {b : Block} {r : StepRes} (h : execFor f p env x c st b = some r) :
    execFor g p env x c st b = some r := by
  induction hfg with
  | refl => exact h
  | step _ ih => exact (stable_succ _).2.2.2.2.1 _ _ _ _ _ _ _ ih

theorem execB_mono {f g : Nat} (hfg : f ≤ g) {p : Prog} {env : Env} {b : Block}
    {r : StepRes} (h : execB f p env b = some r) : execB g p env b = some r := by
  induction hfg with
  | refl => exact h
  | step _ ih => exact (stable_succ _).2.2.2.2.2 _ _ _ _ ih

/-! ## All evaluated values are 32-bit normalized -/

theorem norm32_zero : Norm32 0 := by unfold Norm32 i32; norm_num

theorem norm32_one : Norm32 1 := by unfold Norm32 i32; norm_num

theorem denotBin_norm (op : BinOp) (a b : Int) : Norm32 (denotBin op a b) := by
  cases op <;> simp only [denotBin] <;>
    first
      | exact norm32_i32 _
      | split <;> first | exact norm32_one | exact norm32_zero

theorem denotUn_norm (op : UnOp) (a : Int) : Norm32 (denotUn op a) := by
  cases op <;> simp only [denotUn]
  · exact norm32_i32 _
  · split <;> first | exact norm32_one | exact norm32_zero

/-- Whether a returned `StepRes` carries a normalized value. -/
def RetNorm : StepRes → Prop
  | .norm _ => True
  | .ret v => Norm32 v

theorem eval_norm (fuel : Nat) :
    (∀ p env e v, evalE fuel p env e = some v → Norm32 v) ∧
    (∀ p f vs v, callFn fuel p f vs = some v → Norm32 v) ∧
    (∀ p env s r, execS fuel p env s = some r → RetNorm r) ∧
    (∀ p env x c st b r, execFor fuel p env x c st b = some r → RetNorm r) ∧
    (∀ p env b r, execB fuel p env b = some r → RetNorm r) := by
  induction fuel with
  | zero =>
    refine ⟨?_, ?_, ?_, ?_, ?_⟩
    · intro p env e v h; simp [evalE] at h
    · intro p f vs v h; simp [callFn] at h
    · intro p env s r h; simp [execS] at h
    · intro p env x c st b r h; simp [execFor] at h
    · intro p env b r h; simp [execB] at h
  | succ fuel ih =>
    obtain ⟨ihE, ihC, ihS, ihF, ihB⟩ := ih
    refine ⟨?_, ?_, ?_, ?_, ?_⟩
    · intro p env e v h
      cases e with
      | lit w =>
        rw [evalE_lit] at h
        cases h; exact norm32_i32 _
      | var x =>
        rw [evalE_var] at h
        cases hx : lookupV env x <;> rw [hx] at h <;> simp at h
        rw [← h]; exact norm32_i32 _
      | bin op a b =>
        rw [evalE_bin] at h
        simp only [Option.bind_eq_some] at h
        obtain ⟨va, _, vb, _, hv⟩ := h
        cases hv; exact denotBin_norm _ _ _
      | un op a =>
        rw [evalE_un] at h
        simp only [Option.bind_eq_some] at h
        obtain ⟨va, _, hv⟩ := h
        cases hv; exact denotUn_norm _ _
      | call f args =>
        rw [evalE_call] at h
        simp only [Option.bind_eq_some] at h
        obtain ⟨vs, _, hcall⟩ := h
        exact ihC _ _ _ _ hcall
    · intro p f vs v h
      rw [callFn_succ] at h
      simp only [Option.bind_eq_some] at h
      obtain ⟨fn, _, r, hr, hm⟩ := h
      have := ihB _ _ _ _ hr
      cases r with
      | ret w => cases hm; exact this
      | norm _ => simp [retVal] at hm
    · intro p env s r h
      cases s with
      | decl x e =>
        rw [execS_decl] at h
        simp only [Option.bind_eq_some] at h
        obtain ⟨v, _, hr⟩ := h
        cases hr; trivial
      | assign x e =>
        rw [execS_assign] at h
        simp only [Option.bind_eq_some] at h
        obtain ⟨v, _, hr⟩ := h
        cases hr; trivial
      | exprS e =>
        rw [execS_exprS] at h
        simp only [Option.bind_eq_some] at h
        obtain ⟨v, _, hr⟩ := h
        cases hr; trivial
      | ifS c t e =>
        rw [execS_ifS] at h
        simp only [Option.bind_eq_some] at h
        obtain ⟨vc, _, hbr⟩ := h
        cases htr : truthy vc <;> simp only [htr, if_true, if_false, Bool.false_eq_true] at hbr
        · exact ihB _ _ _ _ hbr
        · exact ihB _ _ _ _ hbr
      | whileS c b =>
        rw [execS_whileS] at h
        simp only [Option.bind_eq_some] at h
        obtain ⟨vc, _, hbr⟩ := h
        cases htr : truthy vc <;> simp only [htr, if_true, if_false, Bool.false_eq_true] at hbr
        · cases hbr; trivial
        · simp only [Option.bind_eq_some] at hbr
          obtain ⟨r0, hb, hm⟩ := hbr
          cases r0 with
          | ret v => cases hm; exact ihB _ _ _ _ hb
          | norm env' => exact ihS _ _ _ _ hm
      | forS x e0 c step b =>
        rw [execS_forS] at h
        simp only [Option.bind_eq_some] at h
        obtain ⟨v0, _, hfor⟩ := h
        exact ihF _ _ _ _ _ _ _ hfor
      | blockS b =>
        rw [execS_blockS] at h
        exact ihB _ _ _ _ h
      | ret e =>
        rw [execS_ret] at h
        simp only [Option.bind_eq_some] at h
        obtain ⟨v, hv, hr⟩ := h
        cases hr; exact ihE _ _ _ _ hv
    · intro p env x c st b r h
      rw [execFor_succ] at h
      simp only [Option.bind_eq_some] at h
      obtain ⟨vc, _, hbr⟩ := h
      cases htr : truthy vc <;> simp only [htr, if_true, if_false, Bool.false_eq_true] at hbr
      · cases hbr; trivial
      · simp only [Option.bind_eq_some] at hbr
        obtain ⟨r0, hb, hm⟩ := hbr
        cases r0 with
        | ret v => cases hm; exact ihB _ _ _ _ hb
        | norm env' =>
          simp only [Option.bind_eq_some] at hm
          obtain ⟨vs, _, hnext⟩ := hm
          exact ihF _ _ _ _ _ _ _ hnext
    · intro p env b r h
      cases b with
      | nil =>
        rw [execB_nil] at h
        cases h; trivial
      | cons s rest =>
        rw [execB_cons] at h
        simp only [Option.bind_eq_some] at h
        obtain ⟨r0, hs, hm⟩ := h
        cases r0 with
        | ret v => cases hm; exact ihS _ _ _ _ hs
        | norm env' => exact ihB _ _ _ _ hm

theorem evalE_norm {fuel : Nat} {p : Prog} {env : Env} {e : Expr} {v : Int}
    (h : evalE fuel p env e = some v) : Norm32 v := (eval_norm fuel).1 _ _ _ _ h

/-! ## Constant Folding (spec §4.3a)

Modelled from the spec: folding replaces a subexpression whose operands are
literal constants by the computed literal, using target arithmetic (32-bit
two's complement, truncating division); division by a literal zero is left
in place.  The algebraic identities `x + 0 → x`, `x * 1 → x`, `x * 0 → 0`,
`x - 0 → x`, `x / 1 → x` (plus the mirrored `0 + x → x` exercised by the
corpus) are applied regardless of whether `x` is constant.  At statement
level a conditional with a literal test keeps only the corresponding branch
and a loop whose test folds to a false literal is deleted. -/

def isLit : Expr → Option Int
  | .lit v => some v
  | _ => none

theorem isLit_eq {e : Expr} {v : Int} (h : isLit e = some v) : e = .lit v := by
  cases e <;> simp [isLit] at h <;> try exact absurd h (by simp)
  rw [h]

/-- Smart binary-node constructor implementing folding and the identities. -/
def mkBin (op : BinOp) (a b : Expr) : Expr :=
  match isLit a, isLit b with
  | some x, some y =>
    if op = .div ∧ y = 0 then .bin op a b else .lit (denotBin op x y)
  | none, some y =>
    if (op = .add ∨ op = .sub) ∧ y = 0 then a
    else if (op = .mul ∨ op = .div) ∧ y = 1 then a
    else if op = .mul ∧ y = 0 then .lit 0
    else .bin op a b
  | some x, none => if op = .add ∧ x = 0 then b else .bin op a b
  | none, none => .bin op a b

/-- Smart unary-node constructor folding literal operands. -/
def mkUn (op : UnOp) (a : Expr) : Expr :=
  match isLit a with
  | some x => .lit (denotUn op x)
  | none => .un op a

mutual
def foldE : Expr → Expr
  | .lit v => .lit (i32 v)
  | .var x => .var x
  | .bin op a b => mkBin op (foldE a) (foldE b)
  | .un op a => mkUn op (foldE a)
  | .call f args => .call f (foldArgs args)

def foldArgs : Args → Args
  | .nil => .nil
  | .cons e rest => .cons (foldE e) (foldArgs rest)
end

mutual
def foldS : Stmt → Stmt
  | .decl x e => .decl x (foldE e)
  | .assign x e => .assign x (foldE e)
  | .exprS e => .exprS (foldE e)
  | .ifS c t e =>
    match isLit (foldE c) with
    | some v => if v = 0 then .blockS (foldB e) else .blockS (foldB t)
    | none => .ifS (foldE c) (foldB t) (foldB e)
  | .whileS c b =>
    match isLit (foldE c) with
    | some v => if v = 0 then .blockS .nil else .whileS (foldE c) (foldB b)
    | none => .whileS (foldE c) (foldB b)
  | .forS x e0 c step b => .forS x (foldE e0) (foldE c) (foldE step) (foldB b)
  | .blockS b => .blockS (foldB b)
  | .ret e => .ret (foldE e)

def foldB : Block → Block
  | .nil => .nil
  | .cons s rest => .cons (foldS s) (foldB rest)
end

def foldFn (f : Fn) : Fn := ⟨f.name, f.params, foldB f.body⟩

def foldProg (p : Prog) : Prog := p.map foldFn

/-- Any literal produced by the folding pass is 32-bit normalized. -/
theorem fold_lit_norm : (e : Expr) → ∀ v : Int, foldE e = .lit v → Norm32 v
  | .lit w => by
    intro v h
    simp only [foldE] at h
    cases h; exact norm32_i32 _
  | .var x => by intro v h; simp [foldE] at h
  | .bin op a b => by
    intro v h
    simp only [foldE, mkBin] at h
    cases hA : isLit (foldE a) <;> cases hB : isLit (foldE b) <;>
      simp only [hA, hB] at h
    · simp at h
    · split at h
      · exact fold_lit_norm a _ h
      · split at h
        · exact fold_lit_norm a _ h
        · split at h
          · cases h; exact norm32_zero
          · simp at h
    · split at h
      · exact fold_lit_norm b _ h
      · simp at h
    · split at h
      · simp at h
      · cases h; exact denotBin_norm _ _ _
  | .un op a => by
    intro v h
    simp only [foldE, mkUn] at h
    cases hA : isLit (foldE a) <;> simp only [hA] at h
    · simp at h
    · cases h; exact denotUn_norm _ _
  | .call f args => by intro v h; simp [foldE] at h

theorem evalE_lit_inv {fuel : Nat} {p : Prog} {env : Env} {x v : Int}
    (h : evalE fuel p env (.lit x) = some v) : v = i32 x := by
  cases fuel with
  | zero => simp [evalE] at h
  | succ f => rw [evalE_lit] at h; cases h; rfl

theorem denot_add_zero {v : Int} (h : Norm32 v) : denotBin .add v 0 = v := by
  simp only [denotBin, add_zero]; exact h

theorem denot_sub_zero {v : Int} (h : Norm32 v) : denotBin .sub v 0 = v := by
  simp only [denotBin, sub_zero]; exact h

theorem denot_mul_one {v : Int} (h : Norm32 v) : denotBin .mul v 1 = v := by
  simp only [denotBin, mul_one]; exact h

theorem denot_div_one {v : Int} (h : Norm32 v) : denotBin .div v 1 = v := by
  simp only [denotBin, Int.tdiv_one]; exact h

theorem denot_mul_zero (v : Int) : denotBin .mul v 0 = 0 := by
  simp only [denotBin, mul_zero]; exact norm32_zero

theorem denot_zero_add {v : Int} (h : Norm32 v) : denotBin .add 0 v = v := by
  simp only [denotBin, zero_add]; exact h

/-- Value correctness of the smart constructor: the built expression
evaluates to exactly what the original binary node would. -/
theorem mkBin_eval {fuel : Nat} {p : Prog} {env : Env} {op : BinOp} {a b : Expr}
    {va vb : Int} (ha : evalE fuel p env a = some va) (hb : evalE fuel p env b = some vb)
    (hna : ∀ x, a = .lit x → Norm32 x) (hnb : ∀ y, b = .lit y → Norm32 y) :
    evalE (fuel + 1) p env (mkBin op a b) = some (denotBin op va vb) := by
  have hva : Norm32 va := evalE_norm ha
  have hvb : Norm32 vb := evalE_norm hb
  cases hA : isLit a with
  | some x =>
    have hax : a = .lit x := isLit_eq hA
    have hvax : va = x := by
      have := evalE_lit_inv (hax ▸ ha)
      rw [this]; exact hna x hax
    cases hB : isLit b with
    | some y =>
      have hby : b = .lit y := isLit_eq hB
      have hvby : vb = y := by
        have := evalE_lit_inv (hby ▸ hb)
        rw [this]; exact hnb y hby
      simp only [mkBin, hA, hB]
      split
      · rw [evalE_bin, ha, hb]; rfl
      · rw [evalE_lit, hvax, hvby]
        exact congrArg some (denotBin_norm op x y)
    | none =>
      simp only [mkBin, hA, hB]
      split
      · next hcond =>
        obtain ⟨hop, hx0⟩ := hcond
        subst hop
        rw [hvax, hx0, denot_zero_add hvb]
        exact evalE_mono (Nat.le_succ fuel) hb
      · rw [evalE_bin, ha, hb]; rfl
  | none =>
    cases hB : isLit b with
    | some y =>
      have hby : b = .lit y := isLit_eq hB
      have hvby : vb = y := by
        have := evalE_lit_inv (hby ▸ hb)
        rw [this]; exact hnb y hby
      simp only [mkBin, hA, hB]
      split
      · next hcond =>
        obtain ⟨hop, hy0⟩ := hcond
        have hgoal : denotBin op va vb = va := by
          cases hop with
          | inl h1 => rw [h1, hvby, hy0]; exact denot_add_zero hva
          | inr h1 => rw [h1, hvby, hy0]; exact denot_sub_zero hva
        rw [hgoal]
        exact evalE_mono (Nat.le_succ fuel) ha
      · split
        · next hcond =>
          obtain ⟨hop, hy1⟩ := hcond
          have hgoal : denotBin op va vb = va := by
            cases hop with
            | inl h1 => rw [h1, hvby, hy1]; exact denot_mul_one hva
            | inr h1 => rw [h1, hvby, hy1]; exact denot_div_one hva
          rw [hgoal]
          exact evalE_mono (Nat.le_succ fuel) ha
        · split
          · next hcond =>
            obtain ⟨hop, hy0⟩ := hcond
            rw [evalE_lit, hop, hvby, hy0, denot_mul_zero va]
            exact congrArg some norm32_zero
          · rw [evalE_bin, ha, hb]; rfl
    | none =>
      simp only [mkBin, hA, hB]
      rw [evalE_bin, ha, hb]; rfl

theorem mkUn_eval {fuel : Nat} {p : Prog} {env : Env} {op : UnOp} {a : Expr}
    {va : Int} (ha : evalE fuel p env a = some va)
    (hna : ∀ x, a = .lit x → Norm32 x) :
    evalE (fuel + 1) p env (mkUn op a) = some (denotUn op va) := by
  cases hA : isLit a with
  | some x =>
    have hax : a = .lit x := isLit_eq hA
    have hvax : va = x := by
      have := evalE_lit_inv (hax ▸ ha)
      rw [this]; exact hna x hax
    simp only [mkUn, hA]
    rw [evalE_lit, hvax]
    exact congrArg some (denotUn_norm op x)
  | none =>
    simp only [mkUn, hA]
    rw [evalE_un, ha]; rfl

theorem lookupFn_fold {p : Prog} {f : String} {fn : Fn} (h : lookupFn p f = some fn) :
    lookupFn (foldProg p) f = some (foldFn fn) := by
  induction p with
  | nil => simp [lookupFn] at h
  | cons g rest ih =>
    simp only [foldProg, List.map_cons, lookupFn] at h ⊢
    by_cases hf : f = g.name
    · rw [if_pos hf] at h
      cases h
      rw [if_pos (by simpa [foldFn] using hf)]
    · rw [if_neg hf] at h
      rw [if_neg (by simpa [foldFn] using hf)]
      exact ih h

/-- The Constant Folding pass preserves any completed evaluation. -/
theorem fold_exec (fuel : Nat) :
    (∀ p env e v, evalE fuel p env e = some v →
      evalE fuel (foldProg p) env (foldE e) = some v) ∧
    (∀ p env as vs, evalArgs fuel p env as = some vs →
      evalArgs fuel (foldProg p) env (foldArgs as) = some vs) ∧
    (∀ p f vs v, callFn fuel p f vs = some v → callFn fuel (foldProg p) f vs = some v) ∧
    (∀ p env s r, execS fuel p env s = some r →
      execS fuel (foldProg p) env (foldS s) = some r) ∧
    (∀ p env x c st b r, execFor fuel p env x c st b = some r →
      execFor fuel (foldProg p) env x (foldE c) (foldE st) (foldB b) = some r) ∧
    (∀ p env b r, execB fuel p env b = some r →
      execB fuel (foldProg p) env (foldB b) = some r) := by
  induction fuel with
  | zero =>
    refine ⟨?_, ?_, ?_, ?_, ?_, ?_⟩
    · intro p env e v h; simp [evalE] at h
    · intro p env as vs h; simp [evalArgs] at h
    · intro p f vs v h; simp [callFn] at h
    · intro p env s r h; simp [execS] at h
    · intro p env x c st b r h; simp [execFor] at h
    · intro p env b r h; simp [execB] at h
  | succ fuel ih =>
    obtain ⟨ihE, ihA, ihC, ihS, ihF, ihB⟩ := ih
    refine ⟨?_, ?_, ?_, ?_, ?_, ?_⟩
    · intro p env e v h
      cases e with
      | lit w =>
        rw [evalE_lit] at h
        cases h
        simp only [foldE]
        rw [evalE_lit, i32_idem]
      | var x => exact h
      | bin op a b =>
        rw [evalE_bin] at h
        simp only [Option.bind_eq_some] at h
        obtain ⟨va, ha, vb, hb, hv⟩ := h
        cases hv
        exact mkBin_eval (ihE _ _ _ _ ha) (ihE _ _ _ _ hb)
          (fold_lit_norm a) (fold_lit_norm b)
      | un op a =>
        rw [evalE_un] at h
        simp only [Option.bind_eq_some] at h
        obtain ⟨va, ha, hv⟩ := h
        cases hv
        exact mkUn_eval (ihE _ _ _ _ ha) (fold_lit_norm a)
      | call f args =>
        rw [evalE_call] at h
        simp only [Option.bind_eq_some] at h
        obtain ⟨vs, hargs, hcall⟩ := h
        simp only [foldE]
        rw [evalE_call]
        simp only [Option.bind_eq_some]
        exact ⟨vs, ihA _ _ _ _ hargs, ihC _ _ _ _ hcall⟩
    · intro p env as vs h
      cases as with
      | nil => exact h
      | cons e rest =>
        rw [evalArgs_cons] at h
        simp only [Option.bind_eq_some] at h
        obtain ⟨v, he, vs0, hrest, hv⟩ := h
        simp only [foldArgs]
        rw [evalArgs_cons]
        simp only [Option.bind_eq_some]
        exact ⟨v, ihE _ _ _ _ he, vs0, ihA _ _ _ _ hrest, hv⟩
    · intro p f vs v h
      rw [callFn_succ] at h
      simp only [Option.bind_eq_some] at h
      obtain ⟨fn, hfn, r, hr, hm⟩ := h
      rw [callFn_succ]
      simp only [Option.bind_eq_some]
      exact ⟨foldFn fn, lookupFn_fold hfn, r, ihB _ _ _ _ hr, hm⟩
    · intro p env s r h
      cases s with
      | decl x e =>
        rw [execS_decl] at h
        simp only [Option.bind_eq_some] at h
        obtain ⟨v, hv, hr⟩ := h
        simp only [foldS]
        rw [execS_decl]
        simp only [Option.bind_eq_some]
        exact ⟨v, ihE _ _ _ _ hv, hr⟩
      | assign x e =>
        rw [execS_assign] at h
        simp only [Option.bind_eq_some] at h
        obtain ⟨v, hv, hr⟩ := h
        simp only [foldS]
        rw [execS_assign]
        simp only [Option.bind_eq_some]
        exact ⟨v, ihE _ _ _ _ hv, hr⟩
      | exprS e =>
        rw [execS_exprS] at h
        simp only [Option.bind_eq_some] at h
        obtain ⟨v, hv, hr⟩ := h
        simp only [foldS]
        rw [execS_exprS]
        simp only [Option.bind_eq_some]
        exact ⟨v, ihE _ _ _ _ hv, hr⟩
      | ifS c t e =>
        rw [execS_ifS] at h
        simp only [Option.bind_eq_some] at h
        obtain ⟨vc, hc, hbr⟩ := h
        have hc' := ihE _ _ _ _ hc
        cases hL : isLit (foldE c) with
        | some w =>
          have hcl : foldE c = .lit w := isLit_eq hL
          have hwn : Norm32 w := fold_lit_norm c w hcl
          have hvcw : vc = w := by
            have := evalE_lit_inv (hcl ▸ hc')
            rw [this]; exact hwn
          simp only [foldS, hL]
          by_cases hw0 : w = 0
          · rw [if_pos hw0]
            have : truthy vc = false := by simp [truthy, hvcw, hw0]
            rw [this] at hbr
            simp only [Bool.false_eq_true, if_false] at hbr
            rw [execS_blockS]
            exact ihB _ _ _ _ hbr
          · rw [if_neg hw0]
            have : truthy vc = true := by simp [truthy, hvcw]; exact hw0
            rw [this] at hbr
            simp only [if_true] at hbr
            rw [execS_blockS]
            exact ihB _ _ _ _ hbr
        | none =>
          simp only [foldS, hL]
          rw [execS_ifS]
          simp only [Option.bind_eq_some]
          refine ⟨vc, hc', ?_⟩
          cases htr : truthy vc <;>
            simp only [htr, if_true, if_false, Bool.false_eq_true] at hbr ⊢
          · exact ihB _ _ _ _ hbr
          · exact ihB _ _ _ _ hbr
      | whileS c b =>
        rw [execS_whileS] at h
        simp only [Option.bind_eq_some] at h
        obtain ⟨vc, hc, hbr⟩ := h
        have hc' := ihE _ _ _ _ hc
        have hwhile : ∀ env0 r0, execS fuel p env0 (.whileS c b) = some r0 →
            execS fuel (foldProg p) env0 (foldS (.whileS c b)) = some r0 :=
          fun env0 r0 hx => ihS _ _ _ _ hx
        cases hL : isLit (foldE c) with
        | some w =>
          have hcl : foldE c = .lit w := isLit_eq hL
          have hwn : Norm32 w := fold_lit_norm c w hcl
          have hvcw : vc = w := by
            have := evalE_lit_inv (hcl ▸ hc')
            rw [this]; exact hwn
          simp only [foldS, hL]
          by_cases hw0 : w = 0
          · rw [if_pos hw0]
            have : truthy vc = false := by simp [truthy, hvcw, hw0]
            rw [this] at hbr
            simp only [Bool.false_eq_true, if_false] at hbr
            cases hbr
            rw [execS_blockS]
            cases fuel with
            | zero => simp [evalE] at hc
            | succ f => rw [execB_nil]
          · rw [if_neg hw0]
            have htr : truthy vc = true := by simp [truthy, hvcw]; exact hw0
            rw [htr] at hbr
            simp only [if_true] at hbr
            simp only [Option.bind_eq_some] at hbr
            obtain ⟨r0, hb, hm⟩ := hbr
            rw [execS_whileS]
            simp only [Option.bind_eq_some]
            refine ⟨vc, hcl ▸ hc', ?_⟩
            rw [htr]
            simp only [if_true, Option.bind_eq_some]
            refine ⟨r0, ihB _ _ _ _ hb, ?_⟩
            cases r0 with
            | ret v => exact hm
            | norm env' =>
              have := hwhile _ _ hm
              simpa only [foldS, hL, if_neg hw0] using this
        | none =>
          simp only [foldS, hL]
          rw [execS_whileS]
          simp only [Option.bind_eq_some]
          refine ⟨vc, hc', ?_⟩
          cases htr : truthy vc <;> rw [htr] at hbr <;>
            simp only [if_true, if_false, Bool.false_eq_true] at hbr ⊢
          · exact hbr
          · simp only [Option.bind_eq_some] at hbr ⊢
            obtain ⟨r0, hb, hm⟩ := hbr
            refine ⟨r0, ihB _ _ _ _ hb, ?_⟩
            cases r0 with
            | ret v => exact hm
            | norm env' =>
              have := hwhile _ _ hm
              simpa only [foldS, hL] using this
      | forS x e0 c step b =>
        rw [execS_forS] at h
        simp only [Option.bind_eq_some] at h
        obtain ⟨v0, h0, hfor⟩ := h
        simp only [foldS]
        rw [execS_forS]
        simp only [Option.bind_eq_some]
        exact ⟨v0, ihE _ _ _ _ h0, ihF _ _ _ _ _ _ _ hfor⟩
      | blockS b =>
        rw [execS_blockS] at h
        simp only [foldS]
        rw [execS_blockS]
        exact ihB _ _ _ _ h
      | ret e =>
        rw [execS_ret] at h
        simp only [Option.bind_eq_some] at h
        obtain ⟨v, hv, hr⟩ := h
        simp only [foldS]
        rw [execS_ret]
        simp only [Option.bind_eq_some]
        exact ⟨v, ihE _ _ _ _ hv, hr⟩
    · intro p env x c st b r h
      rw [execFor_succ] at h
      simp only [Option.bind_eq_some] at h
      obtain ⟨vc, hc, hbr⟩ := h
      rw [execFor_succ]
      simp only [Option.bind_eq_some]
      refine ⟨vc, ihE _ _ _ _ hc, ?_⟩
      cases htr : truthy vc <;> rw [htr] at hbr <;>
        simp only [if_true, if_false, Bool.false_eq_true] at hbr ⊢
      · exact hbr
      · simp only [Option.bind_eq_some] at hbr ⊢
        obtain ⟨r0, hb, hm⟩ := hbr
        refine ⟨r0, ihB _ _ _ _ hb, ?_⟩
        cases r0 with
        | ret v => exact hm
        | norm env' =>
          simp only [Option.bind_eq_some] at hm ⊢
          obtain ⟨vs, hvs, hnext⟩ := hm
          exact ⟨vs, ihE _ _ _ _ hvs, ihF _ _ _ _ _ _ _ hnext⟩
    · intro p env b r h
      cases b with
      | nil => exact h
      | cons s rest =>
        rw [execB_cons] at h
        simp only [Option.bind_eq_some] at h
        obtain ⟨r0, hs, hm⟩ := h
        simp only [foldB]
        rw [execB_cons]
        simp only [Option.bind_eq_some]
        refine ⟨r0, ihS _ _ _ _ hs, ?_⟩
        cases r0 with
        | ret v => exact hm
        | norm env' => exact ihB _ _ _ _ hm

/-- Program-level: folding preserves the observable result. -/
theorem foldProg_preserves {p : Prog} {fuel : Nat} {v : Int}
    (h : execProgram p fuel = some v) : execProgram (foldProg p) fuel = some v :=
  (fold_exec fuel).2.2.1 _ _ _ _ h

/-! ## Idempotence of the folding pass -/

theorem mkBin_fold_fix {op : BinOp} {a b : Expr} (ha : foldE a = a) (hb : foldE b = b)
    (hna : ∀ x, a = .lit x → Norm32 x) (hnb : ∀ y, b = .lit y → Norm32 y) :
    foldE (mkBin op a b) = mkBin op a b := by
  cases hA : isLit a with
  | some x =>
    have hax : a = .lit x := isLit_eq hA
    have hxn : Norm32 x := hna x hax
    cases hB : isLit b with
    | some y =>
      have hby : b = .lit y := isLit_eq hB
      have hyn : Norm32 y := hnb y hby
      simp only [mkBin, hA, hB]
      split
      · simp only [foldE, ha, hb]
        simp only [mkBin, hA, hB]
        rw [if_pos (by assumption)]
      · simp only [foldE]
        exact congrArg Expr.lit (denotBin_norm op x y)
    | none =>
      simp only [mkBin, hA, hB]
      split
      · exact hb
      · simp only [foldE, ha, hb]
        simp only [mkBin, hA, hB]
        rw [if_neg (by assumption)]
  | none =>
    cases hB : isLit b with
    | some y =>
      have hby : b = .lit y := isLit_eq hB
      have hyn : Norm32 y := hnb y hby
      simp only [mkBin, hA, hB]
      split
      · exact ha
      · split
        · exact ha
        · split
          · simp only [foldE]
            exact congrArg Expr.lit norm32_zero
          · simp only [foldE, ha, hb]
            simp only [mkBin, hA, hB]
            rw [if_neg (by assumption), if_neg (by assumption), if_neg (by assumption)]
    | none =>
      simp only [mkBin, hA, hB, foldE, ha, hb]

theorem mkUn_fold_fix {op : UnOp} {a : Expr} (ha : foldE a = a) :
    foldE (mkUn op a) = mkUn op a := by
  cases hA : isLit a with
  | some x =>
    simp only [mkUn, hA, foldE]
    exact congrArg Expr.lit (denotUn_norm op x)
  | none =>
    simp only [mkUn, hA, foldE, ha]

mutual
theorem foldE_idem : (e : Expr) → foldE (foldE e) = foldE e
  | .lit v => by simp only [foldE, i32_idem]
  | .var x => rfl
  | .bin op a b => by
    simp only [foldE]
    exact mkBin_fold_fix (foldE_idem a) (foldE_idem b) (fold_lit_norm a) (fold_lit_norm b)
  | .un op a => by
    simp only [foldE]
    exact mkUn_fold_fix (foldE_idem a)
  | .call f args => by
    simp only [foldE, foldArgs_idem args]

theorem foldArgs_idem : (as : Args) → foldArgs (foldArgs as) = foldArgs as
  | .nil => rfl
  | .cons e rest => by
    simp only [foldArgs, foldE_idem e, foldArgs_idem rest]
end

mutual
theorem foldS_idem : (s : Stmt) → foldS (foldS s) = foldS s
  | .decl x e => by simp only [foldS, foldE_idem e]
  | .assign x e => by simp only [foldS, foldE_idem e]
  | .exprS e => by simp only [foldS, foldE_idem e]
  | .ifS c t e => by
    cases hL : isLit (foldE c) with
    | some w =>
      simp only [foldS, hL]
      by_cases hw0 : w = 0
      · rw [if_pos hw0]
        simp only [foldS, foldB_idem e]
      · rw [if_neg hw0]
        simp only [foldS, foldB_idem t]
    | none =>
      simp only [foldS, hL]
      simp only [foldS, foldE_idem c, hL, foldB_idem t, foldB_idem e]
  | .whileS c b => by
    cases hL : isLit (foldE c) with
    | some w =>
      simp only [foldS, hL]
      by_cases hw0 : w = 0
      · rw [if_pos hw0]
        simp only [foldS, foldB]
      · rw [if_neg hw0]
        simp only [foldS, foldE_idem c, hL, if_neg hw0, foldB_idem b]
    | none =>
      simp only [foldS, hL]
      simp only [foldS, foldE_idem c, hL, foldB_idem b]
  | .forS x e0 c step b => by
    simp only [foldS, foldE_idem e0, foldE_idem c, foldE_idem step, foldB_idem b]
  | .blockS b => by simp only [foldS, foldB_idem b]
  | .ret e => by simp only [foldS, foldE_idem e]

theorem foldB_idem : (b : Block) → foldB (foldB b) = foldB b
  | .nil => rfl
  | .cons s rest => by
    simp only [foldB, foldS_idem s, foldB_idem rest]
end

theorem foldFn_idem (f : Fn) : foldFn (foldFn f) = foldFn f := by
  simp only [foldFn, foldB_idem f.body]

theorem foldProg_idem (p : Prog) : foldProg (foldProg p) = foldProg p := by
  simp only [foldProg, List.map_map]
  exact List.map_congr_left fun f _ => foldFn_idem f

/-! ## Constant Propagation (spec §4.3b)

Modelled from the spec: per program point, a variable whose assigned value
folds to a literal is tracked as `Constant(v)` and its uses are substituted;
a variable assigned a value not statically known becomes `NotConstant`
(absence from the map).  Join points are handled maximally conservatively
(the tracked map is dropped at control-flow merges and around loop bodies),
a sound instance of the spec's conservative-join rule. -/

theorem lookupV_updateV_self : ∀ (m : Env) (x : String) (v : Int),
    lookupV (updateV m x v) x = some v := by
  intro m x v
  induction m with
  | nil => simp [updateV, lookupV]
  | cons p rest ih =>
    obtain ⟨y, w⟩ := p
    by_cases hxy : x = y
    · simp [updateV, hxy, lookupV]
    · simp [updateV, hxy, lookupV, ih]

theorem lookupV_updateV_ne {m : Env} {x y : String} {v : Int} (h : y ≠ x) :
    lookupV (updateV m x v) y = lookupV m y := by
  induction m with
  | nil => simp [updateV, lookupV, h]
  | cons p rest ih =>
    obtain ⟨z, w⟩ := p
    by_cases hxz : x = z
    · subst hxz
      simp [updateV, lookupV, h]
    · by_cases hyz : y = z <;> simp [updateV, hxz, lookupV, hyz, ih]

/-- Remove every binding of `x` (mark `NotConstant`). -/
def eraseK (m : Env) (x : String) : Env := m.filter fun q => q.1 ≠ x

theorem lookupV_eraseK_self (m : Env) (x : String) : lookupV (eraseK m x) x = none := by
  induction m with
  | nil => simp [eraseK, lookupV]
  | cons p rest ih =>
    obtain ⟨z, w⟩ := p
    by_cases hxz : z = x
    · simpa [eraseK, hxz] using ih
    · simpa [eraseK, hxz, lookupV, Ne.symm hxz] using ih

theorem lookupV_eraseK_ne {m : Env} {x y : String} (h : y ≠ x) :
    lookupV (eraseK m x) y = lookupV m y := by
  induction m with
  | nil => simp [eraseK, lookupV]
  | cons p rest ih =>
    obtain ⟨z, w⟩ := p
    by_cases hzx : z = x
    · subst hzx
      simpa [eraseK, lookupV, h] using ih
    · have hstep : eraseK ((z, w) :: rest) x = (z, w) :: eraseK rest x := by
        simp [eraseK, hzx]
      rw [hstep]
      by_cases hyz : y = z
      · simp [lookupV, hyz]
      · simp only [lookupV, if_neg hyz]
        exact ih

/-- Soundness of a constant map w.r.t. an environment. -/
def CSound (m : Env) (env : Env) : Prop :=
  ∀ x v, lookupV m x = some v → lookupV env x = some v

theorem csound_nil (env : Env) : CSound [] env := by
  intro x v h
  simp [lookupV] at h

mutual
/-- Substitute tracked constants for variable reads. -/
def substE : Env → Expr → Expr
  | _, .lit v => .lit v
  | m, .var x =>
    match lookupV m x with
    | some v => .lit v
    | none => .var x
  | m, .bin op a b => .bin op (substE m a) (substE m b)
  | m, .un op a => .un op (substE m a)
  | m, .call f args => .call f (substArgs m args)

def substArgs : Env → Args → Args
  | _, .nil => .nil
  | m, .cons e rest => .cons (substE m e) (substArgs m rest)
end

/-- One propagation step on an expression: substitute then fold. -/
def propE (m : Env) (e : Expr) : Expr := foldE (substE m e)

theorem propE_lit_norm {m : Env} {e : Expr} {v : Int} (h : propE m e = .lit v) :
    Norm32 v := fold_lit_norm _ _ h

/-- Substitution is sound: under a sound constant map, the substituted
expression evaluates to the same value. -/
theorem substE_eval (fuel : Nat) :
    ∀ (p : Prog) (m env : Env), CSound m env →
      (∀ e v, evalE fuel p env e = some v → evalE fuel p env (substE m e) = some v) ∧
      (∀ as vs, evalArgs fuel p env as = some vs →
        evalArgs fuel p env (substArgs m as) = some vs) := by
  induction fuel with
  | zero =>
    intro p m env _
    constructor
    · intro e v h; simp [evalE] at h
    · intro as vs h; simp [evalArgs] at h
  | succ fuel ih =>
    intro p m env hm
    obtain ⟨ihE, ihA⟩ := ih p m env hm
    constructor
    · intro e v h
      cases e with
      | lit w => exact h
      | var x =>
        cases hx : lookupV m x with
        | some w =>
          have henv := hm x w hx
          rw [evalE_var, henv] at h
          simp at h
          simp only [substE, hx]
          rw [evalE_lit, h]
        | none => simpa only [substE, hx] using h
      | bin op a b =>
        rw [evalE_bin] at h
        simp only [Option.bind_eq_some] at h
        obtain ⟨va, ha, vb, hb, hv⟩ := h
        simp only [substE]
        rw [evalE_bin]
        simp only [Option.bind_eq_some]
        exact ⟨va, ihE _ _ ha, vb, ihE _ _ hb, hv⟩
      | un op a =>
        rw [evalE_un] at h
        simp only [Option.bind_eq_some] at h
        obtain ⟨va, ha, hv⟩ := h
        simp only [substE]
        rw [evalE_un]
        simp only [Option.bind_eq_some]
        exact ⟨va, ihE _ _ ha, hv⟩
      | call f args =>
        rw [evalE_call] at h
        simp only [Option.bind_eq_some] at h
        obtain ⟨vs, hargs, hcall⟩ := h
        simp only [substE]
        rw [evalE_call]
        simp only [Option.bind_eq_some]
        exact ⟨vs, ihA _ _ hargs, hcall⟩
    · intro as vs h
      cases as with
      | nil => exact h
      | cons e rest =>
        rw [evalArgs_cons] at h
        simp only [Option.bind_eq_some] at h
        obtain ⟨v, he, vs0, hrest, hv⟩ := h
        simp only [substArgs]
        rw [evalArgs_cons]
        simp only [Option.bind_eq_some]
        exact ⟨v, ihE _ _ he, vs0, ihA _ _ hrest, hv⟩

/-- Expression-level folding is sound without touching the program. -/
theorem foldE_eval (fuel : Nat) :
    ∀ (p : Prog) (env : Env),
      (∀ e v, evalE fuel p env e = some v → evalE fuel p env (foldE e) = some v) ∧
      (∀ as vs, evalArgs fuel p env as = some vs →
        evalArgs fuel p env (foldArgs as) = some vs) := by
  induction fuel with
  | zero =>
    intro p env
    constructor
    · intro e v h; simp [evalE] at h
    · intro as vs h; simp [evalArgs] at h
  | succ fuel ih =>
    intro p env
    obtain ⟨ihE, ihA⟩ := ih p env
    constructor
    · intro e v h
      cases e with
      | lit w =>
        rw [evalE_lit] at h
        cases h
        simp only [foldE]
        rw [evalE_lit, i32_idem]
      | var x => exact h
      | bin op a b =>
        rw [evalE_bin] at h
        simp only [Option.bind_eq_some] at h
        obtain ⟨va, ha, vb, hb, hv⟩ := h
        cases hv
        simp only [foldE]
        exact mkBin_eval (ihE _ _ ha) (ihE _ _ hb) (fold_lit_norm a) (fold_lit_norm b)
      | un op a =>
        rw [evalE_un] at h
        simp only [Option.bind_eq_some] at h
        obtain ⟨va, ha, hv⟩ := h
        cases hv
        simp only [foldE]
        exact mkUn_eval (ihE _ _ ha) (fold_lit_norm a)
      | call f args =>
        rw [evalE_call] at h
        simp only [Option.bind_eq_some] at h
        obtain ⟨vs, hargs, hcall⟩ := h
        simp only [foldE]
        rw [evalE_call]
        simp only [Option.bind_eq_some]
        exact ⟨vs, ihA _ _ hargs, hcall⟩
    · intro as vs h
      cases as with
      | nil => exact h
      | cons e rest =>
        rw [evalArgs_cons] at h
        simp only [Option.bind_eq_some] at h
        obtain ⟨v, he, vs0, hrest, hv⟩ := h
        simp only [foldArgs]
        rw [evalArgs_cons]
        simp only [Option.bind_eq_some]
        exact ⟨v, ihE _ _ he, vs0, ihA _ _ hrest, hv⟩

theorem propE_eval {fuel : Nat} {p : Prog} {m env : Env} {e : Expr} {v : Int}
    (hm : CSound m env) (h : evalE fuel p env e = some v) :
    evalE fuel p env (propE m e) = some v :=
  (foldE_eval fuel p env).1 _ _ ((substE_eval fuel p m env hm).1 _ _ h)

mutual
/-- Modelled from the spec: flow-sensitive propagation over statements,
threading the constant map; the map is dropped at merges and loops. -/
def propS : Env → Stmt → Stmt × Env
  | m, .decl x e =>
    match isLit (propE m e) with
    | some v => (.decl x (propE m e), updateV m x v)
    | none => (.decl x (propE m e), eraseK m x)
  | m, .assign x e =>
    match isLit (propE m e) with
    | some v => (.assign x (propE m e), updateV m x v)
    | none => (.assign x (propE m e), eraseK m x)
  | m, .exprS e => (.exprS (propE m e), m)
  | m, .ifS c t e => (.ifS (propE m c) (propB m t).1 (propB m e).1, [])
  | _, .whileS c b => (.whileS (propE [] c) (propB [] b).1, [])
  | m, .forS x e0 c step b =>
    (.forS x (propE m e0) (propE [] c) (propE [] step) (propB [] b).1, [])
  | m, .blockS b => ((.blockS (propB m b).1), (propB m b).2)
  | m, .ret e => (.ret (propE m e), m)

def propB : Env → Block → Block × Env
  | m, .nil => (.nil, m)
  | m, .cons s rest =>
    (.cons (propS m s).1 (propB (propS m s).2 rest).1, (propB (propS m s).2 rest).2)
end

def propFn (f : Fn) : Fn := ⟨f.name, f.params, (propB [] f.body).1⟩

def propProg (p : Prog) : Prog := p.map propFn

theorem lookupFn_prop {p : Prog} {f : String} {fn : Fn} (h : lookupFn p f = some fn) :
    lookupFn (propProg p) f = some (propFn fn) := by
  induction p with
  | nil => simp [lookupFn] at h
  | cons g rest ih =>
    simp only [propProg, List.map_cons, lookupFn] at h ⊢
    by_cases hf : f = g.name
    · rw [if_pos hf] at h
      cases h
      rw [if_pos (by simpa [propFn] using hf)]
    · rw [if_neg hf] at h
      rw [if_neg (by simpa [propFn] using hf)]
      exact ih h

/-- The Constant Propagation pass preserves any completed execution, and
the threaded constant map stays sound. -/
theorem prop_exec (fuel : Nat) :
    (∀ p env e v, evalE fuel p env e = some v → evalE fuel (propProg p) env e = some v) ∧
    (∀ p env as vs, evalArgs fuel p env as = some vs →
      evalArgs fuel (propProg p) env as = some vs) ∧
    (∀ p f vs v, callFn fuel p f vs = some v → callFn fuel (propProg p) f vs = some v) ∧
    (∀ p m env s r, CSound m env → execS fuel p env s = some r →
      execS fuel (propProg p) env (propS m s).1 = some r ∧
      ∀ env', r = .norm env' → CSound (propS m s).2 env') ∧
    (∀ p env x c st b r, execFor fuel p env x c st b = some r →
      execFor fuel (propProg p) env x (propE [] c) (propE [] st) (propB [] b).1 = some r) ∧
    (∀ p m env b r, CSound m env → execB fuel p env b = some r →
      execB fuel (propProg p) env (propB m b).1 = some r ∧
      ∀ env', r = .norm env' → CSound (propB m b).2 env') := by
  induction fuel with
  | zero =>
    refine ⟨?_, ?_, ?_, ?_, ?_, ?_⟩
    · intro p env e v h; simp [evalE] at h
    · intro p env as vs h; simp [evalArgs] at h
    · intro p f vs v h; simp [callFn] at h
    · intro p m env s r _ h; simp [execS] at h
    · intro p env x c st b r h; simp [execFor] at h
    · intro p m env b r _ h; simp [execB] at h
  | succ fuel ih =>
    obtain ⟨ihE, ihA, ihC, ihS, ihF, ihB⟩ := ih
    have propEv : ∀ (p : Prog) (m env : Env) (e : Expr) (v : Int), CSound m env →
        evalE fuel p env e = some v → evalE fuel (propProg p) env (propE m e) = some v :=
      fun p m env e v hm h => propE_eval hm (ihE _ _ _ _ h)
    refine ⟨?_, ?_, ?_, ?_, ?_, ?_⟩
    · intro p env e v h
      cases e with
      | lit w => exact h
      | var x => exact h
      | bin op a b =>
        rw [evalE_bin] at h ⊢
        simp only [Option.bind_eq_some] at h ⊢
        obtain ⟨va, ha, vb, hb, hv⟩ := h
        exact ⟨va, ihE _ _ _ _ ha, vb, ihE _ _ _ _ hb, hv⟩
      | un op a =>
        rw [evalE_un] at h ⊢
        simp only [Option.bind_eq_some] at h ⊢
        obtain ⟨va, ha, hv⟩ := h
        exact ⟨va, ihE _ _ _ _ ha, hv⟩
      | call f args =>
        rw [evalE_call] at h ⊢
        simp only [Option.bind_eq_some] at h ⊢
        obtain ⟨vs, hargs, hcall⟩ := h
        exact ⟨vs, ihA _ _ _ _ hargs, ihC _ _ _ _ hcall⟩
    · intro p env as vs h
      cases as with
      | nil => exact h
      | cons e rest =>
        rw [evalArgs_cons] at h ⊢
        simp only [Option.bind_eq_some] at h ⊢
        obtain ⟨v, he, vs0, hrest, hv⟩ := h
        exact ⟨v, ihE _ _ _ _ he, vs0, ihA _ _ _ _ hrest, hv⟩
    · intro p f vs v h
      rw [callFn_succ] at h ⊢
      simp only [Option.bind_eq_some] at h ⊢
      obtain ⟨fn, hfn, r, hr, hm⟩ := h
      refine ⟨propFn fn, lookupFn_prop hfn, r, ?_, hm⟩
      exact (ihB _ [] _ _ _ (csound_nil _) hr).1
    · intro p m env s r hm h
      cases s with
      | decl x e =>
        rw [execS_decl] at h
        simp only [Option.bind_eq_some] at h
        obtain ⟨v, hv, hr⟩ := h
        cases hr
        have hv' := propEv p m env e v hm hv
        cases hL : isLit (propE m e) with
        | some w =>
          have hlit : propE m e = .lit w := isLit_eq hL
          have hvw : v = w := by
            have h1 := evalE_lit_inv (hlit ▸ hv')
            rw [h1]; exact propE_lit_norm hlit
          constructor
          · simp only [propS, hL]
            rw [execS_decl]
            simp only [Option.bind_eq_some]
            exact ⟨v, hv', rfl⟩
          · intro env' heq
            cases heq
            intro y u hy
            by_cases hyx : y = x
            · subst hyx
              simp only [propS, hL] at hy
              rw [lookupV_updateV_self] at hy
              cases hy
              simp [lookupV, hvw]
            · simp only [propS, hL] at hy
              rw [lookupV_updateV_ne hyx] at hy
              simp only [lookupV, if_neg hyx]
              exact hm y u hy
        | none =>
          constructor
          · simp only [propS, hL]
            rw [execS_decl]
            simp only [Option.bind_eq_some]
            exact ⟨v, hv', rfl⟩
          · intro env' heq
            cases heq
            intro y u hy
            simp only [propS, hL] at hy
            by_cases hyx : y = x
            · subst hyx
              rw [lookupV_eraseK_self] at hy
              cases hy
            · rw [lookupV_eraseK_ne hyx] at hy
              simp only [lookupV, if_neg hyx]
              exact hm y u hy
      | assign x e =>
        rw [execS_assign] at h
        simp only [Option.bind_eq_some] at h
        obtain ⟨v, hv, hr⟩ := h
        cases hr
        have hv' := propEv p m env e v hm hv
        cases hL : isLit (propE m e) with
        | some w =>
          have hlit : propE m e = .lit w := isLit_eq hL
          have hvw : v = w := by
            have h1 := evalE_lit_inv (hlit ▸ hv')
            rw [h1]; exact propE_lit_norm hlit
          constructor
          · simp only [propS, hL]
            rw [execS_assign]
            simp only [Option.bind_eq_some]
            exact ⟨v, hv', rfl⟩
          · intro env' heq
            cases heq
            intro y u hy
            simp only [propS, hL] at hy
            by_cases hyx : y = x
            · subst hyx
              rw [lookupV_updateV_self] at hy
              cases hy
              rw [lookupV_updateV_self, hvw]
            · rw [lookupV_updateV_ne hyx] at hy
              rw [lookupV_updateV_ne hyx]
              exact hm y u hy
        | none =>
          constructor
          · simp only [propS, hL]
            rw [execS_assign]
            simp only [Option.bind_eq_some]
            exact ⟨v, hv', rfl⟩
          · intro env' heq
            cases heq
            intro y u hy
            simp only [propS, hL] at hy
            by_cases hyx : y = x
            · subst hyx
              rw [lookupV_eraseK_self] at hy
              cases hy
            · rw [lookupV_eraseK_ne hyx] at hy
              rw [lookupV_updateV_ne hyx]
              exact hm y u hy
      | exprS e =>
        rw [execS_exprS] at h
        simp only [Option.bind_eq_some] at h
        obtain ⟨v, hv, hr⟩ := h
        cases hr
        constructor
        · simp only [propS]
          rw [execS_exprS]
          simp only [Option.bind_eq_some]
          exact ⟨v, propEv p m env e v hm hv, trivial⟩
        · intro env' heq
          cases heq
          exact hm
      | ifS c t e =>
        rw [execS_ifS] at h
        simp only [Option.bind_eq_some] at h
        obtain ⟨vc, hc, hbr⟩ := h
        refine ⟨?_, fun env' _ => csound_nil env'⟩
        simp only [propS]
        rw [execS_ifS]
        simp only [Option.bind_eq_some]
        refine ⟨vc, propEv p m env c vc hm hc, ?_⟩
        cases htr : truthy vc <;> rw [htr] at hbr <;>
          simp only [if_true, if_false, Bool.false_eq_true] at hbr ⊢
        · exact (ihB _ m _ _ _ hm hbr).1
        · exact (ihB _ m _ _ _ hm hbr).1
      | whileS c b =>
        rw [execS_whileS] at h
        simp only [Option.bind_eq_some] at h
        obtain ⟨vc, hc, hbr⟩ := h
        refine ⟨?_, fun env' _ => csound_nil env'⟩
        simp only [propS]
        rw [execS_whileS]
        simp only [Option.bind_eq_some]
        refine ⟨vc, propEv p [] env c vc (csound_nil env) hc, ?_⟩
        cases htr : truthy vc <;> rw [htr] at hbr <;>
          simp only [if_true, if_false, Bool.false_eq_true] at hbr ⊢
        · exact hbr
        · simp only [Option.bind_eq_some] at hbr ⊢
          obtain ⟨r0, hb, hm2⟩ := hbr
          refine ⟨r0, (ihB _ [] _ _ _ (csound_nil _) hb).1, ?_⟩
          cases r0 with
          | ret v => exact hm2
          | norm env' =>
            have := (ihS _ ([] : Env) _ _ _ (csound_nil _) hm2).1
            simpa only [propS] using this
      | forS x e0 c step b =>
        rw [execS_forS] at h
        simp only [Option.bind_eq_some] at h
        obtain ⟨v0, h0, hfor⟩ := h
        refine ⟨?_, fun env' _ => csound_nil env'⟩
        simp only [propS]
        rw [execS_forS]
        simp only [Option.bind_eq_some]
        exact ⟨v0, propEv p m env e0 v0 hm h0, ihF _ _ _ _ _ _ _ hfor⟩
      | blockS b =>
        rw [execS_blockS] at h
        have := ihB _ m _ _ _ hm h
        constructor
        · simp only [propS]
          rw [execS_blockS]
          exact this.1
        · intro env' heq
          simp only [propS]
          exact this.2 env' heq
      | ret e =>
        rw [execS_ret] at h
        simp only [Option.bind_eq_some] at h
        obtain ⟨v, hv, hr⟩ := h
        cases hr
        constructor
        · simp only [propS]
          rw [execS_ret]
          simp only [Option.bind_eq_some]
          exact ⟨v, propEv p m env e v hm hv, rfl⟩
        · intro env' heq
          cases heq
    · intro p env x c st b r h
      rw [execFor_succ] at h ⊢
      simp only [Option.bind_eq_some] at h ⊢
      obtain ⟨vc, hc, hbr⟩ := h
      refine ⟨vc, propEv p [] env c vc (csound_nil env) hc, ?_⟩
      cases htr : truthy vc <;> rw [htr] at hbr <;>
        simp only [if_true, if_false, Bool.false_eq_true] at hbr ⊢
      · exact hbr
      · simp only [Option.bind_eq_some] at hbr ⊢
        obtain ⟨r0, hb, hm2⟩ := hbr
        refine ⟨r0, (ihB _ [] _ _ _ (csound_nil _) hb).1, ?_⟩
        cases r0 with
        | ret v => exact hm2
        | norm env' =>
          simp only [Option.bind_eq_some] at hm2 ⊢
          obtain ⟨vs, hvs, hnext⟩ := hm2
          exact ⟨vs, propEv p [] env' st vs (csound_nil env') hvs, ihF _ _ _ _ _ _ _ hnext⟩
    · intro p m env b r hm h
      cases b with
      | nil =>
        rw [execB_nil] at h
        cases h
        constructor
        · simp only [propB]
          rw [execB_nil]
        · intro env' heq
          cases heq
          exact hm
      | cons s rest =>
        rw [execB_cons] at h
        simp only [Option.bind_eq_some] at h
        obtain ⟨r0, hs, hm2⟩ := h
        have hS := ihS _ m _ _ _ hm hs
        cases r0 with
        | ret v =>
          cases hm2
          refine ⟨?_, fun env' heq => by cases heq⟩
          simp only [propB]
          rw [execB_cons]
          simp only [Option.bind_eq_some]
          exact ⟨.ret v, hS.1, rfl⟩
        | norm env' =>
          have hSound := hS.2 env' rfl
          have hB := ihB _ _ _ _ _ hSound hm2
          constructor
          · simp only [propB]
            rw [execB_cons]
            simp only [Option.bind_eq_some]
            exact ⟨.norm env', hS.1, hB.1⟩
          · intro env'' heq
            simp only [propB]
            exact hB.2 env'' heq

/-- Program-level: propagation preserves the observable result. -/
theorem propProg_preserves {p : Prog} {fuel : Nat} {v : Int}
    (h : execProgram p fuel = some v) : execProgram (propProg p) fuel = some v :=
  (prop_exec fuel).2.2.1 _ _ _ _ h

/-! ## Dead Code Elimination (spec §4.4)

Modelled from the spec: (a) reachability — statements strictly after an
unconditional `return` in the same block are deleted; (b) liveness — a
declaration or store whose target is not read afterwards is removed
(loop bodies are kept intact, a conservative instance); (c) whole-function
removal for functions with zero call sites (defined further below). -/

mutual
def fvE : Expr → List String
  | .lit _ => []
  | .var x => [x]
  | .bin _ a b => fvE a ++ fvE b
  | .un _ a => fvE a
  | .call _ args => fvArgs args

def fvArgs : Args → List String
  | .nil => []
  | .cons e rest => fvE e ++ fvArgs rest
end

mutual
/-- Every variable mentioned (read or written) by a statement. -/
def avS : Stmt → List String
  | .decl x e => x :: fvE e
  | .assign x e => x :: fvE e
  | .exprS e => fvE e
  | .ifS c t e => fvE c ++ avB t ++ avB e
  | .whileS c b => fvE c ++ avB b
  | .forS x e0 c st b => x :: (fvE e0 ++ fvE c ++ fvE st ++ avB b)
  | .blockS b => avB b
  | .ret e => fvE e

def avB : Block → List String
  | .nil => []
  | .cons s rest => avS s ++ avB rest
end

/-- Two environments agree on the (lookup-visible) values of a set of names. -/
def AgreeOn (V : List String) (e1 e2 : Env) : Prop :=
  ∀ x ∈ V, lookupV e1 x = lookupV e2 x

theorem agreeOn_refl (V : List String) (env : Env) : AgreeOn V env env :=
  fun _ _ => rfl

theorem agreeOn_mono {V W : List String} {e1 e2 : Env} (hsub : W ⊆ V)
    (h : AgreeOn V e1 e2) : AgreeOn W e1 e2 := fun x hx => h x (hsub hx)

theorem agreeOn_cons {V : List String} {e1 e2 : Env} (h : AgreeOn V e1 e2)
    (x : String) (v : Int) : AgreeOn V ((x, v) :: e1) ((x, v) :: e2) := by
  intro y hy
  by_cases hyx : y = x <;> simp [lookupV, hyx, h y hy]

theorem agreeOn_update {V : List String} {e1 e2 : Env} (h : AgreeOn V e1 e2)
    (x : String) (v : Int) : AgreeOn V (updateV e1 x v) (updateV e2 x v) := by
  intro y hy
  by_cases hyx : y = x
  · subst hyx
    rw [lookupV_updateV_self, lookupV_updateV_self]
  · rw [lookupV_updateV_ne hyx, lookupV_updateV_ne hyx]
    exact h y hy

theorem agreeOn_skip {V : List String} {e1 e2 : Env} (h : AgreeOn V e1 e2)
    {x : String} (hx : x ∉ V) (v : Int) : AgreeOn V ((x, v) :: e1) e2 := by
  intro y hy
  have hyx : y ≠ x := fun heq => hx (heq ▸ hy)
  simp only [lookupV, if_neg hyx]
  exact h y hy

theorem agreeOn_skip_update {V : List String} {e1 e2 : Env} (h : AgreeOn V e1 e2)
    {x : String} (hx : x ∉ V) (v : Int) : AgreeOn V (updateV e1 x v) e2 := by
  intro y hy
  have hyx : y ≠ x := fun heq => hx (heq ▸ hy)
  rw [lookupV_updateV_ne hyx]
  exact h y hy

/-- Result relation for agreement-based pass proofs: returned values are
equal, fall-through environments agree on the given set. -/
def MatchR (V : List String) : StepRes → StepRes → Prop
  | .ret v, .ret w => v = w
  | .norm e1, .norm e2 => AgreeOn V e1 e2
  | _, _ => False

/-- Is this statement an unconditional `return`? -/
def isRet : Stmt → Bool
  | .ret _ => true
  | _ => false

mutual
/-- Reachability: delete statements after an unconditional return. -/
def truncS : Stmt → Stmt
  | .decl x e => .decl x e
  | .assign x e => .assign x e
  | .exprS e => .exprS e
  | .ifS c t e => .ifS c (truncB t) (truncB e)
  | .whileS c b => .whileS c (truncB b)
  | .forS x e0 c st b => .forS x e0 c st (truncB b)
  | .blockS b => .blockS (truncB b)
  | .ret e => .ret e

def truncB : Block → Block
  | .nil => .nil
  | .cons s rest =>
    if isRet s then .cons s .nil else .cons (truncS s) (truncB rest)
end

def truncFn (f : Fn) : Fn := ⟨f.name, f.params, truncB f.body⟩

def truncProg (p : Prog) : Prog := p.map truncFn

theorem lookupFn_trunc {p : Prog} {f : String} {fn : Fn} (h : lookupFn p f = some fn) :
    lookupFn (truncProg p) f = some (truncFn fn) := by
  induction p with
  | nil => simp [lookupFn] at h
  | cons g rest ih =>
    simp only [truncProg, List.map_cons, lookupFn] at h ⊢
    by_cases hf : f = g.name
    · rw [if_pos hf] at h
      cases h
      rw [if_pos (by simpa [truncFn] using hf)]
    · rw [if_neg hf] at h
      rw [if_neg (by simpa [truncFn] using hf)]
      exact ih h

/-- Reachability-based deletion preserves any completed execution. -/
theorem trunc_exec (fuel : Nat) :
    (∀ p env e v, evalE fuel p env e = some v → evalE fuel (truncProg p) env e = some v) ∧
    (∀ p env as vs, evalArgs fuel p env as = some vs →
      evalArgs fuel (truncProg p) env as = some vs) ∧
    (∀ p f vs v, callFn fuel p f vs = some v → callFn fuel (truncProg p) f vs = some v) ∧
    (∀ p env s r, execS fuel p env s = some r →
      execS fuel (truncProg p) env (truncS s) = some r) ∧
    (∀ p env x c st b r, execFor fuel p env x c st b = some r →
      execFor fuel (truncProg p) env x c st (truncB b) = some r) ∧
    (∀ p env b r, execB fuel p env b = some r →
      execB fuel (truncProg p) env (truncB b) = some r) := by
  induction fuel with
  | zero =>
    refine ⟨?_, ?_, ?_, ?_, ?_, ?_⟩
    · intro p env e v h; simp [evalE] at h
    · intro p env as vs h; simp [evalArgs] at h
    · intro p f vs v h; simp [callFn] at h
    · intro p env s r h; simp [execS] at h
    · intro p env x c st b r h; simp [execFor] at h
    · intro p env b r h; simp [execB] at h
  | succ fuel ih =>
    obtain ⟨ihE, ihA, ihC, ihS, ihF, ihB⟩ := ih
    refine ⟨?_, ?_, ?_, ?_, ?_, ?_⟩
    · intro p env e v h
      cases e with
      | lit w => exact h
      | var x => exact h
      | bin op a b =>
        rw [evalE_bin] at h ⊢
        simp only [Option.bind_eq_some] at h ⊢
        obtain ⟨va, ha, vb, hb, hv⟩ := h
        exact ⟨va, ihE _ _ _ _ ha, vb, ihE _ _ _ _ hb, hv⟩
      | un op a =>
        rw [evalE_un] at h ⊢
        simp only [Option.bind_eq_some] at h ⊢
        obtain ⟨va, ha, hv⟩ := h
        exact ⟨va, ihE _ _ _ _ ha, hv⟩
      | call f args =>
        rw [evalE_call] at h ⊢
        simp only [Option.bind_eq_some] at h ⊢
        obtain ⟨vs, hargs, hcall⟩ := h
        exact ⟨vs, ihA _ _ _ _ hargs, ihC _ _ _ _ hcall⟩
    · intro p env as vs h
      cases as with
      | nil => exact h
      | cons e rest =>
        rw [evalArgs_cons] at h ⊢
        simp only [Option.bind_eq_some] at h ⊢
        obtain ⟨v, he, vs0, hrest, hv⟩ := h
        exact ⟨v, ihE _ _ _ _ he, vs0, ihA _ _ _ _ hrest, hv⟩
    · intro p f vs v h
      rw [callFn_succ] at h ⊢
      simp only [Option.bind_eq_some] at h ⊢
      obtain ⟨fn, hfn, r, hr, hm⟩ := h
      exact ⟨truncFn fn, lookupFn_trunc hfn, r, ihB _ _ _ _ hr, hm⟩
    · intro p env s r h
      cases s with
      | decl x e =>
        rw [execS_decl] at h
        simp only [truncS]
        rw [execS_decl]
        simp only [Option.bind_eq_some] at h ⊢
        obtain ⟨v, hv, hr⟩ := h
        exact ⟨v, ihE _ _ _ _ hv, hr⟩
      | assign x e =>
        rw [execS_assign] at h
        simp only [truncS]
        rw [execS_assign]
        simp only [Option.bind_eq_some] at h ⊢
        obtain ⟨v, hv, hr⟩ := h
        exact ⟨v, ihE _ _ _ _ hv, hr⟩
      | exprS e =>
        rw [execS_exprS] at h
        simp only [truncS]
        rw [execS_exprS]
        simp only [Option.bind_eq_some] at h ⊢
        obtain ⟨v, hv, hr⟩ := h
        exact ⟨v, ihE _ _ _ _ hv, hr⟩
      | ifS c t e =>
        rw [execS_ifS] at h
        simp only [truncS]
        rw [execS_ifS]
        simp only [Option.bind_eq_some] at h ⊢
        obtain ⟨vc, hc, hbr⟩ := h
        refine ⟨vc, ihE _ _ _ _ hc, ?_⟩
        cases htr : truthy vc <;> rw [htr] at hbr <;>
          simp only [if_true, if_false, Bool.false_eq_true] at hbr ⊢
        · exact ihB _ _ _ _ hbr
        · exact ihB _ _ _ _ hbr
      | whileS c b =>
        rw [execS_whileS] at h
        simp only [truncS]
        rw [execS_whileS]
        simp only [Option.bind_eq_some] at h ⊢
        obtain ⟨vc, hc, hbr⟩ := h
        refine ⟨vc, ihE _ _ _ _ hc, ?_⟩
        cases htr : truthy vc <;> rw [htr] at hbr <;>
          simp only [if_true, if_false, Bool.false_eq_true] at hbr ⊢
        · exact hbr
        · simp only [Option.bind_eq_some] at hbr ⊢
          obtain ⟨r0, hb, hm⟩ := hbr
          refine ⟨r0, ihB _ _ _ _ hb, ?_⟩
          cases r0 with
          | ret v => exact hm
          | norm env' =>
            have := ihS _ _ _ _ hm
            simpa only [truncS] using this
      | forS x e0 c st b =>
        rw [execS_forS] at h
        simp only [truncS]
        rw [execS_forS]
        simp only [Option.bind_eq_some] at h ⊢
        obtain ⟨v0, h0, hfor⟩ := h
        exact ⟨v0, ihE _ _ _ _ h0, ihF _ _ _ _ _ _ _ hfor⟩
      | blockS b =>
        rw [execS_blockS] at h
        simp only [truncS]
        rw [execS_blockS]
        exact ihB _ _ _ _ h
      | ret e =>
        rw [execS_ret] at h
        simp only [truncS]
        rw [execS_ret]
        simp only [Option.bind_eq_some] at h ⊢
        obtain ⟨v, hv, hr⟩ := h
        exact ⟨v, ihE _ _ _ _ hv, hr⟩
    · intro p env x c st b r h
      rw [execFor_succ] at h ⊢
      simp only [Option.bind_eq_some] at h ⊢
      obtain ⟨vc, hc, hbr⟩ := h
      refine ⟨vc, ihE _ _ _ _ hc, ?_⟩
      cases htr : truthy vc <;> rw [htr] at hbr <;>
        simp only [if_true, if_false, Bool.false_eq_true] at hbr ⊢
      · exact hbr
      · simp only [Option.bind_eq_some] at hbr ⊢
        obtain ⟨r0, hb, hm⟩ := hbr
        refine ⟨r0, ihB _ _ _ _ hb, ?_⟩
        cases r0 with
        | ret v => exact hm
        | norm env' =>
          simp only [Option.bind_eq_some] at hm ⊢
          obtain ⟨vs, hvs, hnext⟩ := hm
          exact ⟨vs, ihE _ _ _ _ hvs, ihF _ _ _ _ _ _ _ hnext⟩
    · intro p env b r h
      cases b with
      | nil => exact h
      | cons s rest =>
        rw [execB_cons] at h
        simp only [Option.bind_eq_some] at h
        obtain ⟨r0, hs, hm⟩ := h
        cases hret : isRet s with
        | true =>
          cases s <;> simp [isRet] at hret
          rename_i e
          have hr0 : ∃ v, r0 = .ret v := by
            cases fuel with
            | zero => simp [execS] at hs
            | succ f =>
              rw [execS_ret] at hs
              simp only [Option.bind_eq_some] at hs
              obtain ⟨v, _, hv2⟩ := hs
              exact ⟨v, by cases hv2; rfl⟩
          obtain ⟨v, rfl⟩ := hr0
          cases hm
          have hs' := ihS _ _ _ _ hs
          simp only [truncS] at hs'
          simp only [truncB, isRet, if_true]
          rw [execB_cons]
          simp only [Option.bind_eq_some]
          exact ⟨.ret v, hs', rfl⟩
        | false =>
          simp only [truncB, hret, Bool.false_eq_true, if_false]
          rw [execB_cons]
          simp only [Option.bind_eq_some]
          refine ⟨r0, ihS _ _ _ _ hs, ?_⟩
          cases r0 with
          | ret v => exact hm
          | norm env' => exact ihB _ _ _ _ hm

/-- Program-level: reachability deletion preserves the observable result. -/
theorem truncProg_preserves {p : Prog} {fuel : Nat} {v : Int}
    (h : execProgram p fuel = some v) : execProgram (truncProg p) fuel = some v :=
  (trunc_exec fuel).2.2.1 _ _ _ _ h

mutual
/-- Liveness-based removal: given the live-out set, rewrite a statement
(`none` = statement removed) and return the live-in set.  Loop bodies are
kept intact (conservative); a branch or loop keeps every name it mentions
live. -/
def dceS : Stmt → List String → Option Stmt × List String
  | .decl x e, L =>
    if x ∈ L then (some (.decl x e), L.filter (· ≠ x) ++ fvE e) else (none, L)
  | .assign x e, L =>
    if x ∈ L then (some (.assign x e), L.filter (· ≠ x) ++ fvE e) else (none, L)
  | .exprS e, L => (some (.exprS e), fvE e ++ L)
  | .ifS c t e, L =>
    (some (.ifS c (dceB t L).1 (dceB e L).1),
      fvE c ++ ((dceB t L).2 ++ ((dceB e L).2 ++ L)))
  | .whileS c b, L => (some (.whileS c b), avS (.whileS c b) ++ L)
  | .forS x e0 c st b, L => (some (.forS x e0 c st b), avS (.forS x e0 c st b) ++ L)
  | .blockS b, L => (some (.blockS (dceB b L).1), (dceB b L).2)
  | .ret e, _ => (some (.ret e), fvE e)

def dceB : Block → List String → Block × List String
  | .nil, L => (.nil, L)
  | .cons s rest, L =>
    match dceS s (dceB rest L).2 with
    | (some s', Ls) => (.cons s' (dceB rest L).1, Ls)
    | (none, Ls) => ((dceB rest L).1, Ls)
end

def liveFn (f : Fn) : Fn := ⟨f.name, f.params, (dceB f.body []).1⟩

def liveProg (p : Prog) : Prog := p.map liveFn

theorem lookupFn_live {p : Prog} {f : String} {fn : Fn} (h : lookupFn p f = some fn) :
    lookupFn (liveProg p) f = some (liveFn fn) := by
  induction p with
  | nil => simp [lookupFn] at h
  | cons g rest ih =>
    simp only [liveProg, List.map_cons, lookupFn] at h ⊢
    by_cases hf : f = g.name
    · rw [if_pos hf] at h
      cases h
      rw [if_pos (by simpa [liveFn] using hf)]
    · rw [if_neg hf] at h
      rw [if_neg (by simpa [liveFn] using hf)]
      exact ih h

theorem matchR_mono {V W : List String} {r r2 : StepRes} (hsub : W ⊆ V)
    (h : MatchR V r r2) : MatchR W r r2 := by
  cases r <;> cases r2 <;> simp only [MatchR] at h ⊢
  · exact agreeOn_mono hsub h
  · exact h

/-- Liveness-based Dead Code Elimination is sound: under environments that
agree on the computed live-in set, the rewritten code completes with the
same returned value, and fall-through environments agree on the live-out
set.  Untransformed statements satisfy the corresponding frame property. -/
theorem live_exec (fuel : Nat) :
    (∀ p env1 env2 e v, AgreeOn (fvE e) env1 env2 → evalE fuel p env1 e = some v →
      evalE fuel (liveProg p) env2 e = some v) ∧
    (∀ p env1 env2 as vs, AgreeOn (fvArgs as) env1 env2 →
      evalArgs fuel p env1 as = some vs → evalArgs fuel (liveProg p) env2 as = some vs) ∧
    (∀ p f vs v, callFn fuel p f vs = some v → callFn fuel (liveProg p) f vs = some v) ∧
    (∀ p V env1 env2 s r, avS s ⊆ V → AgreeOn V env1 env2 → execS fuel p env1 s = some r →
      ∃ r2, execS fuel (liveProg p) env2 s = some r2 ∧ MatchR V r r2) ∧
    (∀ p V env1 env2 x c st b r, fvE c ⊆ V → fvE st ⊆ V → avB b ⊆ V →
      AgreeOn V env1 env2 → execFor fuel p env1 x c st b = some r →
      ∃ r2, execFor fuel (liveProg p) env2 x c st b = some r2 ∧ MatchR V r r2) ∧
    (∀ p V env1 env2 b r, avB b ⊆ V → AgreeOn V env1 env2 → execB fuel p env1 b = some r →
      ∃ r2, execB fuel (liveProg p) env2 b = some r2 ∧ MatchR V r r2) ∧
    (∀ p L env1 env2 s r, AgreeOn (dceS s L).2 env1 env2 → execS fuel p env1 s = some r →
      (∀ s', (dceS s L).1 = some s' →
        ∃ r2, execS fuel (liveProg p) env2 s' = some r2 ∧ MatchR L r r2) ∧
      ((dceS s L).1 = none → ∃ env1', r = .norm env1' ∧ AgreeOn L env1' env2)) ∧
    (∀ p L env1 env2 b r, AgreeOn (dceB b L).2 env1 env2 → execB fuel p env1 b = some r →
      ∃ r2, execB fuel (liveProg p) env2 (dceB b L).1 = some r2 ∧ MatchR L r r2) := by
  induction fuel with
  | zero =>
    refine ⟨?_, ?_, ?_, ?_, ?_, ?_, ?_, ?_⟩
    · intro p env1 env2 e v _ h; simp [evalE] at h
    · intro p env1 env2 as vs _ h; simp [evalArgs] at h
    · intro p f vs v h; simp [callFn] at h
    · intro p V env1 env2 s r _ _ h; simp [execS] at h
    · intro p V env1 env2 x c st b r _ _ _ _ h; simp [execFor] at h
    · intro p V env1 env2 b r _ _ h; simp [execB] at h
    · intro p L env1 env2 s r _ h; simp [execS] at h
    · intro p L env1 env2 b r _ h; simp [execB] at h
  | succ fuel ih =>
    obtain ⟨ihE, ihA, ihC, ihS, ihF, ihB, ihSd, ihBd⟩ := ih
    have hSfr : ∀ p V env1 env2 s r, avS s ⊆ V → AgreeOn V env1 env2 →
        execS (fuel + 1) p env1 s = some r →
        ∃ r2, execS (fuel + 1) (liveProg p) env2 s = some r2 ∧ MatchR V r r2 := by
      intro p V env1 env2 s r hsub hag h
      cases s with
      | decl x e =>
        rw [execS_decl] at h
        simp only [Option.bind_eq_some] at h
        obtain ⟨v, hv, hr⟩ := h
        cases hr
        have hfv : fvE e ⊆ V := fun y hy => hsub (by simp [avS, hy])
        refine ⟨.norm ((x, v) :: env2), ?_, agreeOn_cons hag x v⟩
        rw [execS_decl]
        simp only [Option.bind_eq_some]
        exact ⟨v, ihE _ _ _ _ _ (agreeOn_mono hfv hag) hv, rfl⟩
      | assign x e =>
        rw [execS_assign] at h
        simp only [Option.bind_eq_some] at h
        obtain ⟨v, hv, hr⟩ := h
        cases hr
        have hfv : fvE e ⊆ V := fun y hy => hsub (by simp [avS, hy])
        refine ⟨.norm (updateV env2 x v), ?_, agreeOn_update hag x v⟩
        rw [execS_assign]
        simp only [Option.bind_eq_some]
        exact ⟨v, ihE _ _ _ _ _ (agreeOn_mono hfv hag) hv, rfl⟩
      | exprS e =>
        rw [execS_exprS] at h
        simp only [Option.bind_eq_some] at h
        obtain ⟨v, hv, hr⟩ := h
        cases hr
        have hfv : fvE e ⊆ V := fun y hy => hsub (by simp [avS, hy])
        refine ⟨.norm env2, ?_, hag⟩
        rw [execS_exprS]
        simp only [Option.bind_eq_some]
        exact ⟨v, ihE _ _ _ _ _ (agreeOn_mono hfv hag) hv, trivial⟩
      | ifS c t e =>
        rw [execS_ifS] at h
        simp only [Option.bind_eq_some] at h
        obtain ⟨vc, hc, hbr⟩ := h
        have hfvc : fvE c ⊆ V := fun y hy => hsub (by simp [avS, hy])
        have havt : avB t ⊆ V := fun y hy => hsub (by simp [avS, hy])
        have have2 : avB e ⊆ V := fun y hy => hsub (by simp [avS, hy])
        cases htr : truthy vc <;> rw [htr] at hbr <;>
          simp only [if_true, if_false, Bool.false_eq_true] at hbr
        · obtain ⟨r2, hr2, hmatch⟩ := ihB _ _ _ _ _ _ have2 hag hbr
          refine ⟨r2, ?_, hmatch⟩
          rw [execS_ifS]
          simp only [Option.bind_eq_some]
          refine ⟨vc, ihE _ _ _ _ _ (agreeOn_mono hfvc hag) hc, ?_⟩
          rw [htr]
          simp only [Bool.false_eq_true, if_false]
          exact hr2
        · obtain ⟨r2, hr2, hmatch⟩ := ihB _ _ _ _ _ _ havt hag hbr
          refine ⟨r2, ?_, hmatch⟩
          rw [execS_ifS]
          simp only [Option.bind_eq_some]
          refine ⟨vc, ihE _ _ _ _ _ (agreeOn_mono hfvc hag) hc, ?_⟩
          rw [htr]
          simp only [if_true]
          exact hr2
      | whileS c b =>
        rw [execS_whileS] at h
        simp only [Option.bind_eq_some] at h
        obtain ⟨vc, hc, hbr⟩ := h
        have hfvc : fvE c ⊆ V := fun y hy => hsub (by simp [avS, hy])
        have havb : avB b ⊆ V := fun y hy => hsub (by simp [avS, hy])
        cases htr : truthy vc <;> rw [htr] at hbr <;>
          simp only [if_true, if_false, Bool.false_eq_true] at hbr
        · cases hbr
          refine ⟨.norm env2, ?_, hag⟩
          rw [execS_whileS]
          simp only [Option.bind_eq_some]
          refine ⟨vc, ihE _ _ _ _ _ (agreeOn_mono hfvc hag) hc, ?_⟩
          rw [htr]
          simp only [Bool.false_eq_true, if_false]
        · simp only [Option.bind_eq_some] at hbr
          obtain ⟨r0, hb, hm⟩ := hbr
          obtain ⟨r02, hb2, hmatch0⟩ := ihB _ _ _ _ _ _ havb hag hb
          cases r0 with
          | ret v =>
            cases hm
            cases r02 with
            | ret v2 =>
              simp only [MatchR] at hmatch0
              cases hmatch0
              refine ⟨.ret v, ?_, rfl⟩
              rw [execS_whileS]
              simp only [Option.bind_eq_some]
              refine ⟨vc, ihE _ _ _ _ _ (agreeOn_mono hfvc hag) hc, ?_⟩
              rw [htr]
              simp only [if_true, Option.bind_eq_some]
              exact ⟨.ret v, hb2, rfl⟩
            | norm _ => simp [MatchR] at hmatch0
          | norm env1' =>
            cases r02 with
            | ret _ => simp [MatchR] at hmatch0
            | norm env2' =>
              simp only [MatchR] at hmatch0
              obtain ⟨r2, hr2, hmatch⟩ := ihS _ _ _ _ _ _ hsub hmatch0 hm
              refine ⟨r2, ?_, hmatch⟩
              rw [execS_whileS]
              simp only [Option.bind_eq_some]
              refine ⟨vc, ihE _ _ _ _ _ (agreeOn_mono hfvc hag) hc, ?_⟩
              rw [htr]
              simp only [if_true, Option.bind_eq_some]
              exact ⟨.norm env2', hb2, hr2⟩
      | forS x e0 c st b =>
        rw [execS_forS] at h
        simp only [Option.bind_eq_some] at h
        obtain ⟨v0, h0, hfor⟩ := h
        have hfv0 : fvE e0 ⊆ V := fun y hy => hsub (by simp [avS, hy])
        have hfvc : fvE c ⊆ V := fun y hy => hsub (by simp [avS, hy])
        have hfvst : fvE st ⊆ V := fun y hy => hsub (by simp [avS, hy])
        have havb : avB b ⊆ V := fun y hy => hsub (by simp [avS, hy])
        obtain ⟨r2, hr2, hmatch⟩ :=
          ihF _ _ _ _ _ _ _ _ _ hfvc hfvst havb (agreeOn_cons hag x v0) hfor
        refine ⟨r2, ?_, hmatch⟩
        rw [execS_forS]
        simp only [Option.bind_eq_some]
        exact ⟨v0, ihE _ _ _ _ _ (agreeOn_mono hfv0 hag) h0, hr2⟩
      | blockS b =>
        rw [execS_blockS] at h
        obtain ⟨r2, hr2, hmatch⟩ := ihB _ _ _ _ _ _ (by simpa [avS] using hsub) hag h
        refine ⟨r2, ?_, hmatch⟩
        rw [execS_blockS]
        exact hr2
      | ret e =>
        rw [execS_ret] at h
        simp only [Option.bind_eq_some] at h
        obtain ⟨v, hv, hr⟩ := h
        cases hr
        refine ⟨.ret v, ?_, rfl⟩
        rw [execS_ret]
        simp only [Option.bind_eq_some]
        exact ⟨v, ihE _ _ _ _ _ (agreeOn_mono (by simpa [avS] using hsub) hag) hv, rfl⟩
    refine ⟨?_, ?_, ?_, ?_, ?_, ?_, ?_, ?_⟩
    · intro p env1 env2 e v hag h
      cases e with
      | lit w => exact h
      | var x =>
        rw [evalE_var] at h ⊢
        rw [← hag x (by simp [fvE])]
        exact h
      | bin op a b =>
        rw [evalE_bin] at h ⊢
        simp only [Option.bind_eq_some] at h ⊢
        obtain ⟨va, ha, vb, hb, hv⟩ := h
        refine ⟨va, ihE _ _ _ _ _ (agreeOn_mono ?_ hag) ha,
          vb, ihE _ _ _ _ _ (agreeOn_mono ?_ hag) hb, hv⟩
        · exact List.subset_append_left _ _
        · exact List.subset_append_right _ _
      | un op a =>
        rw [evalE_un] at h ⊢
        simp only [Option.bind_eq_some] at h ⊢
        obtain ⟨va, ha, hv⟩ := h
        exact ⟨va, ihE _ _ _ _ _ hag ha, hv⟩
      | call f args =>
        rw [evalE_call] at h ⊢
        simp only [Option.bind_eq_some] at h ⊢
        obtain ⟨vs, hargs, hcall⟩ := h
        exact ⟨vs, ihA _ _ _ _ _ hag hargs, ihC _ _ _ _ hcall⟩
    · intro p env1 env2 as vs hag h
      cases as with
      | nil => exact h
      | cons e rest =>
        rw [evalArgs_cons] at h ⊢
        simp only [Option.bind_eq_some] at h ⊢
        obtain ⟨v, he, vs0, hrest, hv⟩ := h
        refine ⟨v, ihE _ _ _ _ _ (agreeOn_mono ?_ hag) he,
          vs0, ihA _ _ _ _ _ (agreeOn_mono ?_ hag) hrest, hv⟩
        · exact List.subset_append_left _ _
        · exact List.subset_append_right _ _
    · intro p f vs v h
      rw [callFn_succ] at h ⊢
      simp only [Option.bind_eq_some] at h ⊢
      obtain ⟨fn, hfn, r, hr, hm⟩ := h
      obtain ⟨r2, hr2, hmatch⟩ :=
        ihBd _ ([] : List String) _ _ _ _ (agreeOn_refl _ _) hr
      refine ⟨liveFn fn, lookupFn_live hfn, r2, hr2, ?_⟩
      cases r with
      | ret w =>
        cases r2 with
        | ret w2 => simp only [MatchR] at hmatch; cases hmatch; exact hm
        | norm _ => simp [MatchR] at hmatch
      | norm _ => simp [retVal] at hm
    · exact hSfr
    · intro p V env1 env2 x c st b r hfvc hfvst havb hag h
      rw [execFor_succ] at h
      simp only [Option.bind_eq_some] at h
      obtain ⟨vc, hc, hbr⟩ := h
      cases htr : truthy vc <;> rw [htr] at hbr <;>
        simp only [if_true, if_false, Bool.false_eq_true] at hbr
      · cases hbr
        refine ⟨.norm env2, ?_, hag⟩
        rw [execFor_succ]
        simp only [Option.bind_eq_some]
        refine ⟨vc, ihE _ _ _ _ _ (agreeOn_mono hfvc hag) hc, ?_⟩
        rw [htr]
        simp only [Bool.false_eq_true, if_false]
      · simp only [Option.bind_eq_some] at hbr
        obtain ⟨r0, hb, hm⟩ := hbr
        obtain ⟨r02, hb2, hmatch0⟩ := ihB _ _ _ _ _ _ havb hag hb
        cases r0 with
        | ret v =>
          cases hm
          cases r02 with
          | ret v2 =>
            simp only [MatchR] at hmatch0
            cases hmatch0
            refine ⟨.ret v, ?_, rfl⟩
            rw [execFor_succ]
            simp only [Option.bind_eq_some]
            refine ⟨vc, ihE _ _ _ _ _ (agreeOn_mono hfvc hag) hc, ?_⟩
            rw [htr]
            simp only [if_true, Option.bind_eq_some]
            exact ⟨.ret v, hb2, rfl⟩
          | norm _ => simp [MatchR] at hmatch0
        | norm env1' =>
          cases r02 with
          | ret _ => simp [MatchR] at hmatch0
          | norm env2' =>
            simp only [MatchR] at hmatch0
            simp only [Option.bind_eq_some] at hm
            obtain ⟨vs, hvs, hnext⟩ := hm
            obtain ⟨r2, hr2, hmatch⟩ := ihF _ _ _ _ _ _ _ _ _ hfvc hfvst havb
              (agreeOn_update hmatch0 x vs) hnext
            refine ⟨r2, ?_, hmatch⟩
            rw [execFor_succ]
            simp only [Option.bind_eq_some]
            refine ⟨vc, ihE _ _ _ _ _ (agreeOn_mono hfvc hag) hc, ?_⟩
            rw [htr]
            simp only [if_true, Option.bind_eq_some]
            refine ⟨.norm env2', hb2, ?_⟩
            simp only [Option.bind_eq_some]
            exact ⟨vs, ihE _ _ _ _ _ (agreeOn_mono hfvst hmatch0) hvs, hr2⟩
    · intro p V env1 env2 b r havb hag h
      cases b with
      | nil =>
        rw [execB_nil] at h
        cases h
        refine ⟨.norm env2, ?_, hag⟩
        rw [execB_nil]
      | cons s rest =>
        rw [execB_cons] at h
        simp only [Option.bind_eq_some] at h
        obtain ⟨r0, hs, hm⟩ := h
        have havs : avS s ⊆ V := fun y hy => havb (by simp [avB, hy])
        have havr : avB rest ⊆ V := fun y hy => havb (by simp [avB, hy])
        obtain ⟨r02, hs2, hmatch0⟩ := ihS _ _ _ _ _ _ havs hag hs
        cases r0 with
        | ret v =>
          cases hm
          cases r02 with
          | ret v2 =>
            simp only [MatchR] at hmatch0
            cases hmatch0
            refine ⟨.ret v, ?_, rfl⟩
            rw [execB_cons]
            simp only [Option.bind_eq_some]
            exact ⟨.ret v, hs2, rfl⟩
          | norm _ => simp [MatchR] at hmatch0
        | norm env1' =>
          cases r02 with
          | ret _ => simp [MatchR] at hmatch0
          | norm env2' =>
            simp only [MatchR] at hmatch0
            obtain ⟨r2, hr2, hmatch⟩ := ihB _ _ _ _ _ _ havr hmatch0 hm
            refine ⟨r2, ?_, hmatch⟩
            rw [execB_cons]
            simp only [Option.bind_eq_some]
            exact ⟨.norm env2', hs2, hr2⟩
    · intro p L env1 env2 s r hag h
      cases s with
      | decl x e =>
        constructor
        · intro s' hs'
          simp only [dceS] at hs' hag
          by_cases hxL : x ∈ L
          · rw [if_pos hxL] at hs' hag
            cases hs'
            rw [execS_decl] at h
            simp only [Option.bind_eq_some] at h
            obtain ⟨v, hv, hr⟩ := h
            cases hr
            have hfv : AgreeOn (fvE e) env1 env2 :=
              agreeOn_mono (List.subset_append_right _ _) hag
            refine ⟨.norm ((x, v) :: env2), ?_, ?_⟩
            · rw [execS_decl]
              simp only [Option.bind_eq_some]
              exact ⟨v, ihE _ _ _ _ _ hfv hv, rfl⟩
            · simp only [MatchR]
              intro y hy
              by_cases hyx : y = x
              · subst hyx; simp [lookupV]
              · simp only [lookupV, if_neg hyx]
                exact hag y (by simp [List.mem_append, List.mem_filter, hy, hyx])
          · rw [if_neg hxL] at hs'
            cases hs'
        · intro hnone
          simp only [dceS] at hnone hag
          by_cases hxL : x ∈ L
          · rw [if_pos hxL] at hnone
            cases hnone
          · rw [if_neg hxL] at hnone hag
            rw [execS_decl] at h
            simp only [Option.bind_eq_some] at h
            obtain ⟨v, hv, hr⟩ := h
            cases hr
            exact ⟨(x, v) :: env1, rfl, agreeOn_skip hag hxL v⟩
      | assign x e =>
        constructor
        · intro s' hs'
          simp only [dceS] at hs' hag
          by_cases hxL : x ∈ L
          · rw [if_pos hxL] at hs' hag
            cases hs'
            rw [execS_assign] at h
            simp only [Option.bind_eq_some] at h
            obtain ⟨v, hv, hr⟩ := h
            cases hr
            have hfv : AgreeOn (fvE e) env1 env2 :=
              agreeOn_mono (List.subset_append_right _ _) hag
            refine ⟨.norm (updateV env2 x v), ?_, ?_⟩
            · rw [execS_assign]
              simp only [Option.bind_eq_some]
              exact ⟨v, ihE _ _ _ _ _ hfv hv, rfl⟩
            · simp only [MatchR]
              intro y hy
              by_cases hyx : y = x
              · subst hyx
                rw [lookupV_updateV_self, lookupV_updateV_self]
              · rw [lookupV_updateV_ne hyx, lookupV_updateV_ne hyx]
                exact hag y (by simp [List.mem_append, List.mem_filter, hy, hyx])
          · rw [if_neg hxL] at hs'
            cases hs'
        · intro hnone
          simp only [dceS] at hnone hag
          by_cases hxL : x ∈ L
          · rw [if_pos hxL] at hnone
            cases hnone
          · rw [if_neg hxL] at hnone hag
            rw [execS_assign] at h
            simp only [Option.bind_eq_some] at h
            obtain ⟨v, hv, hr⟩ := h
            cases hr
            exact ⟨updateV env1 x v, rfl, agreeOn_skip_update hag hxL v⟩
      | exprS e =>
        refine ⟨?_, fun hnone => by simp [dceS] at hnone⟩
        intro s' hs'
        simp only [dceS] at hs' hag
        cases hs'
        rw [execS_exprS] at h
        simp only [Option.bind_eq_some] at h
        obtain ⟨v, hv, hr⟩ := h
        cases hr
        refine ⟨.norm env2, ?_, agreeOn_mono (List.subset_append_right _ _) hag⟩
        rw [execS_exprS]
        simp only [Option.bind_eq_some]
        exact ⟨v, ihE _ _ _ _ _ (agreeOn_mono (List.subset_append_left _ _) hag) hv, trivial⟩
      | ifS c t e =>
        refine ⟨?_, fun hnone => by simp [dceS] at hnone⟩
        intro s' hs'
        simp only [dceS] at hs' hag
        cases hs'
        rw [execS_ifS] at h
        simp only [Option.bind_eq_some] at h
        obtain ⟨vc, hc, hbr⟩ := h
        have hagc : AgreeOn (fvE c) env1 env2 :=
          agreeOn_mono (List.subset_append_left _ _) hag
        have hagt : AgreeOn (dceB t L).2 env1 env2 :=
          agreeOn_mono (fun y hy => by simp [List.mem_append, hy]) hag
        have hage : AgreeOn (dceB e L).2 env1 env2 :=
          agreeOn_mono (fun y hy => by simp [List.mem_append, hy]) hag
        cases htr : truthy vc <;> rw [htr] at hbr <;>
          simp only [if_true, if_false, Bool.false_eq_true] at hbr
        · obtain ⟨r2, hr2, hmatch⟩ := ihBd _ _ _ _ _ _ hage hbr
          refine ⟨r2, ?_, hmatch⟩
          rw [execS_ifS]
          simp only [Option.bind_eq_some]
          refine ⟨vc, ihE _ _ _ _ _ hagc hc, ?_⟩
          rw [htr]
          simp only [Bool.false_eq_true, if_false]
          exact hr2
        · obtain ⟨r2, hr2, hmatch⟩ := ihBd _ _ _ _ _ _ hagt hbr
          refine ⟨r2, ?_, hmatch⟩
          rw [execS_ifS]
          simp only [Option.bind_eq_some]
          refine ⟨vc, ihE _ _ _ _ _ hagc hc, ?_⟩
          rw [htr]
          simp only [if_true]
          exact hr2
      | whileS c b =>
        refine ⟨?_, fun hnone => by simp [dceS] at hnone⟩
        intro s' hs'
        simp only [dceS] at hs' hag
        cases hs'
        obtain ⟨r2, hr2, hmatch⟩ := hSfr _ _ _ _ _ _
          (List.subset_append_left _ _) hag h
        exact ⟨r2, hr2, matchR_mono (List.subset_append_right _ _) hmatch⟩
      | forS x e0 c st b =>
        refine ⟨?_, fun hnone => by simp [dceS] at hnone⟩
        intro s' hs'
        simp only [dceS] at hs' hag
        cases hs'
        obtain ⟨r2, hr2, hmatch⟩ := hSfr _ _ _ _ _ _
          (List.subset_append_left _ _) hag h
        exact ⟨r2, hr2, matchR_mono (List.subset_append_right _ _) hmatch⟩
      | blockS b =>
        refine ⟨?_, fun hnone => by simp [dceS] at hnone⟩
        intro s' hs'
        simp only [dceS] at hs' hag
        cases hs'
        rw [execS_blockS] at h
        obtain ⟨r2, hr2, hmatch⟩ := ihBd _ _ _ _ _ _ hag h
        refine ⟨r2, ?_, hmatch⟩
        rw [execS_blockS]
        exact hr2
      | ret e =>
        refine ⟨?_, fun hnone => by simp [dceS] at hnone⟩
        intro s' hs'
        simp only [dceS] at hs' hag
        cases hs'
        rw [execS_ret] at h
        simp only [Option.bind_eq_some] at h
        obtain ⟨v, hv, hr⟩ := h
        cases hr
        refine ⟨.ret v, ?_, rfl⟩
        rw [execS_ret]
        simp only [Option.bind_eq_some]
        exact ⟨v, ihE _ _ _ _ _ hag hv, rfl⟩
    · intro p L env1 env2 b r hag h
      cases b with
      | nil =>
        rw [execB_nil] at h
        cases h
        simp only [dceB] at hag ⊢
        refine ⟨.norm env2, ?_, hag⟩
        rw [execB_nil]
      | cons s rest =>
        rw [execB_cons] at h
        simp only [Option.bind_eq_some] at h
        obtain ⟨r0, hs, hm⟩ := h
        have h2eq : (dceB (.cons s rest) L).2 = (dceS s (dceB rest L).2).2 := by
          simp only [dceB]
          cases hds : dceS s (dceB rest L).2 with
          | mk os Ls => cases os <;> simp
        have hagS : AgreeOn (dceS s (dceB rest L).2).2 env1 env2 := h2eq ▸ hag
        have hSd := ihSd p ((dceB rest L).2) env1 env2 s r0 hagS hs
        cases hds : (dceS s (dceB rest L).2).1 with
        | some s' =>
          obtain ⟨r02, hs2, hmatch0⟩ := hSd.1 s' hds
          cases r0 with
          | ret v =>
            cases hm
            cases r02 with
            | ret v2 =>
              simp only [MatchR] at hmatch0
              cases hmatch0
              refine ⟨.ret v, ?_, rfl⟩
              have hblk : (dceB (.cons s rest) L).1 = .cons s' (dceB rest L).1 := by
                simp only [dceB]
                rw [show dceS s (dceB rest L).2 = (some s', (dceS s (dceB rest L).2).2) from
                  by rw [← hds]]
              rw [hblk, execB_cons]
              simp only [Option.bind_eq_some]
              exact ⟨.ret v, hs2, rfl⟩
            | norm _ => simp [MatchR] at hmatch0
          | norm env1' =>
            cases r02 with
            | ret _ => simp [MatchR] at hmatch0
            | norm env2' =>
              simp only [MatchR] at hmatch0
              obtain ⟨r2, hr2, hmatch⟩ := ihBd _ _ _ _ _ _ hmatch0 hm
              refine ⟨r2, ?_, hmatch⟩
              have hblk : (dceB (.cons s rest) L).1 = .cons s' (dceB rest L).1 := by
                simp only [dceB]
                rw [show dceS s (dceB rest L).2 = (some s', (dceS s (dceB rest L).2).2) from
                  by rw [← hds]]
              rw [hblk, execB_cons]
              simp only [Option.bind_eq_some]
              exact ⟨.norm env2', hs2, hr2⟩
        | none =>
          obtain ⟨env1', hr0, hag'⟩ := hSd.2 hds
          subst hr0
          obtain ⟨r2, hr2, hmatch⟩ := ihBd _ _ _ _ _ _ hag' hm
          refine ⟨r2, ?_, hmatch⟩
          have hblk : (dceB (.cons s rest) L).1 = (dceB rest L).1 := by
            simp only [dceB]
            rw [show dceS s (dceB rest L).2 = (none, (dceS s (dceB rest L).2).2) from
              by rw [← hds]]
          rw [hblk]
          exact execB_mono (Nat.le_succ fuel) hr2

/-- Program-level: liveness-based DCE preserves the observable result. -/
theorem liveProg_preserves {p : Prog} {fuel : Nat} {v : Int}
    (h : execProgram p fuel = some v) : execProgram (liveProg p) fuel = some v :=
  (live_exec fuel).2.2.1 _ _ _ _ h

/-! ## Dead function removal (spec §4.4)

Modelled from the spec: an entire function other than the entry point
(`main`) with zero call sites in the whole program is removed. -/

mutual
/-- Number of syntactic call sites of `g` in an expression. -/
def ccE (g : String) : Expr → Nat
  | .lit _ => 0
  | .var _ => 0
  | .bin _ a b => ccE g a + ccE g b
  | .un _ a => ccE g a
  | .call f args => (if f = g then 1 else 0) + ccArgs g args

def ccArgs (g : String) : Args → Nat
  | .nil => 0
  | .cons e rest => ccE g e + ccArgs g rest
end

mutual
def ccS (g : String) : Stmt → Nat
  | .decl _ e => ccE g e
  | .assign _ e => ccE g e
  | .exprS e => ccE g e
  | .ifS c t e => ccE g c + ccB g t + ccB g e
  | .whileS c b => ccE g c + ccB g b
  | .forS _ e0 c st b => ccE g e0 + ccE g c + ccE g st + ccB g b
  | .blockS b => ccB g b
  | .ret e => ccE g e

def ccB (g : String) : Block → Nat
  | .nil => 0
  | .cons s rest => ccS g s + ccB g rest
end

/-- Call sites of `g` across the whole program. -/
def callCount (p : Prog) (g : String) : Nat := (p.map fun f => ccB g f.body).sum

/-- Keep the entry point and every function with at least one call site. -/
def keepName (p : Prog) (n : String) : Bool := n == "main" || callCount p n != 0

def removeDeadFns (p : Prog) : Prog := p.filter fun f => keepName p f.name

theorem lookupFn_filter_name (p : Prog) (P : String → Bool) (g : String) :
    lookupFn (p.filter fun f => P f.name) g =
      if P g then lookupFn p g else none := by
  induction p with
  | nil => simp [lookupFn]
  | cons f rest ih =>
    simp only [List.filter_cons]
    by_cases hP : P f.name
    · rw [if_pos (by simpa using hP)]
      by_cases hg : g = f.name
      · subst hg
        simp [lookupFn, hP]
      · simp only [lookupFn, if_neg hg]
        exact ih
    · rw [if_neg (by simpa using hP)]
      by_cases hg : g = f.name
      · subst hg
        rw [ih]
        simp [lookupFn, hP]
      · rw [ih]
        by_cases hPg : P g <;> simp [hPg, lookupFn, hg]

/-- Name-lookup is unchanged by dead-function removal for kept names. -/
def NK (p : Prog) (g : String) : Prop :=
  lookupFn (removeDeadFns p) g = lookupFn p g

theorem nk_main (p : Prog) : NK p "main" := by
  unfold NK removeDeadFns
  rw [lookupFn_filter_name]
  simp [keepName]

theorem nk_of_count {p : Prog} {g : String} (h : 0 < callCount p g) : NK p g := by
  unfold NK removeDeadFns
  rw [lookupFn_filter_name]
  have hne : (callCount p g != 0) = true := by
    simp only [bne_iff_ne, ne_eq]
    omega
  simp [keepName, hne]

theorem lookupFn_mem {p : Prog} {g : String} {fn : Fn} (h : lookupFn p g = some fn) :
    fn ∈ p := by
  induction p with
  | nil => simp [lookupFn] at h
  | cons f rest ih =>
    simp only [lookupFn] at h
    by_cases hg : g = f.name
    · rw [if_pos hg] at h
      cases h
      exact List.mem_cons_self _ _
    · rw [if_neg hg] at h
      exact List.mem_cons_of_mem _ (ih h)

theorem ccB_le_callCount {p : Prog} {fn : Fn} (hm : fn ∈ p) (g : String) :
    ccB g fn.body ≤ callCount p g := by
  unfold callCount
  exact List.single_le_sum (fun x _ => Nat.zero_le x) _
    (List.mem_map_of_mem (fun f => ccB g f.body) hm)

/-- Removing dead functions preserves any completed execution whose entry
name survives. -/
theorem deadfn_exec (fuel : Nat) :
    (∀ p env e v, (∀ g, 0 < ccE g e → NK p g) → evalE fuel p env e = some v →
      evalE fuel (removeDeadFns p) env e = some v) ∧
    (∀ p env as vs, (∀ g, 0 < ccArgs g as → NK p g) → evalArgs fuel p env as = some vs →
      evalArgs fuel (removeDeadFns p) env as = some vs) ∧
    (∀ p f vs v, NK p f → callFn fuel p f vs = some v →
      callFn fuel (removeDeadFns p) f vs = some v) ∧
    (∀ p env s r, (∀ g, 0 < ccS g s → NK p g) → execS fuel p env s = some r →
      execS fuel (removeDeadFns p) env s = some r) ∧
    (∀ p env x c st b r,
      (∀ g, 0 < ccE g c → NK p g) → (∀ g, 0 < ccE g st → NK p g) →
      (∀ g, 0 < ccB g b → NK p g) → execFor fuel p env x c st b = some r →
      execFor fuel (removeDeadFns p) env x c st b = some r) ∧
    (∀ p env b r, (∀ g, 0 < ccB g b → NK p g) → execB fuel p env b = some r →
      execB fuel (removeDeadFns p) env b = some r) := by
  induction fuel with
  | zero =>
    refine ⟨?_, ?_, ?_, ?_, ?_, ?_⟩
    · intro p env e v _ h; simp [evalE] at h
    · intro p env as vs _ h; simp [evalArgs] at h
    · intro p f vs v _ h; simp [callFn] at h
    · intro p env s r _ h; simp [execS] at h
    · intro p env x c st b r _ _ _ h; simp [execFor] at h
    · intro p env b r _ h; simp [execB] at h
  | succ fuel ih =>
    obtain ⟨ihE, ihA, ihC, ihS, ihF, ihB⟩ := ih
    refine ⟨?_, ?_, ?_, ?_, ?_, ?_⟩
    · intro p env e v hk h
      cases e with
      | lit w => exact h
      | var x => exact h
      | bin op a b =>
        rw [evalE_bin] at h ⊢
        simp only [Option.bind_eq_some] at h ⊢
        obtain ⟨va, ha, vb, hb, hv⟩ := h
        refine ⟨va, ihE _ _ _ _ (fun g hg => hk g ?_) ha,
          vb, ihE _ _ _ _ (fun g hg => hk g ?_) hb, hv⟩
        · simp only [ccE]; omega
        · simp only [ccE]; omega
      | un op a =>
        rw [evalE_un] at h ⊢
        simp only [Option.bind_eq_some] at h ⊢
        obtain ⟨va, ha, hv⟩ := h
        exact ⟨va, ihE _ _ _ _ (fun g hg => hk g (by simpa [ccE] using hg)) ha, hv⟩
      | call f args =>
        rw [evalE_call] at h ⊢
        simp only [Option.bind_eq_some] at h ⊢
        obtain ⟨vs, hargs, hcall⟩ := h
        refine ⟨vs, ihA _ _ _ _ (fun g hg => hk g ?_) hargs,
          ihC _ _ _ _ (hk f ?_) hcall⟩
        · simp only [ccE]; omega
        · simp [ccE]
    · intro p env as vs hk h
      cases as with
      | nil => exact h
      | cons e rest =>
        rw [evalArgs_cons] at h ⊢
        simp only [Option.bind_eq_some] at h ⊢
        obtain ⟨v, he, vs0, hrest, hv⟩ := h
        refine ⟨v, ihE _ _ _ _ (fun g hg => hk g ?_) he,
          vs0, ihA _ _ _ _ (fun g hg => hk g ?_) hrest, hv⟩
        · simp only [ccArgs]; omega
        · simp only [ccArgs]; omega
    · intro p f vs v hk h
      rw [callFn_succ] at h ⊢
      simp only [Option.bind_eq_some] at h ⊢
      obtain ⟨fn, hfn, r, hr, hm⟩ := h
      have hbodyk : ∀ g, 0 < ccB g fn.body → NK p g := fun g hg =>
        nk_of_count (Nat.lt_of_lt_of_le hg (ccB_le_callCount (lookupFn_mem hfn) g))
      exact ⟨fn, hk ▸ hfn, r, ihB _ _ _ _ hbodyk hr, hm⟩
    · intro p env s r hk h
      cases s with
      | decl x e =>
        rw [execS_decl] at h ⊢
        simp only [Option.bind_eq_some] at h ⊢
        obtain ⟨v, hv, hr⟩ := h
        exact ⟨v, ihE _ _ _ _ (fun g hg => hk g (by simpa [ccS] using hg)) hv, hr⟩
      | assign x e =>
        rw [execS_assign] at h ⊢
        simp only [Option.bind_eq_some] at h ⊢
        obtain ⟨v, hv, hr⟩ := h
        exact ⟨v, ihE _ _ _ _ (fun g hg => hk g (by simpa [ccS] using hg)) hv, hr⟩
      | exprS e =>
        rw [execS_exprS] at h ⊢
        simp only [Option.bind_eq_some] at h ⊢
        obtain ⟨v, hv, hr⟩ := h
        exact ⟨v, ihE _ _ _ _ (fun g hg => hk g (by simpa [ccS] using hg)) hv, hr⟩
      | ifS c t e =>
        rw [execS_ifS] at h ⊢
        simp only [Option.bind_eq_some] at h ⊢
        obtain ⟨vc, hc, hbr⟩ := h
        refine ⟨vc, ihE _ _ _ _ (fun g hg => hk g (by simp only [ccS]; omega)) hc, ?_⟩
        cases htr : truthy vc <;> rw [htr] at hbr <;>
          simp only [if_true, if_false, Bool.false_eq_true] at hbr ⊢
        · exact ihB _ _ _ _ (fun g hg => hk g (by simp only [ccS]; omega)) hbr
        · exact ihB _ _ _ _ (fun g hg => hk g (by simp only [ccS]; omega)) hbr
      | whileS c b =>
        rw [execS_whileS] at h ⊢
        simp only [Option.bind_eq_some] at h ⊢
        obtain ⟨vc, hc, hbr⟩ := h
        refine ⟨vc, ihE _ _ _ _ (fun g hg => hk g (by simp only [ccS]; omega)) hc, ?_⟩
        cases htr : truthy vc <;> rw [htr] at hbr <;>
          simp only [if_true, if_false, Bool.false_eq_true] at hbr ⊢
        · exact hbr
        · simp only [Option.bind_eq_some] at hbr ⊢
          obtain ⟨r0, hb, hm⟩ := hbr
          refine ⟨r0, ihB _ _ _ _ (fun g hg => hk g (by simp only [ccS]; omega)) hb, ?_⟩
          cases r0 with
          | ret v => exact hm
          | norm env' => exact ihS _ _ _ _ hk hm
      | forS x e0 c st b =>
        rw [execS_forS] at h ⊢
        simp only [Option.bind_eq_some] at h ⊢
        obtain ⟨v0, h0, hfor⟩ := h
        refine ⟨v0, ihE _ _ _ _ (fun g hg => hk g (by simp only [ccS]; omega)) h0, ?_⟩
        refine ihF _ _ _ _ _ _ _ (fun g hg => hk g (by simp only [ccS]; omega))
          (fun g hg => hk g (by simp only [ccS]; omega))
          (fun g hg => hk g (by simp only [ccS]; omega)) hfor
      | blockS b =>
        rw [execS_blockS] at h ⊢
        exact ihB _ _ _ _ (fun g hg => hk g (by simpa [ccS] using hg)) h
      | ret e =>
        rw [execS_ret] at h ⊢
        simp only [Option.bind_eq_some] at h ⊢
        obtain ⟨v, hv, hr⟩ := h
        exact ⟨v, ihE _ _ _ _ (fun g hg => hk g (by simpa [ccS] using hg)) hv, hr⟩
    · intro p env x c st b r hkc hkst hkb h
      rw [execFor_succ] at h ⊢
      simp only [Option.bind_eq_some] at h ⊢
      obtain ⟨vc, hc, hbr⟩ := h
      refine ⟨vc, ihE _ _ _ _ hkc hc, ?_⟩
      cases htr : truthy vc <;> rw [htr] at hbr <;>
        simp only [if_true, if_false, Bool.false_eq_true] at hbr ⊢
      · exact hbr
      · simp only [Option.bind_eq_some] at hbr ⊢
        obtain ⟨r0, hb, hm⟩ := hbr
        refine ⟨r0, ihB _ _ _ _ hkb hb, ?_⟩
        cases r0 with
        | ret v => exact hm
        | norm env' =>
          simp only [Option.bind_eq_some] at hm ⊢
          obtain ⟨vs, hvs, hnext⟩ := hm
          exact ⟨vs, ihE _ _ _ _ hkst hvs, ihF _ _ _ _ _ _ _ hkc hkst hkb hnext⟩
    · intro p env b r hk h
      cases b with
      | nil => exact h
      | cons s rest =>
        rw [execB_cons] at h ⊢
        simp only [Option.bind_eq_some] at h ⊢
        obtain ⟨r0, hs, hm⟩ := h
        refine ⟨r0, ihS _ _ _ _ (fun g hg => hk g (by simp only [ccB]; omega)) hs, ?_⟩
        cases r0 with
        | ret v => exact hm
        | norm env' => exact ihB _ _ _ _ (fun g hg => hk g (by simp only [ccB]; omega)) hm

/-- Program-level: dead-function removal preserves the observable result. -/
theorem removeDeadFns_preserves {p : Prog} {fuel : Nat} {v : Int}
    (h : execProgram p fuel = some v) : execProgram (removeDeadFns p) fuel = some v :=
  (deadfn_exec fuel).2.2.1 _ _ _ _ (nk_main p) h

/-- The removal policy itself: a non-entry function with zero call sites
is not in the output. -/
theorem removeDeadFns_removes {p : Prog} {f : Fn} (hmem : f ∈ p)
    (hname : f.name ≠ "main") (hcount : callCount p f.name = 0) :
    f ∉ removeDeadFns p := by
  intro hin
  unfold removeDeadFns at hin
  have := List.of_mem_filter hin
  simp only [keepName, Bool.or_eq_true, beq_iff_eq, bne_iff_ne, ne_eq] at this
  rcases this with h1 | h1
  · exact hname h1
  · exact h1 hcount

/-! ## Function Inlining (spec §4.5)

Modelled from the spec: a call site qualifies when the callee is below the
statement-count threshold (here: a single `return e` body, the shape of the
corpus's inlinable callees, which have no local declarations), is not
directly recursive, and uses no unmodelled features.  The call is replaced
by the callee's return expression with each parameter bound to that call
site's own argument expression — every site substitutes its own fresh
copies, so two calls to the same callee never alias. -/

def lookupE : List (String × Expr) → String → Option Expr
  | [], _ => none
  | (y, e) :: rest, x => if x = y then some e else lookupE rest x

/-- Pair up parameter names with the call site's argument expressions. -/
def zipA : List String → Args → List (String × Expr)
  | x :: xs, .cons e rest => (x, e) :: zipA xs rest
  | _, _ => []

def argsLen : Args → Nat
  | .nil => 0
  | .cons _ rest => 1 + argsLen rest

mutual
/-- Substitute argument expressions for parameter reads. -/
def substMapE (σ : List (String × Expr)) : Expr → Expr
  | .lit v => .lit v
  | .var x =>
    match lookupE σ x with
    | some e => e
    | none => .var x
  | .bin op a b => .bin op (substMapE σ a) (substMapE σ b)
  | .un op a => .un op (substMapE σ a)
  | .call f args => .call f (substMapArgs σ args)

def substMapArgs (σ : List (String × Expr)) : Args → Args
  | .nil => .nil
  | .cons e rest => .cons (substMapE σ e) (substMapArgs σ rest)
end

/-- A callee qualifies for inlining when its body is a single return of an
expression with no direct self-call (the size gate and recursion gate). -/
def qualifies (p : Prog) (f : String) : Option (List String × Expr) :=
  match lookupFn p f with
  | some fn =>
    match fn.body with
    | .cons (.ret e) .nil => if ccE f e = 0 then some (fn.params, e) else none
    | _ => none
  | none => none

theorem qualifies_inv {p : Prog} {f : String} {params : List String} {e : Expr}
    (h : qualifies p f = some (params, e)) :
    ∃ fn, lookupFn p f = some fn ∧ fn.params = params ∧
      fn.body = .cons (.ret e) .nil := by
  unfold qualifies at h
  cases hfn : lookupFn p f with
  | none => rw [hfn] at h; cases h
  | some fn =>
    rw [hfn] at h
    have h2 : (match fn.body with
        | .cons (.ret e0) .nil => if ccE f e0 = 0 then some (fn.params, e0) else none
        | _ => none) = some (params, e) := h
    refine ⟨fn, rfl, ?_⟩
    cases hb : fn.body with
    | nil => rw [hb] at h2; simp at h2
    | cons s rest =>
      rw [hb] at h2
      cases s with
      | ret e0 =>
        cases rest with
        | nil =>
          have h3 : (if ccE f e0 = 0 then some (fn.params, e0) else none) =
              some (params, e) := h2
          split at h3
          · rw [Option.some_inj, Prod.mk.injEq] at h3
            exact ⟨h3.1, by rw [h3.2]⟩
          · exact absurd h3 (by simp)
        | cons s2 r2 => simp at h2
      | decl _ _ => simp at h2
      | assign _ _ => simp at h2
      | exprS _ => simp at h2
      | ifS _ _ _ => simp at h2
      | whileS _ _ => simp at h2
      | forS _ _ _ _ _ => simp at h2
      | blockS _ => simp at h2

/-- Rewrite a qualifying call expression at a statement's right-hand side. -/
def inlineCall (p : Prog) (e : Expr) : Expr :=
  match e with
  | .call f args =>
    match qualifies p f with
    | some (params, body) =>
      if argsLen args = params.length then substMapE (zipA params args) body
      else .call f args
    | none => .call f args
  | e => e

mutual
def inlS (p : Prog) : Stmt → Stmt
  | .decl x e => .decl x (inlineCall p e)
  | .assign x e => .assign x (inlineCall p e)
  | .exprS e => .exprS e
  | .ifS c t e => .ifS c (inlB p t) (inlB p e)
  | .whileS c b => .whileS c (inlB p b)
  | .forS x e0 c st b => .forS x e0 c st (inlB p b)
  | .blockS b => .blockS (inlB p b)
  | .ret e => .ret (inlineCall p e)

def inlB (p : Prog) : Block → Block
  | .nil => .nil
  | .cons s rest => .cons (inlS p s) (inlB p rest)
end

def inlineFn (p : Prog) (f : Fn) : Fn := ⟨f.name, f.params, inlB p f.body⟩

/-- The inlining pass; qualification is decided against the snapshot `p`. -/
def inlineProg (p : Prog) : Prog := p.map (inlineFn p)

theorem lookupFn_map_inline (q0 : Prog) :
    ∀ {p : Prog} {f : String} {fn : Fn}, lookupFn p f = some fn →
      lookupFn (p.map (inlineFn q0)) f = some (inlineFn q0 fn) := by
  intro p f fn h
  induction p with
  | nil => simp [lookupFn] at h
  | cons g rest ih =>
    simp only [List.map_cons, lookupFn] at h ⊢
    by_cases hf : f = g.name
    · rw [if_pos hf] at h
      cases h
      rw [if_pos (by simpa [inlineFn] using hf)]
    · rw [if_neg hf] at h
      rw [if_neg (by simpa [inlineFn] using hf)]
      exact ih h

theorem lookupFn_inline {p : Prog} {f : String} {fn : Fn} (h : lookupFn p f = some fn) :
    lookupFn (inlineProg p) f = some (inlineFn p fn) :=
  lookupFn_map_inline p h

/-- Relation between a substitution map and a callee-parameter environment:
each mapped parameter's expression evaluates (in the caller) to the bound
value, and unmapped names are unbound. -/
def RelA (q : Prog) (env envf : Env) (σ : List (String × Expr)) : Prop :=
  ∀ x, (∀ ei, lookupE σ x = some ei →
        ∃ vi Gi, lookupV envf x = some vi ∧ evalE Gi q env ei = some vi) ∧
      (lookupE σ x = none → lookupV envf x = none)

theorem relA_zip {q : Prog} {env : Env} :
    ∀ (params : List String) (args : Args) (vs : List Int) (Ga : Nat),
      evalArgs Ga q env args = some vs →
      RelA q env (bindParams params vs) (zipA params args) := by
  intro params
  induction params with
  | nil =>
    intro args vs Ga _ x
    constructor
    · intro ei hei; simp [zipA, lookupE] at hei
    · intro _; simp [bindParams, lookupV]
  | cons y ys ih =>
    intro args vs Ga hargs x
    cases args with
    | nil =>
      have hvs : vs = [] := by
        cases Ga with
        | zero => simp [evalArgs] at hargs
        | succ g => rw [evalArgs_nil] at hargs; cases hargs; rfl
      subst hvs
      constructor
      · intro ei hei; simp [zipA, lookupE] at hei
      · intro _; simp [bindParams, lookupV]
    | cons e rest =>
      cases Ga with
      | zero => simp [evalArgs] at hargs
      | succ g =>
        rw [evalArgs_cons] at hargs
        simp only [Option.bind_eq_some] at hargs
        obtain ⟨v, hv, vs0, hrest, hvs⟩ := hargs
        cases hvs
        by_cases hxy : x = y
        · subst hxy
          constructor
          · intro ei hei
            simp only [zipA, lookupE, if_pos rfl] at hei
            cases hei
            exact ⟨v, g, by simp [bindParams, lookupV], hv⟩
          · intro hnone
            simp [zipA, lookupE] at hnone
        · constructor
          · intro ei hei
            simp only [zipA, lookupE, if_neg hxy] at hei
            have := ((ih rest vs0 g hrest) x).1 ei hei
            simpa [bindParams, lookupV, hxy] using this
          · intro hnone
            simp only [zipA, lookupE, if_neg hxy] at hnone
            have := ((ih rest vs0 g hrest) x).2 hnone
            simpa [bindParams, lookupV, hxy] using this

theorem callFn_single_ret_inv {fuel : Nat} {p : Prog} {f : String} {vs : List Int}
    {v : Int} {fn : Fn} {e : Expr} (hfn : lookupFn p f = some fn)
    (hbody : fn.body = .cons (.ret e) .nil) (h : callFn fuel p f vs = some v) :
    ∃ F, F ≤ fuel ∧ evalE F p (bindParams fn.params vs) e = some v := by
  cases fuel with
  | zero => simp [callFn] at h
  | succ k =>
    rw [callFn_succ, hfn] at h
    simp only [Option.bind_eq_some] at h
    obtain ⟨fn2, hfn2, r0, hexec, hret⟩ := h
    cases hfn2
    rw [hbody] at hexec
    cases k with
    | zero => simp [execB] at hexec
    | succ k2 =>
      rw [execB_cons] at hexec
      simp only [Option.bind_eq_some] at hexec
      obtain ⟨r1, hs1, hm1⟩ := hexec
      cases k2 with
      | zero => simp [execS] at hs1
      | succ k3 =>
        rw [execS_ret] at hs1
        simp only [Option.bind_eq_some] at hs1
        obtain ⟨v1, hv1, hr1⟩ := hs1
        cases hr1
        cases hm1
        simp only [retVal, Option.some_inj] at hret
        cases hret
        exact ⟨k3, by omega, hv1⟩

/-- The Function Inliner preserves any completed execution (possibly at a
larger fuel bound: substituted arguments are re-evaluated per use site). -/
theorem inline_exec (fuel : Nat) :
    (∀ p env e v, evalE fuel p env e = some v →
      ∃ G, evalE G (inlineProg p) env e = some v) ∧
    (∀ p env as vs, evalArgs fuel p env as = some vs →
      ∃ G, evalArgs G (inlineProg p) env as = some vs) ∧
    (∀ p f vs v, callFn fuel p f vs = some v →
      ∃ G, callFn G (inlineProg p) f vs = some v) ∧
    (∀ p env s r, execS fuel p env s = some r →
      ∃ G, execS G (inlineProg p) env (inlS p s) = some r) ∧
    (∀ p env x c st b r, execFor fuel p env x c st b = some r →
      ∃ G, execFor G (inlineProg p) env x c st (inlB p b) = some r) ∧
    (∀ p env b r, execB fuel p env b = some r →
      ∃ G, execB G (inlineProg p) env (inlB p b) = some r) ∧
    (∀ p env envf σ e v, RelA (inlineProg p) env envf σ → evalE fuel p envf e = some v →
      ∃ G, evalE G (inlineProg p) env (substMapE σ e) = some v) ∧
    (∀ p env envf σ as vs, RelA (inlineProg p) env envf σ →
      evalArgs fuel p envf as = some vs →
      ∃ G, evalArgs G (inlineProg p) env (substMapArgs σ as) = some vs) := by
  induction fuel with
  | zero =>
    refine ⟨?_, ?_, ?_, ?_, ?_, ?_, ?_, ?_⟩
    · intro p env e v h; simp [evalE] at h
    · intro p env as vs h; simp [evalArgs] at h
    · intro p f vs v h; simp [callFn] at h
    · intro p env s r h; simp [execS] at h
    · intro p env x c st b r h; simp [execFor] at h
    · intro p env b r h; simp [execB] at h
    · intro p env envf σ e v _ h; simp [evalE] at h
    · intro p env envf σ as vs _ h; simp [evalArgs] at h
  | succ fuel ih =>
    obtain ⟨ihE, ihA, ihC, ihS, ihF, ihB, ihSub, ihSubA⟩ := ih
    have hRhs : ∀ p env e v, evalE fuel p env e = some v →
        ∃ G, evalE G (inlineProg p) env (inlineCall p e) = some v := by
      intro p env e v h
      cases e with
      | lit w => exact ihE _ _ _ _ h
      | var x => exact ihE _ _ _ _ h
      | bin op a b => exact ihE _ _ _ _ h
      | un op a => exact ihE _ _ _ _ h
      | call f args =>
        cases hq : qualifies p f with
        | none => simpa only [inlineCall, hq] using ihE _ _ _ _ h
        | some pr =>
          obtain ⟨params, body0⟩ := pr
          by_cases harity : argsLen args = params.length
          · simp only [inlineCall, hq, if_pos harity]
            obtain ⟨fn, hfn, hparams, hbody⟩ := qualifies_inv hq
            cases fuel with
            | zero => simp [evalE] at h
            | succ m =>
              rw [evalE_call] at h
              simp only [Option.bind_eq_some] at h
              obtain ⟨vs, hargs, hcall⟩ := h
              obtain ⟨Ga, hargs'⟩ := ihA _ _ _ _ (evalArgs_mono (Nat.le_succ m) hargs)
              have hrel : RelA (inlineProg p) env (bindParams params vs)
                  (zipA params args) := relA_zip params args vs Ga hargs'
              obtain ⟨F, hFle, hbodyEval⟩ := callFn_single_ret_inv hfn hbody hcall
              have hbodyEval' : evalE (m + 1) p (bindParams fn.params vs) body0 = some v :=
                evalE_mono (by omega) hbodyEval
              rw [hparams] at hbodyEval'
              exact ihSub _ _ _ _ _ _ hrel hbodyEval'
          · simp only [inlineCall, hq, if_neg harity]
            exact ihE _ _ _ _ h
    refine ⟨?_, ?_, ?_, ?_, ?_, ?_, ?_, ?_⟩
    · intro p env e v h
      cases e with
      | lit w => exact ⟨fuel + 1, h⟩
      | var x => exact ⟨fuel + 1, h⟩
      | bin op a b =>
        rw [evalE_bin] at h
        simp only [Option.bind_eq_some] at h
        obtain ⟨va, ha, vb, hb, hv⟩ := h
        obtain ⟨Ga, ha'⟩ := ihE _ _ _ _ ha
        obtain ⟨Gb, hb'⟩ := ihE _ _ _ _ hb
        refine ⟨max Ga Gb + 1, ?_⟩
        rw [evalE_bin]
        simp only [Option.bind_eq_some]
        exact ⟨va, evalE_mono (Nat.le_max_left _ _) ha',
          vb, evalE_mono (Nat.le_max_right _ _) hb', hv⟩
      | un op a =>
        rw [evalE_un] at h
        simp only [Option.bind_eq_some] at h
        obtain ⟨va, ha, hv⟩ := h
        obtain ⟨Ga, ha'⟩ := ihE _ _ _ _ ha
        refine ⟨Ga + 1, ?_⟩
        rw [evalE_un]
        simp only [Option.bind_eq_some]
        exact ⟨va, ha', hv⟩
      | call f args =>
        rw [evalE_call] at h
        simp only [Option.bind_eq_some] at h
        obtain ⟨vs, hargs, hcall⟩ := h
        obtain ⟨Ga, hargs'⟩ := ihA _ _ _ _ hargs
        obtain ⟨Gc, hcall'⟩ := ihC _ _ _ _ hcall
        refine ⟨max Ga Gc + 1, ?_⟩
        rw [evalE_call]
        simp only [Option.bind_eq_some]
        exact ⟨vs, evalArgs_mono (Nat.le_max_left _ _) hargs',
          callFn_mono (Nat.le_max_right _ _) hcall'⟩
    · intro p env as vs h
      cases as with
      | nil => exact ⟨fuel + 1, h⟩
      | cons e rest =>
        rw [evalArgs_cons] at h
        simp only [Option.bind_eq_some] at h
        obtain ⟨v, he, vs0, hrest, hv⟩ := h
        obtain ⟨Ge, he'⟩ := ihE _ _ _ _ he
        obtain ⟨Gr, hrest'⟩ := ihA _ _ _ _ hrest
        refine ⟨max Ge Gr + 1, ?_⟩
        rw [evalArgs_cons]
        simp only [Option.bind_eq_some]
        exact ⟨v, evalE_mono (Nat.le_max_left _ _) he',
          vs0, evalArgs_mono (Nat.le_max_right _ _) hrest', hv⟩
    · intro p f vs v h
      rw [callFn_succ] at h
      simp only [Option.bind_eq_some] at h
      obtain ⟨fn, hfn, r, hr, hm⟩ := h
      obtain ⟨Gb, hr'⟩ := ihB _ _ _ _ hr
      refine ⟨Gb + 1, ?_⟩
      rw [callFn_succ, lookupFn_inline hfn]
      simp only [Option.bind_eq_some]
      exact ⟨inlineFn p fn, rfl, r, hr', hm⟩
    · intro p env s r h
      cases s with
      | decl x e =>
        rw [execS_decl] at h
        simp only [Option.bind_eq_some] at h
        obtain ⟨v, hv, hr⟩ := h
        obtain ⟨G, hv'⟩ := hRhs _ _ _ _ hv
        refine ⟨G + 1, ?_⟩
        simp only [inlS]
        rw [execS_decl]
        simp only [Option.bind_eq_some]
        exact ⟨v, hv', hr⟩
      | assign x e =>
        rw [execS_assign] at h
        simp only [Option.bind_eq_some] at h
        obtain ⟨v, hv, hr⟩ := h
        obtain ⟨G, hv'⟩ := hRhs _ _ _ _ hv
        refine ⟨G + 1, ?_⟩
        simp only [inlS]
        rw [execS_assign]
        simp only [Option.bind_eq_some]
        exact ⟨v, hv', hr⟩
      | exprS e =>
        rw [execS_exprS] at h
        simp only [Option.bind_eq_some] at h
        obtain ⟨v, hv, hr⟩ := h
        obtain ⟨G, hv'⟩ := ihE _ _ _ _ hv
        refine ⟨G + 1, ?_⟩
        simp only [inlS]
        rw [execS_exprS]
        simp only [Option.bind_eq_some]
        exact ⟨v, hv', hr⟩
      | ifS c t e =>
        rw [execS_ifS] at h
        simp only [Option.bind_eq_some] at h
        obtain ⟨vc, hc, hbr⟩ := h
        obtain ⟨Gc, hc'⟩ := ihE _ _ _ _ hc
        cases htr : truthy vc <;> rw [htr] at hbr <;>
          simp only [if_true, if_false, Bool.false_eq_true] at hbr
        · obtain ⟨Gb, hbr'⟩ := ihB _ _ _ _ hbr
          refine ⟨max Gc Gb + 1, ?_⟩
          simp only [inlS]
          rw [execS_ifS]
          simp only [Option.bind_eq_some]
          refine ⟨vc, evalE_mono (Nat.le_max_left _ _) hc', ?_⟩
          rw [htr]
          simp only [Bool.false_eq_true, if_false]
          exact execB_mono (Nat.le_max_right _ _) hbr'
        · obtain ⟨Gb, hbr'⟩ := ihB _ _ _ _ hbr
          refine ⟨max Gc Gb + 1, ?_⟩
          simp only [inlS]
          rw [execS_ifS]
          simp only [Option.bind_eq_some]
          refine ⟨vc, evalE_mono (Nat.le_max_left _ _) hc', ?_⟩
          rw [htr]
          simp only [if_true]
          exact execB_mono (Nat.le_max_right _ _) hbr'
      | whileS c b =>
        rw [execS_whileS] at h
        simp only [Option.bind_eq_some] at h
        obtain ⟨vc, hc, hbr⟩ := h
        obtain ⟨Gc, hc'⟩ := ihE _ _ _ _ hc
        cases htr : truthy vc <;> rw [htr] at hbr <;>
          simp only [if_true, if_false, Bool.false_eq_true] at hbr
        · cases hbr
          refine ⟨Gc + 1, ?_⟩
          simp only [inlS]
          rw [execS_whileS]
          simp only [Option.bind_eq_some]
          refine ⟨vc, hc', ?_⟩
          rw [htr]
          simp only [Bool.false_eq_true, if_false]
        · simp only [Option.bind_eq_some] at hbr
          obtain ⟨r0, hb, hm⟩ := hbr
          obtain ⟨Gb, hb'⟩ := ihB _ _ _ _ hb
          cases r0 with
          | ret v =>
            cases hm
            refine ⟨max Gc Gb + 1, ?_⟩
            simp only [inlS]
            rw [execS_whileS]
            simp only [Option.bind_eq_some]
            refine ⟨vc, evalE_mono (Nat.le_max_left _ _) hc', ?_⟩
            rw [htr]
            simp only [if_true, Option.bind_eq_some]
            exact ⟨.ret v, execB_mono (Nat.le_max_right _ _) hb', rfl⟩
          | norm env' =>
            obtain ⟨Gw, hw⟩ := ihS _ _ _ _ hm
            simp only [inlS] at hw
            refine ⟨max Gc (max Gb Gw) + 1, ?_⟩
            simp only [inlS]
            rw [execS_whileS]
            simp only [Option.bind_eq_some]
            refine ⟨vc, evalE_mono (Nat.le_max_left _ _) hc', ?_⟩
            rw [htr]
            simp only [if_true, Option.bind_eq_some]
            refine ⟨.norm env', execB_mono (le_trans (Nat.le_max_left _ _)
              (Nat.le_max_right _ _)) hb', ?_⟩
            exact execS_mono (le_trans (Nat.le_max_right _ _)
              (Nat.le_max_right _ _)) hw
      | forS x e0 c st b =>
        rw [execS_forS] at h
        simp only [Option.bind_eq_some] at h
        obtain ⟨v0, h0, hfor⟩ := h
        obtain ⟨G0, h0'⟩ := ihE _ _ _ _ h0
        obtain ⟨Gf, hfor'⟩ := ihF _ _ _ _ _ _ _ hfor
        refine ⟨max G0 Gf + 1, ?_⟩
        simp only [inlS]
        rw [execS_forS]
        simp only [Option.bind_eq_some]
        exact ⟨v0, evalE_mono (Nat.le_max_left _ _) h0',
          execFor_mono (Nat.le_max_right _ _) hfor'⟩
      | blockS b =>
        rw [execS_blockS] at h
        obtain ⟨G, h'⟩ := ihB _ _ _ _ h
        refine ⟨G + 1, ?_⟩
        simp only [inlS]
        rw [execS_blockS]
        exact h'
      | ret e =>
        rw [execS_ret] at h
        simp only [Option.bind_eq_some] at h
        obtain ⟨v, hv, hr⟩ := h
        obtain ⟨G, hv'⟩ := hRhs _ _ _ _ hv
        refine ⟨G + 1, ?_⟩
        simp only [inlS]
        rw [execS_ret]
        simp only [Option.bind_eq_some]
        exact ⟨v, hv', hr⟩
    · intro p env x c st b r h
      rw [execFor_succ] at h
      simp only [Option.bind_eq_some] at h
      obtain ⟨vc, hc, hbr⟩ := h
      obtain ⟨Gc, hc'⟩ := ihE _ _ _ _ hc
      cases htr : truthy vc <;> rw [htr] at hbr <;>
        simp only [if_true, if_false, Bool.false_eq_true] at hbr
      · cases hbr
        refine ⟨Gc + 1, ?_⟩
        rw [execFor_succ]
        simp only [Option.bind_eq_some]
        refine ⟨vc, hc', ?_⟩
        rw [htr]
        simp only [Bool.false_eq_true, if_false]
      · simp only [Option.bind_eq_some] at hbr
        obtain ⟨r0, hb, hm⟩ := hbr
        obtain ⟨Gb, hb'⟩ := ihB _ _ _ _ hb
        cases r0 with
        | ret v =>
          cases hm
          refine ⟨max Gc Gb + 1, ?_⟩
          rw [execFor_succ]
          simp only [Option.bind_eq_some]
          refine ⟨vc, evalE_mono (Nat.le_max_left _ _) hc', ?_⟩
          rw [htr]
          simp only [if_true, Option.bind_eq_some]
          exact ⟨.ret v, execB_mono (Nat.le_max_right _ _) hb', rfl⟩
        | norm env' =>
          simp only [Option.bind_eq_some] at hm
          obtain ⟨vs, hvs, hnext⟩ := hm
          obtain ⟨Gs, hvs'⟩ := ihE _ _ _ _ hvs
          obtain ⟨Gn, hnext'⟩ := ihF _ _ _ _ _ _ _ hnext
          refine ⟨max Gc (max Gb (max Gs Gn)) + 1, ?_⟩
          rw [execFor_succ]
          simp only [Option.bind_eq_some]
          refine ⟨vc, evalE_mono (Nat.le_max_left _ _) hc', ?_⟩
          rw [htr]
          simp only [if_true, Option.bind_eq_some]
          refine ⟨.norm env', execB_mono (le_trans (Nat.le_max_left _ _)
            (Nat.le_max_right _ _)) hb', ?_⟩
          simp only [Option.bind_eq_some]
          refine ⟨vs, evalE_mono (le_trans (le_trans (Nat.le_max_left _ _)
            (Nat.le_max_right _ _)) (Nat.le_max_right _ _)) hvs', ?_⟩
          exact execFor_mono (le_trans (le_trans (Nat.le_max_right _ _)
            (Nat.le_max_right _ _)) (Nat.le_max_right _ _)) hnext'
    · intro p env b r h
      cases b with
      | nil => exact ⟨fuel + 1, h⟩
      | cons s rest =>
        rw [execB_cons] at h
        simp only [Option.bind_eq_some] at h
        obtain ⟨r0, hs, hm⟩ := h
        obtain ⟨Gs, hs'⟩ := ihS _ _ _ _ hs
        cases r0 with
        | ret v =>
          cases hm
          refine ⟨Gs + 1, ?_⟩
          simp only [inlB]
          rw [execB_cons]
          simp only [Option.bind_eq_some]
          exact ⟨.ret v, hs', rfl⟩
        | norm env' =>
          obtain ⟨Gr, hm'⟩ := ihB _ _ _ _ hm
          refine ⟨max Gs Gr + 1, ?_⟩
          simp only [inlB]
          rw [execB_cons]
          simp only [Option.bind_eq_some]
          exact ⟨.norm env', execS_mono (Nat.le_max_left _ _) hs',
            execB_mono (Nat.le_max_right _ _) hm'⟩
    · intro p env envf σ e v hrel h
      cases e with
      | lit w =>
        rw [evalE_lit] at h
        cases h
        exact ⟨1, by simp only [substMapE]; exact evalE_lit 0 (inlineProg p) env w⟩
      | var x =>
        rw [evalE_var] at h
        cases hx : lookupE σ x with
        | some ei =>
          obtain ⟨vi, Gi, henvf, hei⟩ := (hrel x).1 ei hx
          rw [henvf] at h
          simp only [Option.map_some', Option.some_inj] at h
          have hnorm : i32 vi = vi := evalE_norm hei
          refine ⟨Gi, ?_⟩
          simp only [substMapE, hx]
          rw [← h, hnorm]
          exact hei
        | none =>
          exfalso
          rw [(hrel x).2 hx] at h
          simp at h
      | bin op a b =>
        rw [evalE_bin] at h
        simp only [Option.bind_eq_some] at h
        obtain ⟨va, ha, vb, hb, hv⟩ := h
        obtain ⟨Ga, ha'⟩ := ihSub _ _ _ _ _ _ hrel ha
        obtain ⟨Gb, hb'⟩ := ihSub _ _ _ _ _ _ hrel hb
        refine ⟨max Ga Gb + 1, ?_⟩
        simp only [substMapE]
        rw [evalE_bin]
        simp only [Option.bind_eq_some]
        exact ⟨va, evalE_mono (Nat.le_max_left _ _) ha',
          vb, evalE_mono (Nat.le_max_right _ _) hb', hv⟩
      | un op a =>
        rw [evalE_un] at h
        simp only [Option.bind_eq_some] at h
        obtain ⟨va, ha, hv⟩ := h
        obtain ⟨Ga, ha'⟩ := ihSub _ _ _ _ _ _ hrel ha
        refine ⟨Ga + 1, ?_⟩
        simp only [substMapE]
        rw [evalE_un]
        simp only [Option.bind_eq_some]
        exact ⟨va, ha', hv⟩
      | call f args =>
        rw [evalE_call] at h
        simp only [Option.bind_eq_some] at h
        obtain ⟨vs, hargs, hcall⟩ := h
        obtain ⟨Ga, hargs'⟩ := ihSubA _ _ _ _ _ _ hrel hargs
        obtain ⟨Gc, hcall'⟩ := ihC _ _ _ _ hcall
        refine ⟨max Ga Gc + 1, ?_⟩
        simp only [substMapE]
        rw [evalE_call]
        simp only [Option.bind_eq_some]
        exact ⟨vs, evalArgs_mono (Nat.le_max_left _ _) hargs',
          callFn_mono (Nat.le_max_right _ _) hcall'⟩
    · intro p env envf σ as vs hrel h
      cases as with
      | nil =>
        rw [evalArgs_nil] at h
        cases h
        exact ⟨1, rfl⟩
      | cons e rest =>
        rw [evalArgs_cons] at h
        simp only [Option.bind_eq_some] at h
        obtain ⟨v, he, vs0, hrest, hv⟩ := h
        obtain ⟨Ge, he'⟩ := ihSub _ _ _ _ _ _ hrel he
        obtain ⟨Gr, hrest'⟩ := ihSubA _ _ _ _ _ _ hrel hrest
        refine ⟨max Ge Gr + 1, ?_⟩
        simp only [substMapArgs]
        rw [evalArgs_cons]
        simp only [Option.bind_eq_some]
        exact ⟨v, evalE_mono (Nat.le_max_left _ _) he',
          vs0, evalArgs_mono (Nat.le_max_right _ _) hrest', hv⟩

/-- Program-level: inlining preserves the observable result. -/
theorem inlineProg_preserves {p : Prog} {fuel : Nat} {v : Int}
    (h : execProgram p fuel = some v) :
    ∃ G, execProgram (inlineProg p) G = some v :=
  (inline_exec fuel).2.2.1 _ _ _ _ h

/-! ## Loop Unrolling (spec §4.6)

Modelled from the spec: a `for` loop with canonical shape
`for (int i = a; i < n; i = i + 1) body`, statically known trip count at
most the threshold, and a simple body (no nested loop, no call, bounded
statement count, no write to the loop variable) is fully unrolled: the body
is replicated once per iteration with the loop variable substituted by its
literal value.  The replicas are interleaved with the loop variable's own
declaration and per-iteration updates, mirroring exactly the bindings the
loop itself performs; the loop construct is deleted. -/

mutual
def hasCallE : Expr → Bool
  | .lit _ => false
  | .var _ => false
  | .bin _ a b => hasCallE a || hasCallE b
  | .un _ a => hasCallE a
  | .call _ _ => true

def hasCallArgs : Args → Bool
  | .nil => false
  | .cons e rest => hasCallE e || hasCallArgs rest
end

mutual
/-- Simple-body predicate: no nested loop, no call. -/
def plainS : Stmt → Bool
  | .decl _ e => !hasCallE e
  | .assign _ e => !hasCallE e
  | .exprS e => !hasCallE e
  | .ifS c t e => !hasCallE c && (plainB t && plainB e)
  | .whileS _ _ => false
  | .forS _ _ _ _ _ => false
  | .blockS b => plainB b
  | .ret e => !hasCallE e

def plainB : Block → Bool
  | .nil => true
  | .cons s rest => plainS s && plainB rest
end

mutual
/-- Does the statement declare or write the variable `x`? -/
def touchesXS (x : String) : Stmt → Bool
  | .decl y _ => y == x
  | .assign y _ => y == x
  | .exprS _ => false
  | .ifS _ t e => touchesXB x t || touchesXB x e
  | .whileS _ b => touchesXB x b
  | .forS y _ _ _ b => y == x || touchesXB x b
  | .blockS b => touchesXB x b
  | .ret _ => false

def touchesXB (x : String) : Block → Bool
  | .nil => false
  | .cons s rest => touchesXS x s || touchesXB x rest
end

def stmtCountB : Block → Nat
  | .nil => 0
  | .cons _ rest => 1 + stmtCountB rest

def bappend : Block → Block → Block
  | .nil, b2 => b2
  | .cons s r, b2 => .cons s (bappend r b2)

mutual
/-- Statement-level substitution of expressions for variable reads. -/
def substS (σ : List (String × Expr)) : Stmt → Stmt
  | .decl y e => .decl y (substMapE σ e)
  | .assign y e => .assign y (substMapE σ e)
  | .exprS e => .exprS (substMapE σ e)
  | .ifS c t e => .ifS (substMapE σ c) (substB σ t) (substB σ e)
  | .whileS c b => .whileS (substMapE σ c) (substB σ b)
  | .forS y e0 c st b =>
    .forS y (substMapE σ e0) (substMapE σ c) (substMapE σ st) (substB σ b)
  | .blockS b => .blockS (substB σ b)
  | .ret e => .ret (substMapE σ e)

def substB (σ : List (String × Expr)) : Block → Block
  | .nil => .nil
  | .cons s rest => .cons (substS σ s) (substB σ rest)
end

/-- Recognize the canonical counted-loop header shape. -/
def matchForm (x : String) (e0 c st : Expr) : Option (Int × Int) :=
  match e0 with
  | .lit a =>
    match c with
    | .bin .lt (.var x1) (.lit n) =>
      match st with
      | .bin .add (.var x2) (.lit 1) =>
        if x1 = x ∧ x2 = x then some (a, n) else none
      | _ => none
    | _ => none
  | _ => none

theorem matchForm_inv {x : String} {e0 c st : Expr} {a n : Int}
    (h : matchForm x e0 c st = some (a, n)) :
    e0 = .lit a ∧ c = .bin .lt (.var x) (.lit n) ∧
      st = .bin .add (.var x) (.lit 1) := by
  unfold matchForm at h
  split at h <;> try simp at h
  split at h <;> try simp at h
  split at h <;> try simp at h
  obtain ⟨⟨h1, h2⟩, ha, hn⟩ := h
  subst h1; subst h2; subst ha; subst hn
  exact ⟨rfl, rfl, rfl⟩

def unrollThreshold : Nat := 4

/-- The unrolled replacement: declare the loop variable, then for each
iteration a substituted body copy followed by the variable's update. -/
def unrollIters (x : String) (b : Block) : Int → Nat → Block
  | _, 0 => .nil
  | v, t + 1 =>
    bappend (substB [(x, .lit v)] b)
      (.cons (.assign x (.lit (i32 (v + 1)))) (unrollIters x b (i32 (v + 1)) t))

def unrolledFor (x : String) (a : Int) (t : Nat) (b : Block) : Block :=
  .cons (.decl x (.lit a)) (unrollIters x b a t)

/-- Full-unroll eligibility for a canonical counted loop. -/
def elig (x : String) (a n : Int) (b : Block) : Prop :=
  plainB b = true ∧ touchesXB x b = false ∧ stmtCountB b ≤ 4 ∧
    (i32 n - i32 a).toNat ≤ unrollThreshold

instance (x : String) (a n : Int) (b : Block) : Decidable (elig x a n b) := by
  unfold elig
  infer_instance

mutual
def unrS : Stmt → Stmt
  | .decl y e => .decl y e
  | .assign y e => .assign y e
  | .exprS e => .exprS e
  | .ifS c t e => .ifS c (unrB t) (unrB e)
  | .whileS c b => .whileS c (unrB b)
  | .forS x e0 c st b =>
    match matchForm x e0 c st with
    | some (a, n) =>
      if elig x a n b then
        .blockS (unrolledFor x (i32 a) ((i32 n - i32 a).toNat) b)
      else .forS x e0 c st (unrB b)
    | none => .forS x e0 c st (unrB b)
  | .blockS b => .blockS (unrB b)
  | .ret e => .ret e

def unrB : Block → Block
  | .nil => .nil
  | .cons s rest => .cons (unrS s) (unrB rest)
end

def unrollFn (f : Fn) : Fn := ⟨f.name, f.params, unrB f.body⟩

def unrollProg (p : Prog) : Prog := p.map unrollFn

theorem lookupFn_unroll {p : Prog} {f : String} {fn : Fn} (h : lookupFn p f = some fn) :
    lookupFn (unrollProg p) f = some (unrollFn fn) := by
  induction p with
  | nil => simp [lookupFn] at h
  | cons g rest ih =>
    simp only [unrollProg, List.map_cons, lookupFn] at h ⊢
    by_cases hf : f = g.name
    · rw [if_pos hf] at h
      cases h
      rw [if_pos (by simpa [unrollFn] using hf)]
    · rw [if_neg hf] at h
      rw [if_neg (by simpa [unrollFn] using hf)]
      exact ih h

mutual
theorem unrS_plain : (s : Stmt) → plainS s = true → unrS s = s
  | .decl y e, _ => rfl
  | .assign y e, _ => rfl
  | .exprS e, _ => rfl
  | .ifS c t e, h => by
    simp only [plainS, Bool.and_eq_true] at h
    simp only [unrS, unrB_plain t h.2.1, unrB_plain e h.2.2]
  | .whileS c b, h => by simp [plainS] at h
  | .forS y e0 c st b, h => by simp [plainS] at h
  | .blockS b, h => by
    simp only [plainS] at h
    simp only [unrS, unrB_plain b h]
  | .ret e, _ => rfl

theorem unrB_plain : (b : Block) → plainB b = true → unrB b = b
  | .nil, _ => rfl
  | .cons s rest, h => by
    simp only [plainB, Bool.and_eq_true] at h
    simp only [unrB, unrS_plain s h.1, unrB_plain rest h.2]
end

/-- Executing code that never declares or writes `x` leaves the visible
binding of `x` unchanged. -/
theorem notouch_exec (fuel : Nat) :
    (∀ p env s r x, touchesXS x s = false → execS fuel p env s = some r →
      ∀ env', r = .norm env' → lookupV env' x = lookupV env x) ∧
    (∀ p env y c st b r x, y ≠ x → touchesXB x b = false →
      execFor fuel p env y c st b = some r →
      ∀ env', r = .norm env' → lookupV env' x = lookupV env x) ∧
    (∀ p env b r x, touchesXB x b = false → execB fuel p env b = some r →
      ∀ env', r = .norm env' → lookupV env' x = lookupV env x) := by
  induction fuel with
  | zero =>
    refine ⟨?_, ?_, ?_⟩
    · intro p env s r x _ h; simp [execS] at h
    · intro p env y c st b r x _ _ h; simp [execFor] at h
    · intro p env b r x _ h; simp [execB] at h
  | succ fuel ih =>
    obtain ⟨ihS, ihF, ihB⟩ := ih
    refine ⟨?_, ?_, ?_⟩
    · intro p env s r x ht h env' hr
      cases s with
      | decl y e =>
        rw [execS_decl] at h
        simp only [Option.bind_eq_some] at h
        obtain ⟨v, _, hres⟩ := h
        cases hres
        cases hr
        simp only [touchesXS, beq_eq_false_iff_ne, ne_eq] at ht
        simp only [lookupV]
        rw [if_neg (fun he => ht he.symm)]
      | assign y e =>
        rw [execS_assign] at h
        simp only [Option.bind_eq_some] at h
        obtain ⟨v, _, hres⟩ := h
        cases hres
        cases hr
        simp only [touchesXS, beq_eq_false_iff_ne, ne_eq] at ht
        exact lookupV_updateV_ne (fun he => ht he.symm)
      | exprS e =>
        rw [execS_exprS] at h
        simp only [Option.bind_eq_some] at h
        obtain ⟨v, _, hres⟩ := h
        cases hres
        cases hr
        rfl
      | ifS c t e =>
        rw [execS_ifS] at h
        simp only [Option.bind_eq_some] at h
        obtain ⟨vc, _, hbr⟩ := h
        simp only [touchesXS, Bool.or_eq_false_iff] at ht
        cases htr : truthy vc <;> rw [htr] at hbr <;>
          simp only [if_true, if_false, Bool.false_eq_true] at hbr
        · exact ihB _ _ _ _ _ ht.2 hbr env' hr
        · exact ihB _ _ _ _ _ ht.1 hbr env' hr
      | whileS c b =>
        rw [execS_whileS] at h
        simp only [Option.bind_eq_some] at h
        obtain ⟨vc, _, hbr⟩ := h
        simp only [touchesXS] at ht
        cases htr : truthy vc <;> rw [htr] at hbr <;>
          simp only [if_true, if_false, Bool.false_eq_true] at hbr
        · cases hbr; cases hr; rfl
        · simp only [Option.bind_eq_some] at hbr
          obtain ⟨r0, hb, hm⟩ := hbr
          cases r0 with
          | ret v => cases hm; cases hr
          | norm env1 =>
            have h1 := ihB _ _ _ _ _ ht hb env1 rfl
            have h2 := ihS _ _ _ _ _ (by simpa [touchesXS] using ht) hm env' hr
            rw [h2, h1]
      | forS y e0 c st b =>
        rw [execS_forS] at h
        simp only [Option.bind_eq_some] at h
        obtain ⟨v0, _, hfor⟩ := h
        simp only [touchesXS, Bool.or_eq_false_iff, beq_eq_false_iff_ne, ne_eq] at ht
        have := ihF _ _ _ _ _ _ _ _ ht.1 ht.2 hfor env' hr
        rw [this]
        simp only [lookupV]
        rw [if_neg (fun he => ht.1 he.symm)]
      | blockS b =>
        rw [execS_blockS] at h
        exact ihB _ _ _ _ _ (by simpa [touchesXS] using ht) h env' hr
      | ret e =>
        rw [execS_ret] at h
        simp only [Option.bind_eq_some] at h
        obtain ⟨v, _, hres⟩ := h
        cases hres
        cases hr
    · intro p env y c st b r x hyx ht h env' hr
      rw [execFor_succ] at h
      simp only [Option.bind_eq_some] at h
      obtain ⟨vc, _, hbr⟩ := h
      cases htr : truthy vc <;> rw [htr] at hbr <;>
        simp only [if_true, if_false, Bool.false_eq_true] at hbr
      · cases hbr; cases hr; rfl
      · simp only [Option.bind_eq_some] at hbr
        obtain ⟨r0, hb, hm⟩ := hbr
        cases r0 with
        | ret v => cases hm; cases hr
        | norm env1 =>
          simp only [Option.bind_eq_some] at hm
          obtain ⟨vs, _, hnext⟩ := hm
          have h1 := ihB _ _ _ _ _ ht hb env1 rfl
          have h2 := ihF _ _ _ _ _ _ _ _ hyx ht hnext env' hr
          rw [h2, lookupV_updateV_ne (fun he => hyx he.symm), h1]
    · intro p env b r x ht h env' hr
      cases b with
      | nil =>
        rw [execB_nil] at h
        cases h
        cases hr
        rfl
      | cons s rest =>
        rw [execB_cons] at h
        simp only [Option.bind_eq_some] at h
        obtain ⟨r0, hs, hm⟩ := h
        simp only [touchesXB, Bool.or_eq_false_iff] at ht
        cases r0 with
        | ret v => cases hm; cases hr
        | norm env1 =>
          have h1 := ihS _ _ _ _ _ ht.1 hs env1 rfl
          have h2 := ihB _ _ _ _ _ ht.2 hm env' hr
          rw [h2, h1]

/-- Substituting a literal for a variable whose current value is that
literal changes nothing about execution. -/
theorem substOne_eval (x : String) (v : Int) (fuel : Nat) :
    (∀ p env e, lookupV env x = some v →
      evalE fuel p env (substMapE [(x, .lit v)] e) = evalE fuel p env e) ∧
    (∀ p env as, lookupV env x = some v →
      evalArgs fuel p env (substMapArgs [(x, .lit v)] as) = evalArgs fuel p env as) ∧
    (∀ p env s, lookupV env x = some v → touchesXS x s = false →
      execS fuel p env (substS [(x, .lit v)] s) = execS fuel p env s) ∧
    (∀ p env y c st b, y ≠ x → touchesXB x b = false → lookupV env x = some v →
      execFor fuel p env y (substMapE [(x, .lit v)] c) (substMapE [(x, .lit v)] st)
          (substB [(x, .lit v)] b) =
        execFor fuel p env y c st b) ∧
    (∀ p env b, lookupV env x = some v → touchesXB x b = false →
      execB fuel p env (substB [(x, .lit v)] b) = execB fuel p env b) := by
  induction fuel with
  | zero =>
    refine ⟨?_, ?_, ?_, ?_, ?_⟩
    · intro p env e _; simp [evalE]
    · intro p env as _; simp [evalArgs]
    · intro p env s _ _; simp [execS]
    · intro p env y c st b _ _ _; simp [execFor]
    · intro p env b _ _; simp [execB]
  | succ fuel ih =>
    obtain ⟨ihE, ihA, ihS, ihF, ihB⟩ := ih
    have hnotouch := notouch_exec fuel
    refine ⟨?_, ?_, ?_, ?_, ?_⟩
    · intro p env e henv
      cases e with
      | lit w => rfl
      | var y =>
        by_cases hyx : y = x
        · have hsub : substMapE [(x, .lit v)] (.var y) = .lit v := by
            simp [substMapE, lookupE, hyx]
          rw [hsub, evalE_lit, evalE_var, hyx, henv]
          rfl
        · have hsub : substMapE [(x, .lit v)] (.var y) = .var y := by
            simp [substMapE, lookupE, hyx]
          rw [hsub]
      | bin op a b =>
        simp only [substMapE]
        rw [evalE_bin, evalE_bin, ihE _ _ a henv, ihE _ _ b henv]
      | un op a =>
        simp only [substMapE]
        rw [evalE_un, evalE_un, ihE _ _ a henv]
      | call f args =>
        simp only [substMapE]
        rw [evalE_call, evalE_call, ihA _ _ args henv]
    · intro p env as henv
      cases as with
      | nil => rfl
      | cons e rest =>
        simp only [substMapArgs]
        rw [evalArgs_cons, evalArgs_cons, ihE _ _ e henv, ihA _ _ rest henv]
    · intro p env s henv ht
      cases s with
      | decl y e =>
        simp only [substS]
        rw [execS_decl, execS_decl, ihE _ _ e henv]
      | assign y e =>
        simp only [substS]
        rw [execS_assign, execS_assign, ihE _ _ e henv]
      | exprS e =>
        simp only [substS]
        rw [execS_exprS, execS_exprS, ihE _ _ e henv]
      | ifS c t e =>
        simp only [touchesXS, Bool.or_eq_false_iff] at ht
        simp only [substS]
        rw [execS_ifS, execS_ifS, ihE _ _ c henv]
        cases hc : evalE fuel p env c with
        | none => rfl
        | some vc =>
          simp only [Option.some_bind]
          cases htr : truthy vc <;>
            simp only [if_true, if_false, Bool.false_eq_true]
          · exact ihB _ _ e henv ht.2
          · exact ihB _ _ t henv ht.1
      | whileS c b =>
        simp only [touchesXS] at ht
        simp only [substS]
        rw [execS_whileS, execS_whileS, ihE _ _ c henv]
        cases hc : evalE fuel p env c with
        | none => rfl
        | some vc =>
          simp only [Option.some_bind]
          cases htr : truthy vc <;>
            simp only [if_true, if_false, Bool.false_eq_true]
          rw [ihB _ _ b henv ht]
          cases hb : execB fuel p env b with
          | none => rfl
          | some r0 =>
            simp only [Option.some_bind]
            cases r0 with
            | ret w => rfl
            | norm env1 =>
              have henv1 : lookupV env1 x = some v := by
                rw [(hnotouch.2.2) _ _ _ _ _ ht hb env1 rfl]
                exact henv
              have := ihS p env1 (.whileS c b) henv1 (by simpa [touchesXS] using ht)
              simpa only [substS] using this
      | forS y e0 c st b =>
        simp only [touchesXS, Bool.or_eq_false_iff, beq_eq_false_iff_ne, ne_eq] at ht
        simp only [substS]
        rw [execS_forS, execS_forS, ihE _ _ e0 henv]
        cases h0 : evalE fuel p env e0 with
        | none => rfl
        | some v0 =>
          simp only [Option.some_bind]
          have henv2 : lookupV ((y, v0) :: env) x = some v := by
            have hxy : ¬ (x = y) := fun he => ht.1 he.symm
            simp only [lookupV, if_neg hxy]
            exact henv
          exact ihF _ _ y c st b ht.1 ht.2 henv2
      | blockS b =>
        simp only [substS]
        rw [execS_blockS, execS_blockS]
        exact ihB _ _ b henv (by simpa [touchesXS] using ht)
      | ret e =>
        simp only [substS]
        rw [execS_ret, execS_ret, ihE _ _ e henv]
    · intro p env y c st b hyx ht henv
      rw [execFor_succ, execFor_succ, ihE _ _ c henv]
      cases hc : evalE fuel p env c with
      | none => rfl
      | some vc =>
        simp only [Option.some_bind]
        cases htr : truthy vc <;>
          simp only [if_true, if_false, Bool.false_eq_true]
        rw [ihB _ _ b henv ht]
        cases hb : execB fuel p env b with
        | none => rfl
        | some r0 =>
          simp only [Option.some_bind]
          cases r0 with
          | ret w => rfl
          | norm env1 =>
            have henv1 : lookupV env1 x = some v := by
              rw [(hnotouch.2.2) _ _ _ _ _ ht hb env1 rfl]
              exact henv
            show ((evalE fuel p env1 (substMapE [(x, Expr.lit v)] st)).bind fun vs =>
                execFor fuel p (updateV env1 y vs) y (substMapE [(x, Expr.lit v)] c)
                  (substMapE [(x, Expr.lit v)] st) (substB [(x, Expr.lit v)] b)) =
              ((evalE fuel p env1 st).bind fun vs =>
                execFor fuel p (updateV env1 y vs) y c st b)
            rw [ihE _ _ st henv1]
            cases hst : evalE fuel p env1 st with
            | none => rfl
            | some vs =>
              simp only [Option.some_bind]
              have henv2 : lookupV (updateV env1 y vs) x = some v := by
                rw [lookupV_updateV_ne (fun he => hyx he.symm)]
                exact henv1
              exact ihF _ _ y c st b hyx ht henv2
    · intro p env b henv ht
      cases b with
      | nil => rfl
      | cons s rest =>
        simp only [touchesXB, Bool.or_eq_false_iff] at ht
        simp only [substB]
        rw [execB_cons, execB_cons, ihS _ _ s henv ht.1]
        cases hs : execS fuel p env s with
        | none => rfl
        | some r0 =>
          simp only [Option.some_bind]
          cases r0 with
          | ret w => rfl
          | norm env1 =>
            have henv1 : lookupV env1 x = some v := by
              rw [(hnotouch.1) _ _ _ _ _ ht.1 hs env1 rfl]
              exact henv
            exact ihB _ _ rest henv1 ht.2

/-- Executing an appended block: a fall-through of the first part continues
into the second. -/
theorem execB_append_norm {p : Prog} :
    (b1 : Block) → ∀ {b2 : Block} {env e1 : Env} {f g : Nat} {r : StepRes},
      execB f p env b1 = some (.norm e1) → execB g p e1 b2 = some r →
      ∃ G, execB G p env (bappend b1 b2) = some r
  | .nil => by
    intro h1 h2
    rename_i b2 env e1 f g r
    cases f with
    | zero => simp [execB] at h1
    | succ m =>
      rw [execB_nil] at h1
      cases h1
      exact ⟨g, h2⟩
  | .cons s rest => by
    intro h1 h2
    rename_i b2 env e1 f g r
    cases f with
    | zero => simp [execB] at h1
    | succ m =>
      rw [execB_cons] at h1
      simp only [Option.bind_eq_some] at h1
      obtain ⟨r0, hs, hm⟩ := h1
      cases r0 with
      | ret w => cases hm
      | norm env0 =>
        obtain ⟨G1, hrest⟩ := execB_append_norm rest hm h2
        refine ⟨max m G1 + 1, ?_⟩
        simp only [bappend]
        rw [execB_cons]
        simp only [Option.bind_eq_some]
        exact ⟨.norm env0, execS_mono (Nat.le_max_left _ _) hs,
          execB_mono (Nat.le_max_right _ _) hrest⟩

theorem execB_append_ret {p : Prog} :
    (b1 : Block) → ∀ {b2 : Block} {env : Env} {f : Nat} {v : Int},
      execB f p env b1 = some (.ret v) →
      ∃ G, execB G p env (bappend b1 b2) = some (.ret v)
  | .nil => by
    intro h1
    rename_i b2 env f v
    cases f with
    | zero => simp [execB] at h1
    | succ m =>
      rw [execB_nil] at h1
      cases h1
  | .cons s rest => by
    intro h1
    rename_i b2 env f v
    cases f with
    | zero => simp [execB] at h1
    | succ m =>
      rw [execB_cons] at h1
      simp only [Option.bind_eq_some] at h1
      obtain ⟨r0, hs, hm⟩ := h1
      cases r0 with
      | ret w =>
        cases hm
        refine ⟨m + 1, ?_⟩
        simp only [bappend]
        rw [execB_cons]
        simp only [Option.bind_eq_some]
        exact ⟨.ret v, hs, rfl⟩
      | norm env0 =>
        obtain ⟨G1, hrest⟩ := execB_append_ret rest hm
        refine ⟨max m G1 + 1, ?_⟩
        simp only [bappend]
        rw [execB_cons]
        simp only [Option.bind_eq_some]
        exact ⟨.norm env0, execS_mono (Nat.le_max_left _ _) hs,
          execB_mono (Nat.le_max_right _ _) hrest⟩

/-- Evaluating the canonical loop condition `x < n`. -/
theorem evalE_ltlit_inv {f : Nat} {p : Prog} {env : Env} {x : String} {n vc v : Int}
    (h : evalE f p env (.bin .lt (.var x) (.lit n)) = some vc)
    (hv : lookupV env x = some v) :
    vc = if i32 v < i32 n then 1 else 0 := by
  cases f with
  | zero => simp [evalE] at h
  | succ m =>
    cases m with
    | zero => simp [evalE] at h
    | succ k =>
      rw [evalE_bin, evalE_var, evalE_lit, hv] at h
      have h2 : some (if i32 v < i32 n then (1 : Int) else 0) = some vc := h
      exact (Option.some_inj.mp h2).symm

/-- Evaluating the canonical loop step `x + 1`. -/
theorem evalE_addlit_inv {f : Nat} {p : Prog} {env : Env} {x : String} {vs v : Int}
    (h : evalE f p env (.bin .add (.var x) (.lit 1)) = some vs)
    (hv : lookupV env x = some v) :
    vs = i32 (i32 v + i32 1) := by
  cases f with
  | zero => simp [evalE] at h
  | succ m =>
    cases m with
    | zero => simp [evalE] at h
    | succ k =>
      rw [evalE_bin, evalE_var, evalE_lit, hv] at h
      have h2 : some (i32 (i32 v + i32 1)) = some vs := h
      exact (Option.some_inj.mp h2).symm

/-- Call-free code executes identically under any program: the program
parameter is consulted only at calls. -/
theorem callFree_progIrrel (fuel : Nat) :
    (∀ p q env e, hasCallE e = false → evalE fuel p env e = evalE fuel q env e) ∧
    (∀ p q env s, plainS s = true → execS fuel p env s = execS fuel q env s) ∧
    (∀ p q env x c st b, hasCallE c = false → hasCallE st = false →
      plainB b = true → execFor fuel p env x c st b = execFor fuel q env x c st b) ∧
    (∀ p q env b, plainB b = true → execB fuel p env b = execB fuel q env b) := by
  induction fuel with
  | zero =>
    refine ⟨?_, ?_, ?_, ?_⟩
    · intro p q env e _; rfl
    · intro p q env s _; rfl
    · intro p q env x c st b _ _ _; rfl
    · intro p q env b _; rfl
  | succ fuel ih =>
    obtain ⟨ihE, ihS, ihF, ihB⟩ := ih
    refine ⟨?_, ?_, ?_, ?_⟩
    · intro p q env e he
      cases e with
      | lit w => rfl
      | var y => rfl
      | bin op a b =>
        simp only [hasCallE, Bool.or_eq_false_iff] at he
        rw [evalE_bin, evalE_bin, ihE p q env a he.1]
        simp only [ihE p q env b he.2]
      | un op a =>
        simp only [hasCallE] at he
        rw [evalE_un, evalE_un, ihE p q env a he]
      | call f args => simp [hasCallE] at he
    · intro p q env s hp
      cases s with
      | decl y e =>
        simp only [plainS, Bool.not_eq_true'] at hp
        rw [execS_decl, execS_decl, ihE p q env e hp]
      | assign y e =>
        simp only [plainS, Bool.not_eq_true'] at hp
        rw [execS_assign, execS_assign, ihE p q env e hp]
      | exprS e =>
        simp only [plainS, Bool.not_eq_true'] at hp
        rw [execS_exprS, execS_exprS, ihE p q env e hp]
      | ifS c t e =>
        simp only [plainS, Bool.and_eq_true, Bool.not_eq_true'] at hp
        rw [execS_ifS, execS_ifS, ihE p q env c hp.1]
        simp only [ihB p q env t hp.2.1, ihB p q env e hp.2.2]
      | whileS c b => simp [plainS] at hp
      | forS y e0 c st b => simp [plainS] at hp
      | blockS b =>
        rw [execS_blockS, execS_blockS]
        exact ihB p q env b (by simpa [plainS] using hp)
      | ret e =>
        simp only [plainS, Bool.not_eq_true'] at hp
        rw [execS_ret, execS_ret, ihE p q env e hp]
    · intro p q env x c st b hc hst hb
      rw [execFor_succ, execFor_succ, ihE p q env c hc]
      have hstEq : ∀ e2, evalE fuel p e2 st = evalE fuel q e2 st :=
        fun e2 => ihE p q e2 st hst
      have hbEq : execB fuel p env b = execB fuel q env b := ihB p q env b hb
      have hFEq : ∀ e2, execFor fuel p e2 x c st b = execFor fuel q e2 x c st b :=
        fun e2 => ihF p q e2 x c st b hc hst hb
      simp only [hbEq, hstEq, hFEq]
    · intro p q env b hb
      cases b with
      | nil => rfl
      | cons s rest =>
        simp only [plainB, Bool.and_eq_true] at hb
        rw [execB_cons, execB_cons, ihS p q env s hb.1]
        have hBEq : ∀ e2, execB fuel p e2 rest = execB fuel q e2 rest :=
          fun e2 => ihB p q e2 rest hb.2
        simp only [hBEq]

/-- Running the fully unrolled iteration sequence reproduces exactly the
loop's execution, provided the body never writes the loop variable. -/
theorem unroll_loop {p : Prog} {x : String} {n : Int} {b : Block}
    (hb : touchesXB x b = false) :
    ∀ (t : Nat) (v : Int) (env : Env) (f : Nat) (r : StepRes),
      Norm32 v → lookupV env x = some v → t = (i32 n - v).toNat →
      execFor f p env x (.bin .lt (.var x) (.lit n))
        (.bin .add (.var x) (.lit 1)) b = some r →
      ∃ G, execB G p env (unrollIters x b v t) = some r := by
  intro t
  induction t with
  | zero =>
    intro v env f r hNv henv ht hrun
    have hNv2 : i32 v = v := hNv
    cases f with
    | zero => simp [execFor] at hrun
    | succ m =>
      rw [execFor_succ] at hrun
      simp only [Option.bind_eq_some] at hrun
      obtain ⟨vc, hc, hrest⟩ := hrun
      have hvc : vc = if i32 v < i32 n then 1 else 0 := evalE_ltlit_inv hc henv
      have hvc0 : vc = 0 := by
        rw [hvc, if_neg]
        omega
      cases htr : truthy vc <;> rw [htr] at hrest <;>
        simp only [if_true, if_false, Bool.false_eq_true] at hrest
      · cases hrest
        exact ⟨1, rfl⟩
      · rw [hvc0] at htr
        exact absurd htr (by decide)
  | succ t ih =>
    intro v env f r hNv henv ht hrun
    have hNv2 : i32 v = v := hNv
    cases f with
    | zero => simp [execFor] at hrun
    | succ m =>
      rw [execFor_succ] at hrun
      simp only [Option.bind_eq_some] at hrun
      obtain ⟨vc, hc, hrest⟩ := hrun
      have hvc : vc = if i32 v < i32 n then 1 else 0 := evalE_ltlit_inv hc henv
      have hlt : v < i32 n := by omega
      have hvc1 : vc = 1 := by
        rw [hvc, if_pos]
        omega
      have hw : i32 (v + 1) = v + 1 := by
        have h1 := (norm32_bounds hNv).1
        have h2 := i32_lt n
        exact i32_eq_self (by omega) (by omega)
      cases htr : truthy vc <;> rw [htr] at hrest <;>
        simp only [if_true, if_false, Bool.false_eq_true] at hrest
      · rw [hvc1] at htr
        exact absurd htr (by decide)
      · simp only [Option.bind_eq_some] at hrest
        obtain ⟨r0, hb0, hm⟩ := hrest
        have hsubst : execB m p env (substB [(x, .lit v)] b) = execB m p env b :=
          (substOne_eval x v m).2.2.2.2 p env b henv hb
        cases r0 with
        | ret w0 =>
          cases hm
          have h1 : execB m p env (substB [(x, .lit v)] b) = some (.ret w0) := by
            rw [hsubst]; exact hb0
          obtain ⟨G, hG⟩ := @execB_append_ret p (substB [(x, .lit v)] b)
            (.cons (.assign x (.lit (i32 (v + 1)))) (unrollIters x b (i32 (v + 1)) t))
            env m w0 h1
          exact ⟨G, by simpa only [unrollIters] using hG⟩
        | norm env1 =>
          simp only [Option.bind_eq_some] at hm
          obtain ⟨vs, hst, hrec⟩ := hm
          have henv1 : lookupV env1 x = some v := by
            rw [(notouch_exec m).2.2 p env b _ x hb hb0 env1 rfl]
            exact henv
          have hvs : vs = i32 (i32 v + i32 1) := evalE_addlit_inv hst henv1
          have hone : i32 (1 : Int) = 1 := i32_eq_self (by norm_num) (by norm_num)
          have hvs2 : vs = i32 (v + 1) := by rw [hvs, hNv2, hone]
          have henv2 : lookupV (updateV env1 x vs) x = some (i32 (v + 1)) := by
            rw [lookupV_updateV_self, hvs2]
          have ht2 : t = (i32 n - i32 (v + 1)).toNat := by
            rw [hw]; omega
          obtain ⟨G1, hG1⟩ := ih (i32 (v + 1)) (updateV env1 x vs) m r
            (norm32_i32 _) henv2 ht2 hrec
          have hassign : execS 2 p env1 (.assign x (.lit (i32 (v + 1)))) =
              some (.norm (updateV env1 x vs)) := by
            show some (StepRes.norm (updateV env1 x (i32 (i32 (v + 1))))) =
              some (StepRes.norm (updateV env1 x vs))
            rw [i32_idem, ← hvs2]
          have hcons : execB (max 2 G1 + 1) p env1
              (.cons (.assign x (.lit (i32 (v + 1))))
                (unrollIters x b (i32 (v + 1)) t)) = some r := by
            rw [execB_cons]
            simp only [Option.bind_eq_some]
            exact ⟨.norm (updateV env1 x vs),
              execS_mono (Nat.le_max_left _ _) hassign,
              execB_mono (Nat.le_max_right _ _) hG1⟩
          have h1 : execB m p env (substB [(x, .lit v)] b) = some (.norm env1) := by
            rw [hsubst]; exact hb0
          obtain ⟨G, hG⟩ := execB_append_norm (substB [(x, .lit v)] b) h1 hcons
          exact ⟨G, by simpa only [unrollIters] using hG⟩

/-- The unroller preserves execution results: any result obtainable in the
original program is obtainable (with some fuel) in the unrolled program. -/
theorem unroll_exec (fuel : Nat) :
    (∀ p env e v, evalE fuel p env e = some v →
      ∃ G, evalE G (unrollProg p) env e = some v) ∧
    (∀ p env as vs, evalArgs fuel p env as = some vs →
      ∃ G, evalArgs G (unrollProg p) env as = some vs) ∧
    (∀ p f vs v, callFn fuel p f vs = some v →
      ∃ G, callFn G (unrollProg p) f vs = some v) ∧
    (∀ p env s r, execS fuel p env s = some r →
      ∃ G, execS G (unrollProg p) env (unrS s) = some r) ∧
    (∀ p env x c st b r, execFor fuel p env x c st b = some r →
      ∃ G, execFor G (unrollProg p) env x c st (unrB b) = some r) ∧
    (∀ p env b r, execB fuel p env b = some r →
      ∃ G, execB G (unrollProg p) env (unrB b) = some r) := by
  induction fuel with
  | zero =>
    refine ⟨?_, ?_, ?_, ?_, ?_, ?_⟩
    · intro p env e v h; simp [evalE] at h
    · intro p env as vs h; simp [evalArgs] at h
    · intro p f vs v h; simp [callFn] at h
    · intro p env s r h; simp [execS] at h
    · intro p env x c st b r h; simp [execFor] at h
    · intro p env b r h; simp [execB] at h
  | succ fuel ih =>
    obtain ⟨ihE, ihA, ihC, ihS, ihF, ihB⟩ := ih
    refine ⟨?_, ?_, ?_, ?_, ?_, ?_⟩
    · intro p env e v h
      cases e with
      | lit w => exact ⟨fuel + 1, h⟩
      | var x => exact ⟨fuel + 1, h⟩
      | bin op a b =>
        rw [evalE_bin] at h
        simp only [Option.bind_eq_some] at h
        obtain ⟨va, ha, vb, hb, hv⟩ := h
        obtain ⟨Ga, ha2⟩ := ihE _ _ _ _ ha
        obtain ⟨Gb, hb2⟩ := ihE _ _ _ _ hb
        refine ⟨max Ga Gb + 1, ?_⟩
        rw [evalE_bin]
        simp only [Option.bind_eq_some]
        exact ⟨va, evalE_mono (Nat.le_max_left _ _) ha2,
          vb, evalE_mono (Nat.le_max_right _ _) hb2, hv⟩
      | un op a =>
        rw [evalE_un] at h
        simp only [Option.bind_eq_some] at h
        obtain ⟨va, ha, hv⟩ := h
        obtain ⟨Ga, ha2⟩ := ihE _ _ _ _ ha
        refine ⟨Ga + 1, ?_⟩
        rw [evalE_un]
        simp only [Option.bind_eq_some]
        exact ⟨va, ha2, hv⟩
      | call f args =>
        rw [evalE_call] at h
        simp only [Option.bind_eq_some] at h
        obtain ⟨vs, hargs, hcall⟩ := h
        obtain ⟨Ga, hargs2⟩ := ihA _ _ _ _ hargs
        obtain ⟨Gc, hcall2⟩ := ihC _ _ _ _ hcall
        refine ⟨max Ga Gc + 1, ?_⟩
        rw [evalE_call]
        simp only [Option.bind_eq_some]
        exact ⟨vs, evalArgs_mono (Nat.le_max_left _ _) hargs2,
          callFn_mono (Nat.le_max_right _ _) hcall2⟩
    · intro p env as vs h
      cases as with
      | nil => exact ⟨fuel + 1, h⟩
      | cons e rest =>
        rw [evalArgs_cons] at h
        simp only [Option.bind_eq_some] at h
        obtain ⟨v, he, vs0, hrest, hv⟩ := h
        obtain ⟨Ge, he2⟩ := ihE _ _ _ _ he
        obtain ⟨Gr, hrest2⟩ := ihA _ _ _ _ hrest
        refine ⟨max Ge Gr + 1, ?_⟩
        rw [evalArgs_cons]
        simp only [Option.bind_eq_some]
        exact ⟨v, evalE_mono (Nat.le_max_left _ _) he2,
          vs0, evalArgs_mono (Nat.le_max_right _ _) hrest2, hv⟩
    · intro p f vs v h
      rw [callFn_succ] at h
      simp only [Option.bind_eq_some] at h
      obtain ⟨fn, hfn, r, hr, hm⟩ := h
      obtain ⟨Gb, hr2⟩ := ihB _ _ _ _ hr
      refine ⟨Gb + 1, ?_⟩
      rw [callFn_succ, lookupFn_unroll hfn]
      simp only [Option.bind_eq_some]
      exact ⟨unrollFn fn, rfl, r, hr2, hm⟩
    · intro p env s r h
      cases s with
      | decl x e =>
        rw [execS_decl] at h
        simp only [Option.bind_eq_some] at h
        obtain ⟨v, hv, hr⟩ := h
        obtain ⟨G, hv2⟩ := ihE _ _ _ _ hv
        refine ⟨G + 1, ?_⟩
        simp only [unrS]
        rw [execS_decl]
        simp only [Option.bind_eq_some]
        exact ⟨v, hv2, hr⟩
      | assign x e =>
        rw [execS_assign] at h
        simp only [Option.bind_eq_some] at h
        obtain ⟨v, hv, hr⟩ := h
        obtain ⟨G, hv2⟩ := ihE _ _ _ _ hv
        refine ⟨G + 1, ?_⟩
        simp only [unrS]
        rw [execS_assign]
        simp only [Option.bind_eq_some]
        exact ⟨v, hv2, hr⟩
      | exprS e =>
        rw [execS_exprS] at h
        simp only [Option.bind_eq_some] at h
        obtain ⟨v, hv, hr⟩ := h
        obtain ⟨G, hv2⟩ := ihE _ _ _ _ hv
        refine ⟨G + 1, ?_⟩
        simp only [unrS]
        rw [execS_exprS]
        simp only [Option.bind_eq_some]
        exact ⟨v, hv2, hr⟩
      | ifS c t e =>
        rw [execS_ifS] at h
        simp only [Option.bind_eq_some] at h
        obtain ⟨vc, hc, hbr⟩ := h
        obtain ⟨Gc, hc2⟩ := ihE _ _ _ _ hc
        cases htr : truthy vc <;> rw [htr] at hbr <;>
          simp only [if_true, if_false, Bool.false_eq_true] at hbr
        · obtain ⟨Gb, hbr2⟩ := ihB _ _ _ _ hbr
          refine ⟨max Gc Gb + 1, ?_⟩
          simp only [unrS]
          rw [execS_ifS]
          simp only [Option.bind_eq_some]
          refine ⟨vc, evalE_mono (Nat.le_max_left _ _) hc2, ?_⟩
          rw [htr]
          simp only [Bool.false_eq_true, if_false]
          exact execB_mono (Nat.le_max_right _ _) hbr2
        · obtain ⟨Gb, hbr2⟩ := ihB _ _ _ _ hbr
          refine ⟨max Gc Gb + 1, ?_⟩
          simp only [unrS]
          rw [execS_ifS]
          simp only [Option.bind_eq_some]
          refine ⟨vc, evalE_mono (Nat.le_max_left _ _) hc2, ?_⟩
          rw [htr]
          simp only [if_true]
          exact execB_mono (Nat.le_max_right _ _) hbr2
      | whileS c b =>
        rw [execS_whileS] at h
        simp only [Option.bind_eq_some] at h
        obtain ⟨vc, hc, hbr⟩ := h
        obtain ⟨Gc, hc2⟩ := ihE _ _ _ _ hc
        cases htr : truthy vc <;> rw [htr] at hbr <;>
          simp only [if_true, if_false, Bool.false_eq_true] at hbr
        · cases hbr
          refine ⟨Gc + 1, ?_⟩
          simp only [unrS]
          rw [execS_whileS]
          simp only [Option.bind_eq_some]
          refine ⟨vc, hc2, ?_⟩
          rw [htr]
          simp only [Bool.false_eq_true, if_false]
        · simp only [Option.bind_eq_some] at hbr
          obtain ⟨r0, hb, hm⟩ := hbr
          obtain ⟨Gb, hb2⟩ := ihB _ _ _ _ hb
          cases r0 with
          | ret v =>
            cases hm
            refine ⟨max Gc Gb + 1, ?_⟩
            simp only [unrS]
            rw [execS_whileS]
            simp only [Option.bind_eq_some]
            refine ⟨vc, evalE_mono (Nat.le_max_left _ _) hc2, ?_⟩
            rw [htr]
            simp only [if_true, Option.bind_eq_some]
            exact ⟨.ret v, execB_mono (Nat.le_max_right _ _) hb2, rfl⟩
          | norm env2 =>
            obtain ⟨Gw, hw⟩ := ihS _ _ _ _ hm
            simp only [unrS] at hw
            refine ⟨max Gc (max Gb Gw) + 1, ?_⟩
            simp only [unrS]
            rw [execS_whileS]
            simp only [Option.bind_eq_some]
            refine ⟨vc, evalE_mono (Nat.le_max_left _ _) hc2, ?_⟩
            rw [htr]
            simp only [if_true, Option.bind_eq_some]
            refine ⟨.norm env2, execB_mono (le_trans (Nat.le_max_left _ _)
              (Nat.le_max_right _ _)) hb2, ?_⟩
            exact execS_mono (le_trans (Nat.le_max_right _ _)
              (Nat.le_max_right _ _)) hw
      | forS x e0 c st b =>
        rw [execS_forS] at h
        simp only [Option.bind_eq_some] at h
        obtain ⟨v0, h0, hfor⟩ := h
        cases hq : matchForm x e0 c st with
        | none =>
          obtain ⟨G0, h02⟩ := ihE _ _ _ _ h0
          obtain ⟨Gf, hfor2⟩ := ihF _ _ _ _ _ _ _ hfor
          refine ⟨max G0 Gf + 1, ?_⟩
          simp only [unrS, hq]
          rw [execS_forS]
          simp only [Option.bind_eq_some]
          exact ⟨v0, evalE_mono (Nat.le_max_left _ _) h02,
            execFor_mono (Nat.le_max_right _ _) hfor2⟩
        | some pr =>
          obtain ⟨a, n⟩ := pr
          by_cases helig : elig x a n b
          · obtain ⟨he0, hcc, hstc⟩ := matchForm_inv hq
            subst he0; subst hcc; subst hstc
            have hv0 : v0 = i32 a := evalE_lit_inv h0
            subst hv0
            obtain ⟨hplain, htouch, hcnt, hthr⟩ := helig
            have hfor3 : execFor fuel (unrollProg p) ((x, i32 a) :: env) x
                (.bin .lt (.var x) (.lit n)) (.bin .add (.var x) (.lit 1)) b =
                some r := by
              rw [← (callFree_progIrrel fuel).2.2.1 p (unrollProg p)
                ((x, i32 a) :: env) x (.bin .lt (.var x) (.lit n))
                (.bin .add (.var x) (.lit 1)) b rfl rfl hplain]
              exact hfor
            obtain ⟨G1, hG1⟩ := unroll_loop htouch ((i32 n - i32 a).toNat)
              (i32 a) ((x, i32 a) :: env) fuel r (norm32_i32 a)
              (by simp [lookupV]) rfl hfor3
            have hunr : unrS (.forS x (.lit a) (.bin .lt (.var x) (.lit n))
                (.bin .add (.var x) (.lit 1)) b) =
                .blockS (unrolledFor x (i32 a) ((i32 n - i32 a).toNat) b) := by
              have helig2 : elig x a n b := ⟨hplain, htouch, hcnt, hthr⟩
              simp only [unrS, hq, if_pos helig2]
            refine ⟨max 2 G1 + 1 + 1, ?_⟩
            rw [hunr, execS_blockS]
            simp only [unrolledFor]
            rw [execB_cons]
            simp only [Option.bind_eq_some]
            refine ⟨.norm ((x, i32 a) :: env), ?_,
              execB_mono (Nat.le_max_right _ _) hG1⟩
            have hdecl : execS 2 (unrollProg p) env (.decl x (.lit (i32 a))) =
                some (.norm ((x, i32 a) :: env)) := by
              show some (StepRes.norm ((x, i32 (i32 a)) :: env)) =
                some (StepRes.norm ((x, i32 a) :: env))
              rw [i32_idem]
            exact execS_mono (Nat.le_max_left _ _) hdecl
          · obtain ⟨G0, h02⟩ := ihE _ _ _ _ h0
            obtain ⟨Gf, hfor2⟩ := ihF _ _ _ _ _ _ _ hfor
            refine ⟨max G0 Gf + 1, ?_⟩
            simp only [unrS, hq, if_neg helig]
            rw [execS_forS]
            simp only [Option.bind_eq_some]
            exact ⟨v0, evalE_mono (Nat.le_max_left _ _) h02,
              execFor_mono (Nat.le_max_right _ _) hfor2⟩
      | blockS b =>
        rw [execS_blockS] at h
        obtain ⟨G, h2⟩ := ihB _ _ _ _ h
        refine ⟨G + 1, ?_⟩
        simp only [unrS]
        rw [execS_blockS]
        exact h2
      | ret e =>
        rw [execS_ret] at h
        simp only [Option.bind_eq_some] at h
        obtain ⟨v, hv, hr⟩ := h
        obtain ⟨G, hv2⟩ := ihE _ _ _ _ hv
        refine ⟨G + 1, ?_⟩
        simp only [unrS]
        rw [execS_ret]
        simp only [Option.bind_eq_some]
        exact ⟨v, hv2, hr⟩
    · intro p env x c st b r h
      rw [execFor_succ] at h
      simp only [Option.bind_eq_some] at h
      obtain ⟨vc, hc, hbr⟩ := h
      obtain ⟨Gc, hc2⟩ := ihE _ _ _ _ hc
      cases htr : truthy vc <;> rw [htr] at hbr <;>
        simp only [if_true, if_false, Bool.false_eq_true] at hbr
      · cases hbr
        refine ⟨Gc + 1, ?_⟩
        rw [execFor_succ]
        simp only [Option.bind_eq_some]
        refine ⟨vc, hc2, ?_⟩
        rw [htr]
        simp only [Bool.false_eq_true, if_false]
      · simp only [Option.bind_eq_some] at hbr
        obtain ⟨r0, hb, hm⟩ := hbr
        obtain ⟨Gb, hb2⟩ := ihB _ _ _ _ hb
        cases r0 with
        | ret v =>
          cases hm
          refine ⟨max Gc Gb + 1, ?_⟩
          rw [execFor_succ]
          simp only [Option.bind_eq_some]
          refine ⟨vc, evalE_mono (Nat.le_max_left _ _) hc2, ?_⟩
          rw [htr]
          simp only [if_true, Option.bind_eq_some]
          exact ⟨.ret v, execB_mono (Nat.le_max_right _ _) hb2, rfl⟩
        | norm env2 =>
          simp only [Option.bind_eq_some] at hm
          obtain ⟨vs, hvs, hnext⟩ := hm
          obtain ⟨Gs, hvs2⟩ := ihE _ _ _ _ hvs
          obtain ⟨Gn, hnext2⟩ := ihF _ _ _ _ _ _ _ hnext
          refine ⟨max Gc (max Gb (max Gs Gn)) + 1, ?_⟩
          rw [execFor_succ]
          simp only [Option.bind_eq_some]
          refine ⟨vc, evalE_mono (Nat.le_max_left _ _) hc2, ?_⟩
          rw [htr]
          simp only [if_true, Option.bind_eq_some]
          refine ⟨.norm env2, execB_mono (le_trans (Nat.le_max_left _ _)
            (Nat.le_max_right _ _)) hb2, ?_⟩
          simp only [Option.bind_eq_some]
          refine ⟨vs, evalE_mono (le_trans (le_trans (Nat.le_max_left _ _)
            (Nat.le_max_right _ _)) (Nat.le_max_right _ _)) hvs2, ?_⟩
          exact execFor_mono (le_trans (le_trans (Nat.le_max_right _ _)
            (Nat.le_max_right _ _)) (Nat.le_max_right _ _)) hnext2
    · intro p env b r h
      cases b with
      | nil => exact ⟨fuel + 1, h⟩
      | cons s rest =>
        rw [execB_cons] at h
        simp only [Option.bind_eq_some] at h
        obtain ⟨r0, hs, hm⟩ := h
        obtain ⟨Gs, hs2⟩ := ihS _ _ _ _ hs
        cases r0 with
        | ret v =>
          cases hm
          refine ⟨Gs + 1, ?_⟩
          simp only [unrB]
          rw [execB_cons]
          simp only [Option.bind_eq_some]
          exact ⟨.ret v, hs2, rfl⟩
        | norm env2 =>
          obtain ⟨Gr, hm2⟩ := ihB _ _ _ _ hm
          refine ⟨max Gs Gr + 1, ?_⟩
          simp only [unrB]
          rw [execB_cons]
          simp only [Option.bind_eq_some]
          exact ⟨.norm env2, execS_mono (Nat.le_max_left _ _) hs2,
            execB_mono (Nat.le_max_right _ _) hm2⟩

/-- Program-level: full loop unrolling preserves the observable result. -/
theorem unrollProg_preserves {p : Prog} {fuel : Nat} {v : Int}
    (h : execProgram p fuel = some v) :
    ∃ G, execProgram (unrollProg p) G = some v :=
  (unroll_exec fuel).2.2.1 _ _ _ _ h

/-! ## Semantic analysis (spec §4.2) and the optimization pipeline

Modelled from the spec: the semantic analyzer rejects undeclared
identifiers, unknown callees, and arity mismatches, and requires a `main`
entry point without parameters.  `V` is the set of declared variable names
in scope. -/

mutual
def chkE (p : Prog) (V : List String) : Expr → Bool
  | .lit _ => true
  | .var x => V.contains x
  | .bin _ a b => chkE p V a && chkE p V b
  | .un _ a => chkE p V a
  | .call f args =>
    (match lookupFn p f with
     | some fn => fn.params.length == argsLen args
     | none => false) && chkArgs p V args

def chkArgs (p : Prog) (V : List String) : Args → Bool
  | .nil => true
  | .cons e rest => chkE p V e && chkArgs p V rest
end

mutual
def chkS (p : Prog) (V : List String) : Stmt → Bool
  | .decl _ e => chkE p V e
  | .assign x e => V.contains x && chkE p V e
  | .exprS e => chkE p V e
  | .ifS c t e => chkE p V c && (chkB p V t && chkB p V e)
  | .whileS c b => chkE p V c && chkB p V b
  | .forS x e0 c st b =>
    chkE p V e0 && (chkE p (x :: V) c && (chkE p (x :: V) st && chkB p (x :: V) b))
  | .blockS b => chkB p V b
  | .ret e => chkE p V e

def chkB (p : Prog) (V : List String) : Block → Bool
  | .nil => true
  | .cons (.decl x e) rest => chkE p V e && chkB p (x :: V) rest
  | .cons s rest => chkS p V s && chkB p V rest
end

/-- Modelled from the spec: semantic-analyzer acceptance. -/
def semCheck (p : Prog) : Bool :=
  (match lookupFn p "main" with
   | some fn => fn.params.isEmpty
   | none => false) &&
  p.all fun f => chkB p f.params f.body

/-- Modelled from the spec: the middle-end pipeline.  Constant
folding/propagation and dead-code elimination run, the inliner and the
unroller run, and the cleanup passes run again; finally uncalled functions
are removed.  (Register allocation is an annotation stage on the lowered
form; it does not rewrite the AST.  It is modelled separately below.) -/
def cleanup (p : Prog) : Prog := liveProg (truncProg (propProg (foldProg p)))

def pipeline (p : Prog) : Prog :=
  removeDeadFns (cleanup (unrollProg (inlineProg (cleanup p))))

theorem cleanup_preserves {p : Prog} {fuel : Nat} {v : Int}
    (h : execProgram p fuel = some v) : execProgram (cleanup p) fuel = some v :=
  liveProg_preserves (truncProg_preserves (propProg_preserves (foldProg_preserves h)))

/-- The full pipeline preserves the observable result of a program. -/
theorem pipeline_preserves {p : Prog} {fuel : Nat} {v : Int}
    (h : execProgram p fuel = some v) :
    ∃ G, execProgram (pipeline p) G = some v := by
  have h1 := cleanup_preserves h
  obtain ⟨G1, h2⟩ := inlineProg_preserves h1
  obtain ⟨G2, h3⟩ := unrollProg_preserves h2
  exact ⟨G2, removeDeadFns_preserves (cleanup_preserves h3)⟩

/-! ## The test-input corpus, embedded from `src/c-compiler/` -/

/-- `dead_code_test.c`: `int unused_function(int x) { return x * 2; }` -/
def fnUnusedFunction : Fn :=
  ⟨"unused_function", ["x"], .cons (.ret (.bin .mul (.var "x") (.lit 2))) .nil⟩

/-- `dead_code_test.c`: `function_with_unreachable_code`. -/
def fnUnreachableCode : Fn :=
  ⟨"function_with_unreachable_code", ["a"],
    .cons (.ifS (.bin .gt (.var "a") (.lit 0))
      (.cons (.ret (.bin .add (.var "a") (.lit 1)))
        (.cons (.decl "unreachable" (.lit 42))
          (.cons (.assign "a" (.var "unreachable")) .nil)))
      .nil)
    (.cons (.ret (.lit 0)) .nil)⟩

/-- `dead_code_test.c`: `function_with_unused_vars`. -/
def fnUnusedVars : Fn :=
  ⟨"function_with_unused_vars", ["x"],
    .cons (.decl "unused_var" (.lit 10))
    (.cons (.decl "used_var" (.lit 20))
    (.cons (.decl "dead_store" (.lit 30))
    (.cons (.assign "dead_store" (.lit 40))
    (.cons (.ret (.bin .add (.var "used_var") (.var "x"))) .nil))))⟩

/-- `dead_code_test.c`: `function_with_constant_conditions`. -/
def fnConstantConditions : Fn :=
  ⟨"function_with_constant_conditions", ["x"],
    .cons (.ifS (.lit 1)
      (.cons (.assign "x" (.bin .add (.var "x") (.lit 1))) .nil)
      (.cons (.assign "x" (.bin .sub (.var "x") (.lit 1))) .nil))
    (.cons (.ifS (.lit 0)
      (.cons (.assign "x" (.bin .mul (.var "x") (.lit 2))) .nil)
      .nil)
    (.cons (.ret (.var "x")) .nil))⟩

/-- `dead_code_test.c`: `main`. -/
def fnDeadCodeMain : Fn :=
  ⟨"main", [],
    .cons (.decl "result" (.call "function_with_unreachable_code" (.cons (.lit 5) .nil)))
    (.cons (.assign "result" (.call "function_with_unused_vars" (.cons (.var "result") .nil)))
    (.cons (.assign "result" (.call "function_with_constant_conditions" (.cons (.var "result") .nil)))
    (.cons (.ret (.var "result")) .nil)))⟩

def deadCodeTest : Prog :=
  [fnUnusedFunction, fnUnreachableCode, fnUnusedVars, fnConstantConditions, fnDeadCodeMain]

/-- `function_inlining_test.c`: `int add(int a, int b) { return a + b; }` -/
def fnAdd : Fn := ⟨"add", ["a", "b"], .cons (.ret (.bin .add (.var "a") (.var "b"))) .nil⟩

/-- `function_inlining_test.c`: `multiply`. -/
def fnMultiply : Fn :=
  ⟨"multiply", ["x", "y"], .cons (.ret (.bin .mul (.var "x") (.var "y"))) .nil⟩

/-- `function_inlining_test.c`: `square`. -/
def fnSquare : Fn :=
  ⟨"square", ["n"],
    .cons (.ret (.call "multiply" (.cons (.var "n") (.cons (.var "n") .nil)))) .nil⟩

/-- `function_inlining_test.c`: `complex_calculation`. -/
def fnComplexCalculation : Fn :=
  ⟨"complex_calculation", ["a", "b", "c"],
    .cons (.decl "result" (.lit 0))
    (.cons (.ifS (.bin .gt (.var "a") (.lit 0))
      (.cons (.assign "result" (.call "add" (.cons (.var "a") (.cons (.var "b") .nil))))
        (.cons (.ifS (.bin .gt (.var "b") (.lit 5))
          (.cons (.assign "result"
            (.call "multiply" (.cons (.var "result") (.cons (.var "c") .nil)))) .nil)
          (.cons (.assign "result" (.bin .add (.var "result") (.var "c"))) .nil))
        .nil))
      (.cons (.assign "result"
        (.call "multiply" (.cons (.var "a") (.cons (.var "c") .nil)))) .nil))
    (.cons (.ret (.var "result")) .nil))⟩

/-- `function_inlining_test.c`: `main`. -/
def fnInliningMain : Fn :=
  ⟨"main", [],
    .cons (.decl "x" (.lit 10))
    (.cons (.decl "y" (.lit 5))
    (.cons (.decl "sum" (.call "add" (.cons (.var "x") (.cons (.var "y") .nil))))
    (.cons (.decl "prod" (.call "multiply" (.cons (.var "x") (.cons (.lit 3) .nil))))
    (.cons (.decl "sq" (.call "square" (.cons (.lit 4) .nil)))
    (.cons (.decl "sum2" (.call "add" (.cons (.var "sum") (.cons (.var "prod") .nil))))
    (.cons (.decl "prod2" (.call "multiply" (.cons (.var "sq") (.cons (.lit 2) .nil))))
    (.cons (.decl "complex" (.call "complex_calculation"
      (.cons (.var "x") (.cons (.var "y") (.cons (.var "sum") .nil)))))
    (.cons (.ret (.bin .add (.bin .add (.bin .add (.var "sum") (.var "prod"))
      (.var "sq")) (.var "complex")))
    .nil))))))))⟩

def inliningTest : Prog :=
  [fnAdd, fnMultiply, fnSquare, fnComplexCalculation, fnInliningMain]

/-- `simple_unroll_test.c`: `main`. -/
def fnSimpleUnrollMain : Fn :=
  ⟨"main", [],
    .cons (.decl "sum" (.lit 0))
    (.cons (.forS "i" (.lit 0) (.bin .lt (.var "i") (.lit 3))
      (.bin .add (.var "i") (.lit 1))
      (.cons (.assign "sum" (.bin .add (.var "sum") (.var "i"))) .nil))
    (.cons (.ret (.var "sum")) .nil))⟩

def simpleUnrollTest : Prog := [fnSimpleUnrollMain]

/-- `factorial_test.c`: `factorial`. -/
def fnFactorial : Fn :=
  ⟨"factorial", ["n"],
    .cons (.ifS (.bin .lt (.var "n") (.lit 2))
      (.cons (.ret (.lit 1)) .nil)
      (.cons (.ret (.bin .mul (.var "n")
        (.call "factorial" (.cons (.bin .sub (.var "n") (.lit 1)) .nil)))) .nil))
    .nil⟩

/-- `factorial_test.c`: `main`. -/
def fnFactorialMain : Fn :=
  ⟨"main", [],
    .cons (.decl "num" (.lit 5))
    (.cons (.decl "result" (.call "factorial" (.cons (.var "num") .nil)))
    (.cons (.ifS (.bin .gt (.var "result") (.lit 100))
      (.cons (.ret (.lit 1)) .nil)
      .nil)
    (.cons (.ret (.lit 0)) .nil)))⟩

def factorialTest : Prog := [fnFactorial, fnFactorialMain]

/-! ## Symbol table and scope resolver (spec §4.1)

Modelled from the spec: a stack of scope frames, innermost first.  `declare`
fails with `DuplicateDeclaration` only on a clash in the *current* frame
(shadowing an outer frame is allowed); `lookup` searches innermost to
outermost and fails with `UndeclaredIdentifier` when no frame holds the
name; `enterScope`/`exitScope` push and pop a frame, and popping discards
the declarations made since the matching push. -/

inductive CType where
  | intT | floatT | charT
deriving DecidableEq

inductive SymErr where
  | DuplicateDeclaration | UndeclaredIdentifier
deriving DecidableEq

/-- One scope frame: names declared in it, innermost declaration first. -/
abbrev Frame := List (String × CType)

/-- The scope stack, innermost frame first. -/
abbrev Scopes := List Frame

def inFrame (f : Frame) (name : String) : Bool :=
  f.any fun pr => pr.1 == name

def declare (name : String) (ty : CType) : Scopes → Except SymErr Scopes
  | [] => .ok [[(name, ty)]]
  | f :: rest =>
    if inFrame f name then .error .DuplicateDeclaration
    else .ok (((name, ty) :: f) :: rest)

def lookupS (name : String) : Scopes → Except SymErr CType
  | [] => .error .UndeclaredIdentifier
  | f :: rest =>
    match f.find? (fun pr => pr.1 == name) with
    | some pr => .ok pr.2
    | none => lookupS name rest

def enterScope (sc : Scopes) : Scopes := [] :: sc

def exitScope : Scopes → Scopes
  | [] => []
  | _ :: rest => rest

theorem declare_dup_iff (name : String) (ty : CType) (f : Frame) (rest : Scopes) :
    declare name ty (f :: rest) = .error .DuplicateDeclaration ↔ inFrame f name = true := by
  unfold declare
  by_cases h : inFrame f name
  · simp [h]
  · simp [h]

/-- Shadowing: `declare` ignores outer frames entirely. -/
theorem declare_shadow (name : String) (ty : CType) (f : Frame) (rest : Scopes)
    (h : inFrame f name = false) :
    declare name ty (f :: rest) = .ok (((name, ty) :: f) :: rest) := by
  unfold declare
  simp [h]

theorem lookupS_err_iff (name : String) : ∀ (sc : Scopes),
    lookupS name sc = .error .UndeclaredIdentifier ↔
      ∀ f ∈ sc, inFrame f name = false := by
  intro sc
  induction sc with
  | nil => simp [lookupS]
  | cons f rest ih =>
    unfold lookupS
    cases hf : f.find? (fun pr => pr.1 == name) with
    | some pr =>
      simp only [List.mem_cons]
      constructor
      · intro h; cases h
      · intro h
        have hmem := List.mem_of_find?_eq_some hf
        have hpr := List.find?_some hf
        have : inFrame f name = true := by
          unfold inFrame
          exact List.any_eq_true.mpr ⟨pr, hmem, hpr⟩
        rw [h f (Or.inl rfl)] at this
        cases this
    | none =>
      rw [ih]
      constructor
      · intro h g hg
        cases hg with
        | head =>
          unfold inFrame
          rw [List.any_eq_false]
          intro pr hpr
          exact List.find?_eq_none.mp hf pr hpr
        | tail _ hg2 => exact h g hg2
      · intro h g hg
        exact h g (List.mem_cons_of_mem f hg)

/-- Innermost-first search: a hit in the innermost frame wins. -/
theorem lookupS_inner (name : String) (f : Frame) (rest : Scopes) (pr : String × CType)
    (h : f.find? (fun q => q.1 == name) = some pr) :
    lookupS name (f :: rest) = .ok pr.2 := by
  unfold lookupS
  rw [h]

/-- Innermost-first search: a miss in the innermost frame defers outward. -/
theorem lookupS_outer (name : String) (f : Frame) (rest : Scopes)
    (h : inFrame f name = false) :
    lookupS name (f :: rest) = lookupS name rest := by
  conv_lhs => unfold lookupS
  have hf : f.find? (fun q => q.1 == name) = none := by
    rw [List.find?_eq_none]
    intro pr hpr
    unfold inFrame at h
    rw [List.any_eq_false] at h
    exact h pr hpr
  rw [hf]

/-- Exiting a scope discards exactly the declarations made since entry. -/
theorem exitScope_enterScope (sc : Scopes) : exitScope (enterScope sc) = sc := rfl

/-! ## Register allocator (spec §4.7)

Modelled from the spec: linear scan over live intervals.  Intervals are
sorted by start point; an active set holds intervals currently assigned
registers; at each new interval the actives whose interval ended before the
new start are expired (their registers return to the free pool); if no
register is free, the active with the furthest end point is spilled to a
fresh stack slot and its register is taken.  Spilled values are reloaded
immediately before each use. -/

structure Ival where
  vname : String
  istart : Nat
  iend : Nat
deriving DecidableEq

inductive Loc where
  | reg (r : Nat)
  | slot (s : Nat)
deriving DecidableEq

/-- Allocator state: active intervals with their registers, the free
register pool, the next fresh spill slot, and finished assignments. -/
structure ASt where
  act : List (Ival × Nat)
  free : List Nat
  slotN : Nat
  fin : List (Ival × Loc)

/-- Expire every active interval that ended strictly before `t`. -/
def expire (t : Nat) (st : ASt) : ASt :=
  ⟨st.act.filter (fun pr => t ≤ pr.1.iend),
   (st.act.filter (fun pr => !(decide (t ≤ pr.1.iend)))).map Prod.snd ++ st.free,
   st.slotN,
   (st.act.filter (fun pr => !(decide (t ≤ pr.1.iend)))).map
     (fun pr => (pr.1, Loc.reg pr.2)) ++ st.fin⟩

/-- Select the active with the furthest end point, returning it and the
remaining actives. -/
def pickFurthest : List (Ival × Nat) → Option ((Ival × Nat) × List (Ival × Nat))
  | [] => none
  | pr :: rest =>
    match pickFurthest rest with
    | none => some (pr, [])
    | some (qr, others) =>
      if qr.1.iend ≤ pr.1.iend then some (pr, rest) else some (qr, pr :: others)

/-- Core allocation step on an expired state: take a free register, or
spill the furthest-ending active to a fresh slot and steal its register. -/
def allocCore (st1 : ASt) (i : Ival) : ASt :=
  match st1.free with
  | r :: fr => ⟨(i, r) :: st1.act, fr, st1.slotN, st1.fin⟩
  | [] =>
    match pickFurthest st1.act with
    | some (qr, others) =>
      ⟨(i, qr.2) :: others, [], st1.slotN + 1, (qr.1, Loc.slot st1.slotN) :: st1.fin⟩
    | none => ⟨st1.act, [], st1.slotN + 1, (i, Loc.slot st1.slotN) :: st1.fin⟩

/-- Allocate one interval: expire, then allocate. -/
def allocOne (st : ASt) (i : Ival) : ASt := allocCore (expire i.istart st) i

def allocLoop : ASt → List Ival → ASt
  | st, [] => st
  | st, i :: rest => allocLoop (allocOne st i) rest

/-- Flush the remaining actives into the finished assignment. -/
def finishA (st : ASt) : List (Ival × Loc) :=
  st.act.map (fun pr => (pr.1, Loc.reg pr.2)) ++ st.fin

/-- Insertion sort of intervals by start point. -/
def insertIv (i : Ival) : List Ival → List Ival
  | [] => [i]
  | j :: rest => if i.istart ≤ j.istart then i :: j :: rest else j :: insertIv i rest

def sortIvs : List Ival → List Ival
  | [] => []
  | i :: rest => insertIv i (sortIvs rest)

def initSt (K : Nat) : ASt := ⟨[], List.range K, 0, []⟩

/-- Linear-scan register allocation with a register file of size `K`. -/
def linearScan (K : Nat) (ivs : List Ival) : List (Ival × Loc) :=
  finishA (allocLoop (initSt K) (sortIvs ivs))

/-- Two intervals are disjoint: one ends before the other starts. -/
def IDisj (i j : Ival) : Prop := i.iend < j.istart ∨ j.iend < i.istart

/-- Two assignment entries never share a location while overlapping. -/
def SameLocDisj (e1 e2 : Ival × Loc) : Prop := e1.2 = e2.2 → IDisj e1.1 e2.1

def locReg : Loc → Option Nat
  | .reg r => some r
  | .slot _ => none

/-- Registers of output entries whose interval is live at point `t`. -/
def regsAt (t : Nat) (out : List (Ival × Loc)) : List Nat :=
  (out.filter (fun e => decide (e.1.istart ≤ t) && decide (t ≤ e.1.iend))).filterMap
    (fun e => locReg e.2)

/-! Spill-code emission: loads immediately before each use. -/

inductive MInstr where
  | load (x : String)
  | store (x : String)
  | op (k : Nat)
deriving DecidableEq

structure PPoint where
  reads : List String
  writes : List String

/-- Emit one program point: reload every spilled operand immediately
before the instruction, store every spilled definition immediately after. -/
def emitPoint (sp : List String) (k : Nat) (pt : PPoint) : List MInstr :=
  (pt.reads.filter (fun x => sp.contains x)).map MInstr.load ++
  (MInstr.op k :: (pt.writes.filter (fun x => sp.contains x)).map MInstr.store)

/-- The names the allocator spilled. -/
def spilledNames (out : List (Ival × Loc)) : List String :=
  out.filterMap fun e =>
    match e.2 with
    | .slot _ => some e.1.vname
    | .reg _ => none

/-- Every spilled operand is reloaded before the instruction that uses it. -/
theorem emitPoint_reload (sp : List String) (k : Nat) (pt : PPoint) (x : String)
    (hx : x ∈ pt.reads) (hsp : sp.contains x = true) :
    ∃ pre post, emitPoint sp k pt = pre ++ MInstr.op k :: post ∧ MInstr.load x ∈ pre := by
  refine ⟨(pt.reads.filter (fun y => sp.contains y)).map MInstr.load,
    (pt.writes.filter (fun y => sp.contains y)).map MInstr.store, rfl, ?_⟩
  exact List.mem_map_of_mem MInstr.load (List.mem_filter.mpr ⟨hx, hsp⟩)

/-- The linear-scan allocator invariant at position `pos`: free and active
registers are distinct and within the register file; every finished
register assignment expired before `pos`; a finished register entry never
overlaps an active holding the same register; finished assignments are
pairwise location-safe; finished slots are below the fresh-slot counter. -/
structure AInv (K pos : Nat) (st : ASt) : Prop where
  regsN : (st.free ++ st.act.map Prod.snd).Nodup
  regsK : ∀ r ∈ st.free ++ st.act.map Prod.snd, r < K
  finReg : ∀ e ∈ st.fin, ∀ r, e.2 = Loc.reg r → r < K ∧ e.1.iend < pos
  finRegAct : ∀ e ∈ st.fin, ∀ pr ∈ st.act, e.2 = Loc.reg pr.2 → e.1.iend < pr.1.istart
  finPair : st.fin.Pairwise SameLocDisj
  finSlot : ∀ e ∈ st.fin, ∀ s, e.2 = Loc.slot s → s < st.slotN

theorem pickFurthest_eq_none : ∀ (l : List (Ival × Nat)),
    pickFurthest l = none → l = [] := by
  intro l h
  cases l with
  | nil => rfl
  | cons pr rest =>
    unfold pickFurthest at h
    cases hpk : pickFurthest rest with
    | none =>
      rw [hpk] at h
      have h2 : some (pr, ([] : List (Ival × Nat))) = none := h
      cases h2
    | some qo =>
      obtain ⟨qr, others⟩ := qo
      rw [hpk] at h
      have h2 : (if qr.1.iend ≤ pr.1.iend then some (pr, rest)
          else some (qr, pr :: others)) = (none : Option _) := h
      by_cases hle : qr.1.iend ≤ pr.1.iend
      · rw [if_pos hle] at h2; cases h2
      · rw [if_neg hle] at h2; cases h2

theorem pickFurthest_perm : ∀ (l : List (Ival × Nat)) {qr : Ival × Nat}
    {others : List (Ival × Nat)}, pickFurthest l = some (qr, others) →
    l.Perm (qr :: others)
  | [] => by
    intro h
    rename_i qr others
    simp [pickFurthest] at h
  | pr :: rest => by
    intro h
    rename_i qr others
    unfold pickFurthest at h
    cases hpk : pickFurthest rest with
    | none =>
      rw [hpk] at h
      have hrest := pickFurthest_eq_none rest hpk
      have h2 : some (pr, ([] : List (Ival × Nat))) = some (qr, others) := h
      cases h2
      rw [hrest]
    | some qo =>
      obtain ⟨q2, others2⟩ := qo
      rw [hpk] at h
      have hperm := pickFurthest_perm rest hpk
      have h2 : (if q2.1.iend ≤ pr.1.iend then some (pr, rest)
          else some (q2, pr :: others2)) = some (qr, others) := h
      by_cases hle : q2.1.iend ≤ pr.1.iend
      · rw [if_pos hle] at h2
        cases h2
        exact List.Perm.refl _
      · rw [if_neg hle] at h2
        cases h2
        exact (hperm.cons pr).trans (List.Perm.swap _ _ _)

theorem perm_expire_regs {α β : Type} (f : α → β) (p : α → Bool)
    (act : List α) (free : List β) :
    List.Perm (((act.filter (fun a => !(p a))).map f ++ free) ++ (act.filter p).map f)
      (free ++ act.map f) := by
  have p1 : List.Perm
      (((act.filter (fun a => !(p a))).map f ++ free) ++ (act.filter p).map f)
      ((act.filter p).map f ++ ((act.filter (fun a => !(p a))).map f ++ free)) :=
    List.perm_append_comm
  have p2 : (act.filter p).map f ++ ((act.filter (fun a => !(p a))).map f ++ free) =
      ((act.filter p ++ act.filter (fun a => !(p a))).map f) ++ free := by
    rw [List.map_append, List.append_assoc]
  rw [p2] at p1
  have p3 : List.Perm (((act.filter p ++ act.filter (fun a => !(p a))).map f) ++ free)
      (act.map f ++ free) :=
    List.Perm.append_right _ ((List.filter_append_perm p act).map f)
  have p4 : List.Perm (act.map f ++ free) (free ++ act.map f) := List.perm_append_comm
  exact (p1.trans p3).trans p4

theorem expire_inv {K pos : Nat} {st : ASt} (h : AInv K pos st) (t : Nat)
    (hpt : pos ≤ t) : AInv K t (expire t st) := by
  obtain ⟨act, free, slotN, fin⟩ := st
  have hactN : (act.map Prod.snd).Nodup := h.regsN.of_append_right
  have hperm := perm_expire_regs Prod.snd (fun pr => decide (t ≤ pr.1.iend)) act free
  refine ⟨?_, ?_, ?_, ?_, ?_, ?_⟩
  · exact hperm.nodup_iff.mpr h.regsN
  · intro r hr
    exact h.regsK r (hperm.mem_iff.mp hr)
  · intro e he r her
    rcases List.mem_append.mp he with hnew | hold
    · obtain ⟨pr, hpr, hef⟩ := List.mem_map.mp hnew
      obtain ⟨hpa, hpf⟩ := List.mem_filter.mp hpr
      subst hef
      cases her
      constructor
      · exact h.regsK pr.2 (List.mem_append_right _ (List.mem_map_of_mem _ hpa))
      · simp only [Bool.not_eq_true', decide_eq_false_iff_not, not_le] at hpf
        exact hpf
    · obtain ⟨hK, hend⟩ := h.finReg e hold r her
      exact ⟨hK, lt_of_lt_of_le hend hpt⟩
  · intro e he pr hpr her
    obtain ⟨hpa, hpk⟩ := List.mem_filter.mp hpr
    rcases List.mem_append.mp he with hnew | hold
    · obtain ⟨qr, hqr, hef⟩ := List.mem_map.mp hnew
      obtain ⟨hqa, hqf⟩ := List.mem_filter.mp hqr
      subst hef
      have heq : qr = pr :=
        List.inj_on_of_nodup_map hactN hqa hpa (by simpa using her)
      subst heq
      rw [hpk] at hqf
      cases hqf
    · exact h.finRegAct e hold pr hpa her
  · show ((act.filter (fun pr => !(decide (t ≤ pr.1.iend)))).map
        (fun pr => (pr.1, Loc.reg pr.2)) ++ fin).Pairwise SameLocDisj
    rw [List.pairwise_append]
    refine ⟨?_, h.finPair, ?_⟩
    · rw [List.pairwise_map]
      have hpw : act.Pairwise (fun a b => a.2 ≠ b.2) :=
        List.pairwise_map.mp hactN
      have hpwf := hpw.filter (fun pr => !(decide (t ≤ pr.1.iend)))
      exact hpwf.imp fun hab => by
        intro hloc
        exact absurd (by simpa using hloc) hab
    · intro a ha b hb
      obtain ⟨qr, hqr, hef⟩ := List.mem_map.mp ha
      obtain ⟨hqa, _⟩ := List.mem_filter.mp hqr
      subst hef
      intro hloc
      have := h.finRegAct b hb qr hqa hloc.symm
      exact Or.inr this
  · intro e he s hes
    rcases List.mem_append.mp he with hnew | hold
    · obtain ⟨pr, _, hef⟩ := List.mem_map.mp hnew
      subst hef
      cases hes
    · exact h.finSlot e hold s hes

theorem allocCore_inv {K : Nat} {st1 : ASt} {i : Ival} (h : AInv K i.istart st1)
    (hwf : i.istart ≤ i.iend) : AInv K i.istart (allocCore st1 i) := by
  obtain ⟨act, free, slotN, fin⟩ := st1
  cases free with
  | cons r fr =>
    have hmid : List.Perm (fr ++ ((i, r) :: act).map Prod.snd)
        ((r :: fr) ++ act.map Prod.snd) := by
      simp only [List.map_cons]
      exact (List.perm_middle).trans (List.Perm.refl _)
    refine ⟨?_, ?_, ?_, ?_, h.finPair, h.finSlot⟩
    · exact hmid.nodup_iff.mpr h.regsN
    · intro r2 hr2
      exact h.regsK r2 (hmid.mem_iff.mp hr2)
    · exact h.finReg
    · intro e he pr hpr her
      rcases List.mem_cons.mp hpr with hhd | htl
      · subst hhd
        exact (h.finReg e he r her).2
      · exact h.finRegAct e he pr htl her
  | nil =>
    cases hpk : pickFurthest act with
    | some qo =>
      obtain ⟨qr, others⟩ := qo
      have hperm := pickFurthest_perm act hpk
      have hqact : qr ∈ act := hperm.mem_iff.mpr (List.mem_cons_self _ _)
      have hoact : ∀ pr ∈ others, pr ∈ act := fun pr hpr =>
        hperm.mem_iff.mpr (List.mem_cons_of_mem _ hpr)
      have hmapperm : List.Perm (act.map Prod.snd) (qr.2 :: others.map Prod.snd) := by
        have := hperm.map Prod.snd
        simpa using this
      have hred : allocCore ⟨act, [], slotN, fin⟩ i =
          ⟨(i, qr.2) :: others, [], slotN + 1, (qr.1, Loc.slot slotN) :: fin⟩ := by
        simp only [allocCore, hpk]
      rw [hred]
      refine ⟨?_, ?_, ?_, ?_, ?_, ?_⟩
      · simp only [List.nil_append, List.map_cons]
        have hN : (act.map Prod.snd).Nodup := h.regsN.of_append_right
        exact (hmapperm.nodup_iff).mp hN
      · intro r2 hr2
        simp only [List.nil_append, List.map_cons] at hr2
        exact h.regsK r2 (List.mem_append_right _ (hmapperm.mem_iff.mpr hr2))
      · intro e he r her
        rcases List.mem_cons.mp he with hhd | htl
        · subst hhd; cases her
        · exact h.finReg e htl r her
      · intro e he pr hpr her
        rcases List.mem_cons.mp he with hhd | htl
        · subst hhd; cases her
        · rcases List.mem_cons.mp hpr with hh2 | ht2
          · subst hh2
            exact (h.finReg e htl qr.2 her).2
          · exact h.finRegAct e htl pr (hoact pr ht2) her
      · rw [List.pairwise_cons]
        refine ⟨?_, h.finPair⟩
        intro e2 he2 hloc
        exfalso
        cases he2loc : e2.2 with
        | reg r2 => rw [he2loc] at hloc; cases hloc
        | slot s2 =>
          rw [he2loc] at hloc
          injection hloc with hs
          have h3 : s2 < slotN := h.finSlot e2 he2 s2 he2loc
          omega
      · intro e he s hes
        show s < slotN + 1
        rcases List.mem_cons.mp he with hhd | htl
        · subst hhd
          cases hes
          omega
        · have h3 : s < slotN := h.finSlot e htl s hes
          omega
    | none =>
      have hact : act = [] := pickFurthest_eq_none act hpk
      subst hact
      show AInv K i.istart ⟨[], [], slotN + 1, (i, Loc.slot slotN) :: fin⟩
      refine ⟨?_, ?_, ?_, ?_, ?_, ?_⟩
      · simp
      · intro r2 hr2; simp at hr2
      · intro e he r her
        rcases List.mem_cons.mp he with hhd | htl
        · subst hhd; cases her
        · exact h.finReg e htl r her
      · intro e he pr hpr her
        simp at hpr
      · rw [List.pairwise_cons]
        refine ⟨?_, h.finPair⟩
        intro e2 he2 hloc
        exfalso
        cases he2loc : e2.2 with
        | reg r2 => rw [he2loc] at hloc; cases hloc
        | slot s2 =>
          rw [he2loc] at hloc
          injection hloc with hs
          have h3 : s2 < slotN := h.finSlot e2 he2 s2 he2loc
          omega
      · intro e he s hes
        show s < slotN + 1
        rcases List.mem_cons.mp he with hhd | htl
        · subst hhd
          cases hes
          omega
        · have h3 : s < slotN := h.finSlot e htl s hes
          omega

theorem allocOne_inv {K pos : Nat} {st : ASt} (h : AInv K pos st) (i : Ival)
    (hpi : pos ≤ i.istart) (hwf : i.istart ≤ i.iend) :
    AInv K i.istart (allocOne st i) :=
  allocCore_inv (expire_inv h i.istart hpi) hwf

theorem allocLoop_inv : ∀ (l : List Ival) (st : ASt) (K pos : Nat),
    AInv K pos st → l.Pairwise (fun a b => a.istart ≤ b.istart) →
    (∀ j ∈ l, pos ≤ j.istart) → (∀ j ∈ l, j.istart ≤ j.iend) →
    ∃ q, AInv K q (allocLoop st l)
  | [], st, K, pos, h, _, _, _ => ⟨pos, h⟩
  | i :: rest, st, K, pos, h, hp, hpos, hwf => by
    obtain ⟨hhd, htl⟩ := List.pairwise_cons.mp hp
    exact allocLoop_inv rest (allocOne st i) K i.istart
      (allocOne_inv h i (hpos i (List.mem_cons_self _ _))
        (hwf i (List.mem_cons_self _ _)))
      htl hhd
      (fun j hj => hwf j (List.mem_cons_of_mem _ hj))

theorem mem_insertIv {i a : Ival} : ∀ (l : List Ival),
    a ∈ insertIv i l ↔ a = i ∨ a ∈ l := by
  intro l
  induction l with
  | nil => simp [insertIv]
  | cons j rest ih =>
    unfold insertIv
    by_cases hle : i.istart ≤ j.istart
    · rw [if_pos hle]
      simp [List.mem_cons]
    · rw [if_neg hle]
      simp only [List.mem_cons, ih]
      constructor
      · rintro (h1 | h2 | h3)
        · exact Or.inr (Or.inl h1)
        · exact Or.inl h2
        · exact Or.inr (Or.inr h3)
      · rintro (h1 | h2 | h3)
        · exact Or.inr (Or.inl h1)
        · exact Or.inl h2
        · exact Or.inr (Or.inr h3)

theorem mem_sortIvs {a : Ival} : ∀ (l : List Ival), a ∈ sortIvs l ↔ a ∈ l := by
  intro l
  induction l with
  | nil => simp [sortIvs]
  | cons i rest ih =>
    unfold sortIvs
    rw [mem_insertIv, ih]
    simp [List.mem_cons]

theorem insertIv_pairwise {i : Ival} : ∀ {l : List Ival},
    l.Pairwise (fun a b => a.istart ≤ b.istart) →
    (insertIv i l).Pairwise (fun a b => a.istart ≤ b.istart) := by
  intro l
  induction l with
  | nil => intro _; simp [insertIv]
  | cons j rest ih =>
    intro hp
    obtain ⟨hhd, htl⟩ := List.pairwise_cons.mp hp
    unfold insertIv
    by_cases hle : i.istart ≤ j.istart
    · rw [if_pos hle]
      rw [List.pairwise_cons]
      refine ⟨?_, hp⟩
      intro b hb
      rcases List.mem_cons.mp hb with hb1 | hb2
      · subst hb1; exact hle
      · exact le_trans hle (hhd b hb2)
    · rw [if_neg hle]
      rw [List.pairwise_cons]
      refine ⟨?_, ih htl⟩
      intro b hb
      rcases (mem_insertIv rest).mp hb with hb1 | hb2
      · subst hb1; omega
      · exact hhd b hb2

theorem sortIvs_pairwise : ∀ (l : List Ival),
    (sortIvs l).Pairwise (fun a b => a.istart ≤ b.istart)
  | [] => by simp [sortIvs]
  | i :: rest => by
    unfold sortIvs
    exact insertIv_pairwise (sortIvs_pairwise rest)

theorem initSt_inv (K : Nat) : AInv K 0 (initSt K) := by
  refine ⟨?_, ?_, ?_, ?_, ?_, ?_⟩
  · simp [initSt, List.nodup_range]
  · intro r hr
    simp only [initSt, List.map_nil, List.append_nil, List.mem_range] at hr
    exact hr
  · intro e he; simp [initSt] at he
  · intro e he; simp [initSt] at he
  · simp [initSt]
  · intro e he; simp [initSt] at he

theorem finishA_inv {K q : Nat} {st : ASt} (h : AInv K q st) :
    (finishA st).Pairwise SameLocDisj ∧
    (∀ e ∈ finishA st, ∀ r, e.2 = Loc.reg r → r < K) := by
  obtain ⟨act, free, slotN, fin⟩ := st
  have hactN : (act.map Prod.snd).Nodup := h.regsN.of_append_right
  constructor
  · show (act.map (fun pr => (pr.1, Loc.reg pr.2)) ++ fin).Pairwise SameLocDisj
    rw [List.pairwise_append]
    refine ⟨?_, h.finPair, ?_⟩
    · rw [List.pairwise_map]
      have hpw : act.Pairwise (fun a b => a.2 ≠ b.2) := List.pairwise_map.mp hactN
      exact hpw.imp fun hab => by
        intro hloc
        exact absurd (by simpa using hloc) hab
    · intro a ha b hb
      obtain ⟨pr, hpr, hef⟩ := List.mem_map.mp ha
      subst hef
      intro hloc
      exact Or.inr (h.finRegAct b hb pr hpr hloc.symm)
  · intro e he r her
    rcases List.mem_append.mp he with hact | hfin
    · obtain ⟨pr, hpr, hef⟩ := List.mem_map.mp hact
      subst hef
      cases her
      exact h.regsK pr.2 (List.mem_append_right _ (List.mem_map_of_mem _ hpr))
    · exact (h.finReg e hfin r her).1

/-- Linear scan is location-safe: no register or slot is shared by two
overlapping intervals, and every register is within the register file. -/
theorem linearScan_safe (K : Nat) (ivs : List Ival)
    (hwf : ∀ j ∈ ivs, j.istart ≤ j.iend) :
    (linearScan K ivs).Pairwise SameLocDisj ∧
    (∀ e ∈ linearScan K ivs, ∀ r, e.2 = Loc.reg r → r < K) := by
  obtain ⟨q, hq⟩ := allocLoop_inv (sortIvs ivs) (initSt K) K 0 (initSt_inv K)
    (sortIvs_pairwise ivs) (fun j _ => Nat.zero_le _)
    (fun j hj => hwf j ((mem_sortIvs ivs).mp hj))
  exact finishA_inv hq

theorem locReg_eq_some {L : Loc} {r : Nat} (h : locReg L = some r) : L = Loc.reg r := by
  cases L with
  | reg r2 => simp only [locReg, Option.some_inj] at h; rw [h]
  | slot s => simp [locReg] at h

theorem nodup_filterMap_of_pairwise {α β : Type} {l : List α} {f : α → Option β}
    (h : l.Pairwise fun a b => ∀ x y, f a = some x → f b = some y → x ≠ y) :
    (l.filterMap f).Nodup := by
  induction l with
  | nil => simp
  | cons a rest ih =>
    obtain ⟨hhd, htl⟩ := List.pairwise_cons.mp h
    rw [List.filterMap_cons]
    cases hfa : f a with
    | none => exact ih htl
    | some x =>
      rw [List.nodup_cons]
      refine ⟨?_, ih htl⟩
      intro hx
      obtain ⟨b, hb, hfb⟩ := List.mem_filterMap.mp hx
      exact hhd b hb x x hfa hfb rfl

theorem length_le_of_nodup_lt {l : List Nat} {K : Nat} (hn : l.Nodup)
    (hk : ∀ r ∈ l, r < K) : l.length ≤ K := by
  have hsub : l.toFinset ⊆ Finset.range K := by
    intro r hr
    rw [Finset.mem_range]
    exact hk r (List.mem_toFinset.mp hr)
  have := Finset.card_le_card hsub
  rw [List.toFinset_card_of_nodup hn, Finset.card_range] at this
  exact this

/-- At every program point, the number of live values held in registers is
at most the register-file size `K`. -/
theorem linearScan_pressure (K : Nat) (ivs : List Ival) (t : Nat)
    (hwf : ∀ j ∈ ivs, j.istart ≤ j.iend) :
    (regsAt t (linearScan K ivs)).length ≤ K := by
  obtain ⟨hpair, hK⟩ := linearScan_safe K ivs hwf
  have hlive : ∀ e ∈ (linearScan K ivs).filter
      (fun e => decide (e.1.istart ≤ t) && decide (t ≤ e.1.iend)),
      e.1.istart ≤ t ∧ t ≤ e.1.iend := by
    intro e he
    obtain ⟨_, hb⟩ := List.mem_filter.mp he
    simp only [Bool.and_eq_true, decide_eq_true_eq] at hb
    exact hb
  have hp2 := hpair.filter (fun e => decide (e.1.istart ≤ t) && decide (t ≤ e.1.iend))
  have hp3 : ((linearScan K ivs).filter
      (fun e => decide (e.1.istart ≤ t) && decide (t ≤ e.1.iend))).Pairwise
      (fun a b => ∀ x y, locReg a.2 = some x → locReg b.2 = some y → x ≠ y) := by
    rw [List.Pairwise.and_mem] at hp2
    refine hp2.imp ?_
    intro a b hab x y hax hby hxy
    obtain ⟨ha, hb, hd⟩ := hab
    have hla := locReg_eq_some hax
    have hlb := locReg_eq_some hby
    subst hxy
    have hdisj : IDisj a.1 b.1 := hd (by rw [hla, hlb])
    obtain ⟨ha1, ha2⟩ := hlive a ha
    obtain ⟨hb1, hb2⟩ := hlive b hb
    unfold IDisj at hdisj
    omega
  apply length_le_of_nodup_lt (nodup_filterMap_of_pairwise hp3)
  intro r hr
  obtain ⟨e, he, hfe⟩ := List.mem_filterMap.mp hr
  obtain ⟨hmem, _⟩ := List.mem_filter.mp he
  exact hK e hmem r (locReg_eq_some hfe)

/-! ## Termination of the embedded `factorial` (factorial_test.c) -/

theorem fact_lookup : lookupFn factorialTest "factorial" = some fnFactorial := rfl

theorem fact_cond (v : Int) (hN : i32 v = v) :
    evalE (0 + 1 + 1) factorialTest [("n", v)] (.bin .lt (.var "n") (.lit 2)) =
      some (if v < 2 then (1 : Int) else 0) := by
  rw [evalE_bin]
  have hl : lookupV [("n", v)] "n" = some v := by simp [lookupV]
  simp only [evalE_var, evalE_lit, hl, Option.map_some', Option.some_bind]
  rw [hN, show i32 (2 : Int) = 2 from i32_eq_self (by norm_num) (by norm_num)]
  rfl

theorem fact_cond2 (u : Nat) (v : Int) (hN : i32 v = v) (hu : 2 ≤ u) :
    evalE u factorialTest [("n", v)] (.bin .lt (.var "n") (.lit 2)) =
      some (if v < 2 then (1 : Int) else 0) :=
  evalE_mono (by omega) (fact_cond v hN)

theorem fact_sub (v : Int) (hN : i32 v = v) (hge : 2 ≤ v) :
    evalE (0 + 1 + 1) factorialTest [("n", v)] (.bin .sub (.var "n") (.lit 1)) =
      some (v - 1) := by
  have hb := norm32_bounds hN
  rw [evalE_bin]
  have hl : lookupV [("n", v)] "n" = some v := by simp [lookupV]
  simp only [evalE_var, evalE_lit, hl, Option.map_some', Option.some_bind]
  rw [hN, show i32 (1 : Int) = 1 from i32_eq_self (by norm_num) (by norm_num)]
  show some (i32 (v - 1)) = some (v - 1)
  rw [i32_eq_self (by omega) (by omega)]

theorem fact_sub2 (u : Nat) (v : Int) (hN : i32 v = v) (hge : 2 ≤ v) (hu : 2 ≤ u) :
    evalE u factorialTest [("n", v)] (.bin .sub (.var "n") (.lit 1)) =
      some (v - 1) :=
  evalE_mono (by omega) (fact_sub v hN hge)

theorem fact_base (g : Nat) (v : Int) (hN : i32 v = v) (hlt : v < 2) :
    callFn (g + 1 + 1 + 1 + 1 + 1 + 1) factorialTest "factorial" [v] = some 1 := by
  rw [callFn_succ, fact_lookup]
  simp only [Option.some_bind]
  show (execB (g + 1 + 1 + 1 + 1 + 1) factorialTest [("n", v)]
    (.cons (.ifS (.bin .lt (.var "n") (.lit 2))
      (.cons (.ret (.lit 1)) .nil)
      (.cons (.ret (.bin .mul (.var "n")
        (.call "factorial" (.cons (.bin .sub (.var "n") (.lit 1)) .nil)))) .nil))
      .nil)).bind retVal = some 1
  rw [execB_cons, execS_ifS, fact_cond2 (g + 3) v hN (by omega)]
  simp only [Option.some_bind]
  rw [if_pos hlt, (by decide : truthy (1 : Int) = true)]
  simp only [if_true]
  rw [execB_cons, execS_ret, evalE_lit]
  simp only [Option.some_bind]
  show some (i32 1) = some 1
  rw [show i32 (1 : Int) = 1 from i32_eq_self (by norm_num) (by norm_num)]

theorem fact_rec (f0 : Nat) (v r : Int) (hN : i32 v = v) (hge : 2 ≤ v)
    (hrec : callFn f0 factorialTest "factorial" [v - 1] = some r) :
    callFn (f0 + 1 + 1 + 1 + 1 + 1 + 1 + 1 + 1 + 1 + 1) factorialTest "factorial" [v] =
      some (i32 (v * r)) := by
  rw [callFn_succ, fact_lookup]
  simp only [Option.some_bind]
  show (execB (f0 + 1 + 1 + 1 + 1 + 1 + 1 + 1 + 1 + 1) factorialTest [("n", v)]
    (.cons (.ifS (.bin .lt (.var "n") (.lit 2))
      (.cons (.ret (.lit 1)) .nil)
      (.cons (.ret (.bin .mul (.var "n")
        (.call "factorial" (.cons (.bin .sub (.var "n") (.lit 1)) .nil)))) .nil))
      .nil)).bind retVal = some (i32 (v * r))
  rw [execB_cons, execS_ifS, fact_cond2 (f0 + 7) v hN (by omega)]
  simp only [Option.some_bind]
  rw [if_neg (by omega : ¬ v < 2), (by decide : truthy (0 : Int) = false)]
  simp only [Bool.false_eq_true, if_false]
  rw [execB_cons, execS_ret, evalE_bin, evalE_var]
  have hl : lookupV [("n", v)] "n" = some v := by simp [lookupV]
  rw [hl]
  simp only [Option.map_some', Option.some_bind]
  rw [hN, evalE_call, evalArgs_cons, fact_sub2 (f0 + 2) v hN hge (by omega)]
  simp only [Option.some_bind]
  rw [evalArgs_nil]
  simp only [Option.some_bind]
  rw [callFn_mono (by omega : f0 ≤ f0 + 3) hrec]
  simp only [Option.some_bind]
  rfl

/-- Every 32-bit argument makes the embedded `factorial` terminate (with
enough fuel the interpreter returns a value, never diverging). -/
theorem fact_total : ∀ (k : Nat) (v : Int), i32 v = v → v ≤ 1 + k →
    ∃ fuel r, callFn fuel factorialTest "factorial" [v] = some r := by
  intro k
  induction k with
  | zero =>
    intro v hN hle
    exact ⟨0 + 1 + 1 + 1 + 1 + 1 + 1, 1, fact_base 0 v hN (by omega)⟩
  | succ k ih =>
    intro v hN hle
    by_cases hlt : v < 2
    · exact ⟨0 + 1 + 1 + 1 + 1 + 1 + 1, 1, fact_base 0 v hN hlt⟩
    · have hb := norm32_bounds hN
      have hN1 : i32 (v - 1) = v - 1 := i32_eq_self (by omega) (by omega)
      obtain ⟨f0, r, h0⟩ := ih (v - 1) hN1 (by omega)
      exact ⟨f0 + 1 + 1 + 1 + 1 + 1 + 1 + 1 + 1 + 1 + 1, i32 (v * r),
        fact_rec f0 v r hN (by omega) h0⟩

/-! ## Algebraic identities of the smart constructor (spec §4.3) -/

theorem mkBin_add_zero {x : Expr} (hA : isLit x = none) :
    mkBin .add x (.lit 0) = x := by
  unfold mkBin
  rw [hA]
  rfl

theorem mkBin_mul_one {x : Expr} (hA : isLit x = none) :
    mkBin .mul x (.lit 1) = x := by
  unfold mkBin
  rw [hA]
  rfl

theorem mkBin_mul_zero {x : Expr} (hA : isLit x = none) :
    mkBin .mul x (.lit 0) = .lit 0 := by
  unfold mkBin
  rw [hA]
  rfl

theorem mkBin_sub_zero {x : Expr} (hA : isLit x = none) :
    mkBin .sub x (.lit 0) = x := by
  unfold mkBin
  rw [hA]
  rfl

theorem mkBin_div_one {x : Expr} (hA : isLit x = none) :
    mkBin .div x (.lit 1) = x := by
  unfold mkBin
  rw [hA]
  rfl

/-- Each of the five identity rewrites evaluates to exactly the value of
the unrewritten binary node, literal or not. -/
theorem mkBin_id_pres (x : Expr) (f : Nat) (p : Prog) (env : Env) (va : Int)
    (ha : evalE (f + 1) p env x = some va) :
    evalE (f + 1 + 1) p env (mkBin .add x (.lit 0)) =
      evalE (f + 1 + 1) p env (.bin .add x (.lit 0)) ∧
    evalE (f + 1 + 1) p env (mkBin .mul x (.lit 1)) =
      evalE (f + 1 + 1) p env (.bin .mul x (.lit 1)) ∧
    evalE (f + 1 + 1) p env (mkBin .mul x (.lit 0)) =
      evalE (f + 1 + 1) p env (.bin .mul x (.lit 0)) ∧
    evalE (f + 1 + 1) p env (mkBin .sub x (.lit 0)) =
      evalE (f + 1 + 1) p env (.bin .sub x (.lit 0)) ∧
    evalE (f + 1 + 1) p env (mkBin .div x (.lit 1)) =
      evalE (f + 1 + 1) p env (.bin .div x (.lit 1)) := by
  have hva := evalE_norm ha
  have hrhs : ∀ (op : BinOp) (c : Int), evalE (f + 1 + 1) p env (.bin op x (.lit c)) =
      some (denotBin op va (i32 c)) := by
    intro op c
    rw [evalE_bin, ha]
    simp only [Option.some_bind, evalE_lit]
  have hz : i32 (0 : Int) = 0 := norm32_zero
  have ho : i32 (1 : Int) = 1 := norm32_one
  cases hA : isLit x with
  | none =>
    refine ⟨?_, ?_, ?_, ?_, ?_⟩
    · rw [mkBin_add_zero hA, hrhs, hz, denot_add_zero hva]
      exact evalE_mono (Nat.le_succ _) ha
    · rw [mkBin_mul_one hA, hrhs, ho, denot_mul_one hva]
      exact evalE_mono (Nat.le_succ _) ha
    · rw [mkBin_mul_zero hA, hrhs, hz, denot_mul_zero va, evalE_lit, hz]
    · rw [mkBin_sub_zero hA, hrhs, hz, denot_sub_zero hva]
      exact evalE_mono (Nat.le_succ _) ha
    · rw [mkBin_div_one hA, hrhs, ho, denot_div_one hva]
      exact evalE_mono (Nat.le_succ _) ha
  | some w =>
    have hx : x = .lit w := isLit_eq hA
    subst hx
    have hw : va = i32 w := evalE_lit_inv ha
    subst hw
    refine ⟨?_, ?_, ?_, ?_, ?_⟩
    · have hL : mkBin .add (.lit w) (.lit 0) = .lit (denotBin .add w 0) := rfl
      rw [hL, evalE_lit, hrhs]
      refine congrArg some ?_
      simp only [denotBin, add_zero, hz, i32_idem]
    · have hL : mkBin .mul (.lit w) (.lit 1) = .lit (denotBin .mul w 1) := rfl
      rw [hL, evalE_lit, hrhs]
      refine congrArg some ?_
      simp only [denotBin, mul_one, ho, i32_idem]
    · have hL : mkBin .mul (.lit w) (.lit 0) = .lit (denotBin .mul w 0) := rfl
      rw [hL, evalE_lit, hrhs]
      refine congrArg some ?_
      simp only [denotBin, mul_zero, hz, i32_idem]
    · have hL : mkBin .sub (.lit w) (.lit 0) = .lit (denotBin .sub w 0) := rfl
      rw [hL, evalE_lit, hrhs]
      refine congrArg some ?_
      simp only [denotBin, sub_zero, hz, i32_idem]
    · have hL : mkBin .div (.lit w) (.lit 1) = .lit (denotBin .div w 1) := rfl
      rw [hL, evalE_lit, hrhs]
      refine congrArg some ?_
      simp only [denotBin, Int.tdiv_one, ho, i32_idem]

/-! ## Claim theorems -/

/-- C1: for every input program the semantic analyzer accepts, executing
the output of the full optimization pipeline (constant
folding/propagation, dead-code elimination, inlining, unrolling; register
allocation annotates the lowered form and does not rewrite the AST)
returns the same observable result as executing the unoptimized AST. -/
theorem claim_C1_pipeline_equivalence (p : Prog) (fuel : Nat) (v : Int)
    (hacc : semCheck p = true) (hrun : execProgram p fuel = some v) :
    ∃ G, execProgram (pipeline p) G = some v :=
  pipeline_preserves hrun

theorem claim_C1_pipeline_equivalence_witness :
    semCheck deadCodeTest = true ∧ execProgram deadCodeTest 50 = some 27 ∧
      ∃ G, execProgram (pipeline deadCodeTest) G = some 27 :=
  ⟨rfl, rfl, claim_C1_pipeline_equivalence deadCodeTest 50 27 rfl rfl⟩

/-- C2: dead-code elimination (reachability pruning then liveness-based
removal) preserves every completed execution, so it never removes a
reachable statement with an observable effect; on
function_with_unused_vars it keeps the declaration and the use of
used_var and removes exactly unused_var and the dead stores to
dead_store. -/
theorem claim_C2_dce_safety :
    (∀ (p : Prog) (fuel : Nat) (v : Int), execProgram p fuel = some v →
      execProgram (liveProg (truncProg p)) fuel = some v) ∧
    lookupFn (liveProg (truncProg deadCodeTest)) "function_with_unused_vars" =
      some ⟨"function_with_unused_vars", ["x"],
        .cons (.decl "used_var" (.lit 20))
        (.cons (.ret (.bin .add (.var "used_var") (.var "x"))) .nil)⟩ :=
  ⟨fun _ _ _ h => liveProg_preserves (truncProg_preserves h), rfl⟩

theorem claim_C2_dce_safety_witness :
    execProgram deadCodeTest 50 = some 27 ∧
      execProgram (liveProg (truncProg deadCodeTest)) 50 = some 27 :=
  ⟨rfl, claim_C2_dce_safety.1 deadCodeTest 50 27 rfl⟩

/-- C3: inlining preserves execution results on every program; in
function_inlining_test the two call sites add(x,y) and add(sum,prod) are
each replaced by the callee body under a fresh per-site parameter
substitution (x+y and sum+prod — no aliasing between the two copies), and
the inlined program returns 91 exactly like the original. -/
theorem claim_C3_inlining :
    (∀ (p : Prog) (fuel : Nat) (v : Int), execProgram p fuel = some v →
      ∃ G, execProgram (inlineProg p) G = some v) ∧
    lookupFn (inlineProg inliningTest) "main" = some ⟨"main", [],
      .cons (.decl "x" (.lit 10))
      (.cons (.decl "y" (.lit 5))
      (.cons (.decl "sum" (.bin .add (.var "x") (.var "y")))
      (.cons (.decl "prod" (.bin .mul (.var "x") (.lit 3)))
      (.cons (.decl "sq" (.call "multiply" (.cons (.lit 4) (.cons (.lit 4) .nil))))
      (.cons (.decl "sum2" (.bin .add (.var "sum") (.var "prod")))
      (.cons (.decl "prod2" (.bin .mul (.var "sq") (.lit 2)))
      (.cons (.decl "complex" (.call "complex_calculation"
        (.cons (.var "x") (.cons (.var "y") (.cons (.var "sum") .nil)))))
      (.cons (.ret (.bin .add (.bin .add (.bin .add (.var "sum") (.var "prod"))
        (.var "sq")) (.var "complex")))
      .nil))))))))⟩ ∧
    execProgram inliningTest 50 = some 91 ∧
    execProgram (inlineProg inliningTest) 50 = some 91 :=
  ⟨fun _ _ _ h => inlineProg_preserves h, rfl, rfl, rfl⟩

theorem claim_C3_inlining_witness :
    execProgram inliningTest 50 = some 91 ∧
      ∃ G, execProgram (inlineProg inliningTest) G = some 91 :=
  ⟨rfl, claim_C3_inlining.1 inliningTest 50 91 rfl⟩

/-- C4: the trip-count-3 loop of simple_unroll_test.c is fully unrolled —
the body is replicated once per iteration with i substituted by the
literals 0, 1 and 2 and the for construct deleted — and the pipeline's
subsequent folding/propagation/DCE reduce main to returning the literal
3; the optimized program returns 3, the same value as the unoptimized
one. -/
theorem claim_C4_full_unroll :
    unrollProg simpleUnrollTest = [⟨"main", [],
      .cons (.decl "sum" (.lit 0))
      (.cons (.blockS (
        .cons (.decl "i" (.lit 0))
        (.cons (.assign "sum" (.bin .add (.var "sum") (.lit 0)))
        (.cons (.assign "i" (.lit 1))
        (.cons (.assign "sum" (.bin .add (.var "sum") (.lit 1)))
        (.cons (.assign "i" (.lit 2))
        (.cons (.assign "sum" (.bin .add (.var "sum") (.lit 2)))
        (.cons (.assign "i" (.lit 3)) .nil))))))))
      (.cons (.ret (.var "sum")) .nil))⟩] ∧
    pipeline simpleUnrollTest = [⟨"main", [],
      .cons (.blockS .nil) (.cons (.ret (.lit 3)) .nil)⟩] ∧
    execProgram simpleUnrollTest 50 = some 3 ∧
    execProgram (pipeline simpleUnrollTest) 50 = some 3 :=
  ⟨rfl, rfl, rfl, rfl⟩

/-- C5: every function other than the entry point with zero call sites is
removed by the dead-function step and absent from the final output; in
particular unused_function of dead_code_test.c, which is never called,
does not appear in the compiled result. -/
theorem claim_C5_dead_function_removal :
    (∀ (p : Prog) (f : Fn), f ∈ p → f.name ≠ "main" → callCount p f.name = 0 →
      f ∉ removeDeadFns p) ∧
    callCount deadCodeTest "unused_function" = 0 ∧
    lookupFn (pipeline deadCodeTest) "unused_function" = none :=
  ⟨fun _ _ h1 h2 h3 => removeDeadFns_removes h1 h2 h3, rfl, rfl⟩

theorem claim_C5_dead_function_removal_witness :
    fnUnusedFunction ∈ deadCodeTest ∧ fnUnusedFunction.name ≠ "main" ∧
      callCount deadCodeTest fnUnusedFunction.name = 0 ∧
      fnUnusedFunction ∉ removeDeadFns deadCodeTest :=
  ⟨by decide, by decide, rfl,
    claim_C5_dead_function_removal.1 deadCodeTest fnUnusedFunction
      (by decide) (by decide) rfl⟩

/-- C6: the constant engine rewrites x+0 to x, x*1 to x, x*0 to 0, x-0 to
x and x/1 to x for every expression x — as a syntactic node removal
whenever x is not itself a literal, and by folding to the identical value
when it is — and every one of the five rewrites evaluates to exactly the
value of the original binary expression. -/
theorem claim_C6_algebraic_identities (x : Expr) (f : Nat) (p : Prog) (env : Env)
    (va : Int) (ha : evalE (f + 1) p env x = some va) :
    (isLit x = none →
      mkBin .add x (.lit 0) = x ∧ mkBin .mul x (.lit 1) = x ∧
      mkBin .mul x (.lit 0) = .lit 0 ∧ mkBin .sub x (.lit 0) = x ∧
      mkBin .div x (.lit 1) = x) ∧
    (evalE (f + 1 + 1) p env (mkBin .add x (.lit 0)) =
        evalE (f + 1 + 1) p env (.bin .add x (.lit 0)) ∧
      evalE (f + 1 + 1) p env (mkBin .mul x (.lit 1)) =
        evalE (f + 1 + 1) p env (.bin .mul x (.lit 1)) ∧
      evalE (f + 1 + 1) p env (mkBin .mul x (.lit 0)) =
        evalE (f + 1 + 1) p env (.bin .mul x (.lit 0)) ∧
      evalE (f + 1 + 1) p env (mkBin .sub x (.lit 0)) =
        evalE (f + 1 + 1) p env (.bin .sub x (.lit 0)) ∧
      evalE (f + 1 + 1) p env (mkBin .div x (.lit 1)) =
        evalE (f + 1 + 1) p env (.bin .div x (.lit 1))) :=
  ⟨fun hA => ⟨mkBin_add_zero hA, mkBin_mul_one hA, mkBin_mul_zero hA,
    mkBin_sub_zero hA, mkBin_div_one hA⟩,
   mkBin_id_pres x f p env va ha⟩

theorem claim_C6_algebraic_identities_witness :
    mkBin .add (.var "a") (.lit 0) = .var "a" ∧
      evalE (1 + 1 + 1) [] [("a", 5)] (mkBin .mul (.var "a") (.lit 0)) =
        evalE (1 + 1 + 1) [] [("a", 5)] (.bin .mul (.var "a") (.lit 0)) :=
  ⟨((claim_C6_algebraic_identities (.var "a") 1 [] [("a", 5)] 5 rfl).1 rfl).1,
   (claim_C6_algebraic_identities (.var "a") 1 [] [("a", 5)] 5 rfl).2.2.2.1⟩

/-- C7: constant folding is idempotent — applying the pass twice yields
exactly the AST of applying it once, for every program. -/
theorem claim_C7_fold_idempotent (p : Prog) :
    foldProg (foldProg p) = foldProg p :=
  foldProg_idem p

/-- C8: declare fails with DuplicateDeclaration exactly when the name is
already in the current (innermost) frame — a name only in an outer frame
is shadowed, not an error — and lookup searches frames innermost to
outermost, failing with UndeclaredIdentifier exactly when no frame
contains the name. -/
theorem claim_C8_symbol_table :
    (∀ (name : String) (ty : CType) (f : Frame) (rest : Scopes),
      declare name ty (f :: rest) = .error .DuplicateDeclaration ↔
        inFrame f name = true) ∧
    (∀ (name : String) (ty : CType) (f : Frame) (rest : Scopes),
      inFrame f name = false →
      declare name ty (f :: rest) = .ok (((name, ty) :: f) :: rest)) ∧
    (∀ (name : String) (sc : Scopes),
      lookupS name sc = .error .UndeclaredIdentifier ↔
        ∀ fr ∈ sc, inFrame fr name = false) ∧
    (∀ (name : String) (f : Frame) (rest : Scopes) (pr : String × CType),
      f.find? (fun q => q.1 == name) = some pr →
      lookupS name (f :: rest) = .ok pr.2) ∧
    (∀ (name : String) (f : Frame) (rest : Scopes),
      inFrame f name = false → lookupS name (f :: rest) = lookupS name rest) :=
  ⟨declare_dup_iff, declare_shadow, lookupS_err_iff, lookupS_inner, lookupS_outer⟩

theorem claim_C8_symbol_table_witness :
    declare "x" .intT [[("x", CType.intT)], []] = .error .DuplicateDeclaration ∧
    declare "x" .intT [[], [("x", CType.intT)]] =
      .ok [[("x", CType.intT)], [("x", CType.intT)]] ∧
    lookupS "y" [[("x", CType.intT)]] = .error .UndeclaredIdentifier ∧
    lookupS "x" [[("x", CType.floatT)], [("x", CType.intT)]] = .ok .floatT ∧
    lookupS "x" [[], [("x", CType.intT)]] = lookupS "x" [[("x", CType.intT)]] :=
  ⟨(claim_C8_symbol_table.1 "x" .intT [("x", CType.intT)] []).mpr (by decide),
   claim_C8_symbol_table.2.1 "x" .intT [] [[("x", CType.intT)]] (by decide),
   (claim_C8_symbol_table.2.2.1 "y" [[("x", CType.intT)]]).mpr (by decide),
   claim_C8_symbol_table.2.2.2.1 "x" [("x", CType.floatT)] [[("x", CType.intT)]]
     ("x", CType.floatT) (by decide),
   claim_C8_symbol_table.2.2.2.2 "x" [] [[("x", CType.intT)]] (by decide)⟩

/-- C9: the register allocator's output satisfies the spec invariants —
at every program point at most register-file-size many live values sit in
registers; no register or spill slot is reused by another overlapping
live interval; every spilled value is reloaded immediately before each of
its uses in the emitted stream. -/
theorem claim_C9_regalloc_invariants :
    (∀ (K : Nat) (ivs : List Ival) (t : Nat), (∀ j ∈ ivs, j.istart ≤ j.iend) →
      (regsAt t (linearScan K ivs)).length ≤ K) ∧
    (∀ (K : Nat) (ivs : List Ival), (∀ j ∈ ivs, j.istart ≤ j.iend) →
      (linearScan K ivs).Pairwise SameLocDisj ∧
      ∀ e ∈ linearScan K ivs, ∀ r, e.2 = Loc.reg r → r < K) ∧
    (∀ (sp : List String) (k : Nat) (pt : PPoint) (x : String),
      x ∈ pt.reads → sp.contains x = true →
      ∃ pre post, emitPoint sp k pt = pre ++ MInstr.op k :: post ∧
        MInstr.load x ∈ pre) :=
  ⟨linearScan_pressure, linearScan_safe, emitPoint_reload⟩

theorem claim_C9_regalloc_invariants_witness :
    (regsAt 3 (linearScan 1 [⟨"a", 0, 5⟩, ⟨"b", 2, 4⟩])).length ≤ 1 ∧
      ∃ pre post, emitPoint ["a"] 7 ⟨["a"], []⟩ = pre ++ MInstr.op 7 :: post ∧
        MInstr.load "a" ∈ pre :=
  ⟨claim_C9_regalloc_invariants.1 1 [⟨"a", 0, 5⟩, ⟨"b", 2, 4⟩] 3 (by decide),
   claim_C9_regalloc_invariants.2.2 ["a"] 7 ⟨["a"], []⟩ "a" (by decide) (by decide)⟩

/-- C10: the factorial of factorial_test.c terminates for every int
argument — at some finite fuel the interpreter returns a value, the
recursion on n-1 being well-founded — and for n < 2 it returns 1
immediately. -/
theorem claim_C10_factorial_terminates (n : Int) :
    (∃ fuel r, callFn fuel factorialTest "factorial" [i32 n] = some r) ∧
    (i32 n < 2 →
      callFn (0 + 1 + 1 + 1 + 1 + 1 + 1) factorialTest "factorial" [i32 n] = some 1) :=
  ⟨fact_total (i32 n).toNat (i32 n) (i32_idem n) (by omega),
   fun h => fact_base 0 (i32 n) (i32_idem n) h⟩

theorem claim_C10_factorial_terminates_witness :
    (∃ fuel r, callFn fuel factorialTest "factorial" [i32 5] = some r) ∧
      callFn (0 + 1 + 1 + 1 + 1 + 1 + 1) factorialTest "factorial" [i32 0] = some 1 :=
  ⟨(claim_C10_factorial_terminates 5).1,
   (claim_C10_factorial_terminates 0).2 (by decide)⟩

end CComp
